import Mathlib

/-!
# Basic block cache (`block-cache.hpp`)

A shallow embedding of `block_cache<block_info, block_allocator>`: the hash index
`cache_tags`, the intrusive bucket chains (`next_same_cl` / `prev_same_cl_p`), the two
pool lists (`next` / `prev_p`, heads `active` and `dormant`), lookup, raise, range
invalidation and full clear.

Pointers to entries are natural numbers (`none` is `NULL`); a value of type `entry **`
is a `Slot`, naming the pointer variable it designates.  The heap of entries is kept
field by field: one map per member of `struct entry`.
-/

namespace BlockCache

/-! ## Data model -/

/-- The members the cache uses of its `block_info` template parameter. -/
class block_info (β : Type) where
  /-- Member `pc`: the address the block starts at. -/
  pc : β → Nat
  /-- Method `intersect(start, end)`. -/
  intersect : β → Nat → Nat → Bool
  /-- Method `invalidate()`, as its effect on the block it is called on. -/
  invalidate : β → β

def HASH_BITS : Nat := 15

def HASH_SIZE : Nat := 1 <<< HASH_BITS

def HASH_MASK : Nat := HASH_SIZE - 1

/-- The hash key: `(addr >> 2) & HASH_MASK`. -/
def cacheline (addr : Nat) : Nat := (addr >>> 2) &&& HASH_MASK

/-- A value of type `entry **`: the pointer variable it points at. -/
inductive Slot where
  /-- The address of `cache_tags[cl]`. -/
  | tag (cl : Nat)
  /-- The address of `e->next_same_cl`. -/
  | next_same_cl (e : Nat)
  /-- The address of `active`. -/
  | active
  /-- The address of `dormant`. -/
  | dormant
  /-- The address of `e->next`. -/
  | next (e : Nat)
  deriving DecidableEq

/-- The four counters of `stats` (each a `uint32`). -/
structure stats_t where
  searches : Nat
  hits : Nat
  misses : Nat
  faults : Nat
  deriving DecidableEq

/-- The cache object together with the heap of entries it points into.  The first five
fields are the members of `struct entry` (the `block_info` base and the four links), each
as a map from entry addresses.  `released` lists the arguments of the calls of
`allocator.release`, `invalidated` those of the calls of `invalidate()`, oldest first. -/
structure block_cache (β : Type) where
  info : Nat → β
  next_same_cl : Nat → Option Nat
  prev_same_cl_p : Nat → Option Slot
  next : Nat → Option Nat
  prev_p : Nat → Option Slot
  cache_tags : Nat → Option Nat
  active : Option Nat
  dormant : Option Nat
  stats : stats_t
  released : List Nat
  invalidated : List Nat

variable {β : Type}

/-- The assignment `*sl = v` through an `entry **`. -/
def store (s : block_cache β) (sl : Slot) (v : Option Nat) : block_cache β :=
  match sl with
  | .tag cl => { s with cache_tags := Function.update s.cache_tags cl v }
  | .next_same_cl e => { s with next_same_cl := Function.update s.next_same_cl e v }
  | .active => { s with active := v }
  | .dormant => { s with dormant := v }
  | .next e => { s with next := Function.update s.next e v }

/-- Unsigned 32-bit increment, as in `stats.searches++`. -/
def incr32 (n : Nat) : Nat := (n + 1) % 2 ^ 32

/-- The value of `x - 1` for an `uintptr` of `W` bits. -/
def uintptr_pred (W x : Nat) : Nat := (x + 2 ^ W - 1) % 2 ^ W

/-! ## Operations -/

/-- The operation `initialize()`: every bucket head becomes `NULL`. -/
def initialize_tags (s : block_cache β) : block_cache β :=
  { s with cache_tags := fun _ => none }

/-- The constructor `block_cache()`, run on memory in the state `s`: `active` and
`dormant` are `NULL`, the counters are zeroed, no entry has been invalidated or released
yet, and `initialize()` is run.  The entries themselves are not written. -/
def block_cache.construct (s : block_cache β) : block_cache β :=
  initialize_tags
    { s with active := none, dormant := none, stats := ⟨0, 0, 0, 0⟩, released := [],
             invalidated := [] }

/-- Modelled from the spec: `release` of the allocation strategy (`block-alloc.hpp` is not
among the sources).  The storage of `bce` goes back to the allocator, which `released`
records; the links and the payload stored there are not written. -/
def allocator_release (s : block_cache β) (bce : Nat) : block_cache β :=
  { s with released := s.released ++ [bce] }

def delete_blockinfo (s : block_cache β) (bi : Nat) : block_cache β :=
  allocator_release s bi

def remove_from_cl_list (s : block_cache β) (bce : Nat) : block_cache β :=
  let s1 := match s.prev_same_cl_p bce with
    | some sl => store s sl (s.next_same_cl bce)
    | none => s
  match s1.next_same_cl bce with
  | some n =>
    { s1 with prev_same_cl_p := Function.update s1.prev_same_cl_p n (s1.prev_same_cl_p bce) }
  | none => s1

def add_to_cl_list [block_info β] (s : block_cache β) (bce : Nat) : block_cache β :=
  let cl := cacheline (block_info.pc (s.info bce))
  let s1 := match s.cache_tags cl with
    | some h =>
      { s with prev_same_cl_p := Function.update s.prev_same_cl_p h (some (Slot.next_same_cl bce)) }
    | none => s
  let s2 := { s1 with next_same_cl := Function.update s1.next_same_cl bce (s1.cache_tags cl) }
  let s3 := { s2 with cache_tags := Function.update s2.cache_tags cl (some bce) }
  { s3 with prev_same_cl_p := Function.update s3.prev_same_cl_p bce (some (Slot.tag cl)) }

def raise_in_cl_list [block_info β] (s : block_cache β) (bi : Nat) : block_cache β :=
  add_to_cl_list (remove_from_cl_list s bi) bi

def remove_from_list (s : block_cache β) (bce : Nat) : block_cache β :=
  let s1 := match s.prev_p bce with
    | some sl => store s sl (s.next bce)
    | none => s
  match s1.next bce with
  | some n => { s1 with prev_p := Function.update s1.prev_p n (s1.prev_p bce) }
  | none => s1

def add_to_active_list (s : block_cache β) (bce : Nat) : block_cache β :=
  let s1 := match s.active with
    | some h => { s with prev_p := Function.update s.prev_p h (some (Slot.next bce)) }
    | none => s
  let s2 := { s1 with next := Function.update s1.next bce s1.active }
  let s3 := { s2 with active := some bce }
  { s3 with prev_p := Function.update s3.prev_p bce (some Slot.active) }

def add_to_dormant_list (s : block_cache β) (bce : Nat) : block_cache β :=
  let s1 := match s.dormant with
    | some h => { s with prev_p := Function.update s.prev_p h (some (Slot.next bce)) }
    | none => s
  let s2 := { s1 with next := Function.update s1.next bce s1.dormant }
  let s3 := { s2 with dormant := some bce }
  { s3 with prev_p := Function.update s3.prev_p bce (some Slot.dormant) }

def remove_from_lists (s : block_cache β) (bi : Nat) : block_cache β :=
  remove_from_list (remove_from_cl_list s bi) bi

/-- The lookup `fast_find(pc)`: the state it leaves and the pointer it returns. -/
def fast_find [block_info β] (s : block_cache β) (pc : Nat) : block_cache β × Option Nat :=
  match s.cache_tags (cacheline pc) with
  | some bce => if block_info.pc (s.info bce) = pc then (s, some bce) else (s, none)
  | none => (s, none)

/-- The `while (bce)` loop of `find` and the fault exit after it.  `none` is returned
only when the fuel runs out. -/
def find_scan [block_info β] (pc : Nat) :
    Nat → block_cache β → Option Nat → Option (block_cache β × Option Nat)
  | 0, _, _ => none
  | fuel + 1, s, bce =>
    match bce with
    | none => some ({ s with stats := { s.stats with faults := incr32 s.stats.faults } }, none)
    | some b =>
      match s.next_same_cl b with
      | some n =>
        if block_info.pc (s.info n) = pc then
          let s1 := raise_in_cl_list s n
          some ({ s1 with stats := { s1.stats with misses := incr32 s1.stats.misses } }, some n)
        else find_scan pc fuel s (some n)
      | none => find_scan pc fuel s none

/-- The lookup `find(pc)`. -/
def find [block_info β] (fuel : Nat) (s : block_cache β) (pc : Nat) :
    Option (block_cache β × Option Nat) :=
  let cl := cacheline pc
  let s0 := { s with stats := { s.stats with searches := incr32 s.stats.searches } }
  match s0.cache_tags cl with
  | some bce =>
    if block_info.pc (s0.info bce) = pc then
      some ({ s0 with stats := { s0.stats with hits := incr32 s0.stats.hits } }, some bce)
    else find_scan pc fuel s0 (some bce)
  | none => find_scan pc fuel s0 none

/-- One `while (p)` loop of `clear`. -/
def clear_list : Nat → block_cache β → Option Nat → Option (block_cache β)
  | 0, _, _ => none
  | fuel + 1, s, p =>
    match p with
    | none => some s
    | some d => clear_list fuel (delete_blockinfo s d) (s.next d)

def clear (fuel : Nat) (s : block_cache β) : Option (block_cache β) :=
  match clear_list fuel s s.active with
  | none => none
  | some s1 =>
    let s2 := { s1 with active := none }
    match clear_list fuel s2 s2.dormant with
    | none => none
    | some s3 => some { s3 with dormant := none }

/-- The statements guarded by `if (q->intersect(start, end))` in `clear_range`, the same
four in both branches. -/
def clear_range_drop [block_info β] (s : block_cache β) (q : Nat) : block_cache β :=
  let s1 := { s with info := Function.update s.info q (block_info.invalidate (s.info q)),
                     invalidated := s.invalidated ++ [q] }
  delete_blockinfo (remove_from_list (remove_from_cl_list s1 q) q) q

/-- The inner `while (p)` loop of the bucket branch of `clear_range`. -/
def clear_range_line [block_info β] (start end_ : Nat) :
    Nat → block_cache β → Option Nat → Option (block_cache β)
  | 0, _, _ => none
  | fuel + 1, s, p =>
    match p with
    | none => some s
    | some q =>
      if block_info.intersect (s.info q) start end_ then
        clear_range_line start end_ fuel (clear_range_drop s q) (s.next_same_cl q)
      else clear_range_line start end_ fuel s (s.next_same_cl q)

/-- The `for (cl = cacheline(start); cl <= end_cl; cl++)` loop, over the values `cl`
takes. -/
def clear_range_lines [block_info β] (start end_ fuel : Nat) :
    List Nat → block_cache β → Option (block_cache β)
  | [], s => some s
  | cl :: cls, s =>
    match clear_range_line start end_ fuel s (s.cache_tags cl) with
    | none => none
    | some s1 => clear_range_lines start end_ fuel cls s1

/-- The `while (p)` loop of the active-list branch of `clear_range`. -/
def clear_range_pool [block_info β] (start end_ : Nat) :
    Nat → block_cache β → Option Nat → Option (block_cache β)
  | 0, _, _ => none
  | fuel + 1, s, p =>
    match p with
    | none => some s
    | some q =>
      if block_info.intersect (s.info q) start end_ then
        clear_range_pool start end_ fuel (clear_range_drop s q) (s.next q)
      else clear_range_pool start end_ fuel s (s.next q)

/-- The `while (p)` loop of the active-list branch of `clear_range` once more, also
recording the entries whose `intersect` is called, in the order of the calls. -/
def clear_range_pool_tested [block_info β] (start end_ : Nat) :
    Nat → block_cache β → Option Nat → Option (block_cache β × List Nat)
  | 0, _, _ => none
  | fuel + 1, s, p =>
    match p with
    | none => some (s, [])
    | some q =>
      if block_info.intersect (s.info q) start end_ then
        match clear_range_pool_tested start end_ fuel (clear_range_drop s q) (s.next q) with
        | none => none
        | some (s1, t) => some (s1, q :: t)
      else
        match clear_range_pool_tested start end_ fuel s (s.next q) with
        | none => none
        | some (s1, t) => some (s1, q :: t)

/-- The operation `clear_range(start, end)`, for an `uintptr` of `W` bits. -/
def clear_range [block_info β] (W fuel : Nat) (s : block_cache β) (start end_ : Nat) :
    Option (block_cache β) :=
  match s.active with
  | none => some s
  | some _ =>
    if cacheline start < cacheline (uintptr_pred W end_) then
      let end_cl := cacheline (uintptr_pred W end_)
      clear_range_lines start end_ fuel
        (List.range' (cacheline start) (end_cl + 1 - cacheline start)) s
    else clear_range_pool start end_ fuel s s.active

/-- How the index report of `print_statistics` ends: with the four numbers it prints, or
in the division `average /= c` with `c = 0`, which C++ leaves undefined. -/
inductive index_report where
  | printed (c min max average : Nat)
  | division_by_zero
  deriving DecidableEq

/-- The locals `c`, `min`, `max` and `average` of `print_statistics`, all `uint32`. -/
structure index_totals where
  c : Nat
  min : Nat
  max : Nat
  average : Nat
  deriving DecidableEq

/-- The loop `while (e) { e = e->next_same_cl; ct++; }` of `print_statistics`, `ct` being
an `uint32`. -/
def count_chain (s : block_cache β) : Nat → Option Nat → Nat → Option Nat
  | 0, _, _ => none
  | _ + 1, none, ct => some ct
  | fuel + 1, some e, ct => count_chain s fuel (s.next_same_cl e) (incr32 ct)

/-- The `for (cl = 0; cl < HASH_SIZE; cl++)` loop of `print_statistics`, over the values
`cl` takes. -/
def index_scan (s : block_cache β) (fuel : Nat) : List Nat → index_totals → Option index_totals
  | [], t => some t
  | cl :: cls, t =>
    match s.cache_tags cl with
    | none => index_scan s fuel cls t
    | some e =>
      match count_chain s fuel (some e) 0 with
      | none => none
      | some ct =>
        index_scan s fuel cls
          { c := incr32 t.c
            max := if ct > t.max then ct else t.max
            min := if ct < t.min then ct else t.min
            average := (t.average + ct) % 2 ^ 32 }

/-- The operation `print_statistics()`: the counters are zeroed after they are printed,
then the index report is computed.  What goes to `stderr` is not modelled, except the four
numbers of the index report. -/
def print_statistics (fuel : Nat) (s : block_cache β) : Option (block_cache β × index_report) :=
  let s0 := { s with stats := ⟨0, 0, 0, 0⟩ }
  match index_scan s0 fuel (List.range HASH_SIZE) ⟨0, 2 ^ 32 - 1, 0, 0⟩ with
  | none => none
  | some t =>
    if t.c = 0 then some (s0, index_report.division_by_zero)
    else some (s0, index_report.printed t.c t.min t.max (t.average / t.c))

/-- The calls `find(pc_1)`, ..., `find(pc_N)` one after the other: the state after the
last and the pointers returned, in call order. -/
def find_seq [block_info β] (fuel : Nat) :
    block_cache β → List Nat → Option (block_cache β × List (Option Nat))
  | s, [] => some (s, [])
  | s, pc :: pcs =>
    match find fuel s pc with
    | none => none
    | some (s1, r) =>
      match find_seq fuel s1 pcs with
      | none => none
      | some (s2, rs) => some (s2, r :: rs)

/-- A lookup call: `find(pc)` or `fast_find(pc)`. -/
inductive lookup where
  | call_find (pc : Nat)
  | call_fast_find (pc : Nat)

/-- A sequence of lookup calls, one after the other: the state after the last. -/
def run_lookups [block_info β] (fuel : Nat) :
    block_cache β → List lookup → Option (block_cache β)
  | s, [] => some s
  | s, lookup.call_find pc :: cs =>
    match find fuel s pc with
    | none => none
    | some (s1, _) => run_lookups fuel s1 cs
  | s, lookup.call_fast_find pc :: cs => run_lookups fuel (fast_find s pc).1 cs

/-! ## Abstraction: the list a chain of pointers spells out -/

/-- Following `nx` from the pointer `h` visits exactly the entries of `l`, in this
order, and then reaches `NULL`. -/
def IsChain (nx : Nat → Option Nat) : Option Nat → List Nat → Prop
  | h, [] => h = none
  | h, a :: l => h = some a ∧ IsChain nx (nx a) l

/-- As `IsChain`, and every entry's back-reference `pv` designates the pointer variable
that points at it: the head slot `sl` for the first entry, the link field `mk p` of its
predecessor `p` for any other. -/
def Linked (nx : Nat → Option Nat) (pv : Nat → Option Slot) (mk : Nat → Slot) :
    Slot → Option Nat → List Nat → Prop
  | _, h, [] => h = none
  | sl, h, a :: l => h = some a ∧ pv a = some sl ∧ Linked nx pv mk (mk a) (nx a) l

/-- The entries of bucket `i`, in chain order, are `l`. -/
def bucket_chain (s : block_cache β) (i : Nat) (l : List Nat) : Prop :=
  IsChain s.next_same_cl (s.cache_tags i) l

/-- The entries of the active list, in list order, are `l`. -/
def active_list (s : block_cache β) (l : List Nat) : Prop :=
  IsChain s.next s.active l

/-- The entries of the dormant list, in list order, are `l`. -/
def dormant_list (s : block_cache β) (l : List Nat) : Prop :=
  IsChain s.next s.dormant l

/-- Every bucket chain is acyclic: following `next_same_cl` from the bucket head reaches
`NULL`. -/
def acyclic_chains (s : block_cache β) : Prop :=
  ∀ i, i < HASH_SIZE → ∃ l, bucket_chain s i l

/-- Every bucket chain is acyclic (it reaches `NULL`) and holds only entries whose `pc`
hashes to that bucket. -/
def chains_ok [block_info β] (s : block_cache β) : Prop :=
  ∀ i, i < HASH_SIZE → ∃ l, bucket_chain s i l ∧
    ∀ e ∈ l, cacheline (block_info.pc (s.info e)) = i

/-- The stored `pc` of entry `e` is `pc`. -/
def pc_is [block_info β] (s : block_cache β) (pc : Nat) (e : Nat) : Bool :=
  decide (block_info.pc (s.info e) = pc)

/-- What the `while` loop of `find` leaves and returns when the entries still ahead of
it are `l`: a fault if none of them has the `pc`, else the first that has it, raised. -/
def scan_result [block_info β] (s : block_cache β) (pc : Nat) (l : List Nat) :
    block_cache β × Option Nat :=
  match l.find? (pc_is s pc) with
  | none => ({ s with stats := { s.stats with faults := incr32 s.stats.faults } }, none)
  | some e =>
    ({ raise_in_cl_list s e with
        stats := { (raise_in_cl_list s e).stats with
          misses := incr32 (raise_in_cl_list s e).stats.misses } }, some e)

/-- What `find(pc)` leaves and returns when bucket `cacheline(pc)` holds `l`. -/
def find_result [block_info β] (s : block_cache β) (pc : Nat) (l : List Nat) :
    block_cache β × Option Nat :=
  let s0 := { s with stats := { s.stats with searches := incr32 s.stats.searches } }
  match l with
  | [] => scan_result s0 pc []
  | a :: l =>
    if block_info.pc (s.info a) = pc then
      ({ s0 with stats := { s0.stats with hits := incr32 s0.stats.hits } }, some a)
    else scan_result s0 pc l

/-- The back-references after `if (h) h->prev = sl`: the old head `h`, if there is one,
is told that the slot `sl` now points at it. -/
def set_back (pv : Nat → Option Slot) (h : Option Nat) (sl : Slot) : Nat → Option Slot :=
  match h with
  | some b => Function.update pv b (some sl)
  | none => pv

/-- Bucket `i` is consistently linked and holds `l`: following `next_same_cl` from
`cache_tags[i]` spells `l`, and each `prev_same_cl_p` designates the slot pointing at its
entry. -/
def bucket_linked (s : block_cache β) (i : Nat) (l : List Nat) : Prop :=
  Linked s.next_same_cl s.prev_same_cl_p Slot.next_same_cl (Slot.tag i) (s.cache_tags i) l

/-- The active list is consistently linked and holds `l`. -/
def active_linked (s : block_cache β) (l : List Nat) : Prop :=
  Linked s.next s.prev_p Slot.next Slot.active s.active l

/-- The dormant list is consistently linked and holds `l`. -/
def dormant_linked (s : block_cache β) (l : List Nat) : Prop :=
  Linked s.next s.prev_p Slot.next Slot.dormant s.dormant l

/-- The cache `s` is laid out as the lists say: bucket `i` holds `ch i`, the active list
is `la`, the dormant list is `ld`, and

* every bucket chain and both pool lists are consistently linked, back-references
  included (so each reaches `NULL` and repeats no entry);
* an entry sits in the bucket its `pc` hashes to;
* no entry is in both pools;
* the entries linked in a bucket chain are those linked in a pool list (a block is
  wired into one bucket chain and one pool list, and unlinked from both). -/
structure Rep [block_info β] (s : block_cache β) (ch : Nat → List Nat) (la ld : List Nat) :
    Prop where
  buckets : ∀ i, i < HASH_SIZE → bucket_linked s i (ch i)
  placed : ∀ i, i < HASH_SIZE → ∀ e ∈ ch i, cacheline (block_info.pc (s.info e)) = i
  act : active_linked s la
  dor : dormant_linked s ld
  disjoint : ∀ e ∈ la, e ∉ ld
  both : ∀ e, (e ∈ la ∨ e ∈ ld) ↔ e ∈ ch (cacheline (block_info.pc (s.info e)))

/-- A well-formed cache state: one that is laid out as some lists say. -/
def well_formed [block_info β] (s : block_cache β) : Prop :=
  ∃ ch la ld, Rep s ch la ld

/-- The test `q->intersect(start, end)` on the entry `q` as it is stored in `s`. -/
def hits_range [block_info β] (s : block_cache β) (start end_ : Nat) (q : Nat) : Bool :=
  block_info.intersect (s.info q) start end_

/-- Link consistency with the lists named: bucket `i` is consistently linked and holds
`ch i`, the active list is consistently linked and holds `la`, the dormant list `ld`. -/
structure Links (s : block_cache β) (ch : Nat → List Nat) (la ld : List Nat) : Prop where
  buckets : ∀ i, i < HASH_SIZE → bucket_linked s i (ch i)
  act : active_linked s la
  dor : dormant_linked s ld

/-- Link consistency: for every bucket and for each pool, following `next_same_cl` (resp.
`next`) from the head reaches `NULL`, and every entry on the list has its back-reference
designating the head slot if it is first and otherwise the link field of its predecessor.
(A list that reaches `NULL` repeats no entry.)  A `well_formed` cache is consistently
linked; it moreover has its entries placed and resident in both roles. -/
def links_ok (s : block_cache β) : Prop :=
  ∃ ch la ld, Links s ch la ld

/-- The entry `e` is linked in a bucket chain. -/
def in_bucket (s : block_cache β) (e : Nat) : Prop :=
  ∃ i, i < HASH_SIZE ∧ ∃ l, bucket_chain s i l ∧ e ∈ l

/-- The entry `e` is linked in a pool list. -/
def in_pool (s : block_cache β) (e : Nat) : Prop :=
  (∃ l, active_list s l ∧ e ∈ l) ∨ (∃ l, dormant_list s l ∧ e ∈ l)

/-- The pointer variable that points at the entry which follows the entries `pre` in a
list with head slot `sl`: the head slot itself when `pre` is empty, else the link field of
the last entry of `pre`. -/
def slot_after (mk : Nat → Slot) (sl : Slot) (pre : List Nat) : Slot :=
  match pre.getLast? with
  | none => sl
  | some p => mk p

/-- The entries linked in a bucket chain are those linked in a pool list. -/
def resident_in_both (s : block_cache β) : Prop :=
  ∀ e, in_bucket s e ↔ in_pool s e

/-- The states a cache gets into, starting from the constructor: by the list operations,
each applied to an entry that is not yet (`add_...`) or is (`remove_...`, `raise_...`)
linked in the role concerned; by `find` and `clear_range`, whenever they return; and by
the caller writing the payload of an entry, which leaves the `pc` of an entry linked in a
bucket chain as it is.  `guard` says in which states `clear_range` may be called. -/
inductive Reachable [block_info β] (guard : block_cache β → Prop) (W : Nat) :
    block_cache β → Prop where
  | created (m : block_cache β) : Reachable guard W (block_cache.construct m)
  | linked_cl {s : block_cache β} (e : Nat) :
      Reachable guard W s → ¬ in_bucket s e → Reachable guard W (add_to_cl_list s e)
  | unlinked_cl {s : block_cache β} (e : Nat) :
      Reachable guard W s → in_bucket s e → Reachable guard W (remove_from_cl_list s e)
  | raised {s : block_cache β} (e : Nat) :
      Reachable guard W s → in_bucket s e → Reachable guard W (raise_in_cl_list s e)
  | looked_up {s s' : block_cache β} (fuel pc : Nat) (r : Option Nat) :
      Reachable guard W s → find fuel s pc = some (s', r) → Reachable guard W s'
  | linked_active {s : block_cache β} (e : Nat) :
      Reachable guard W s → ¬ in_pool s e → Reachable guard W (add_to_active_list s e)
  | linked_dormant {s : block_cache β} (e : Nat) :
      Reachable guard W s → ¬ in_pool s e → Reachable guard W (add_to_dormant_list s e)
  | unlinked_pool {s : block_cache β} (e : Nat) :
      Reachable guard W s → in_pool s e → Reachable guard W (remove_from_list s e)
  | range_cleared {s s' : block_cache β} (fuel start end_ : Nat) :
      Reachable guard W s → guard s → clear_range W fuel s start end_ = some s' →
      Reachable guard W s'
  | payload_written {s : block_cache β} (e : Nat) (b : β) :
      Reachable guard W s →
      (in_bucket s e → block_info.pc b = block_info.pc (s.info e)) →
      Reachable guard W { s with info := Function.update s.info e b }

/-- Every entry of a bucket chain hashes to its bucket, and no entry is in the chains of
two buckets. -/
def placement_ok [block_info β] (s : block_cache β) : Prop :=
  (∀ i l, i < HASH_SIZE → bucket_chain s i l →
    ∀ e ∈ l, cacheline (block_info.pc (s.info e)) = i) ∧
  (∀ i j l l', i < HASH_SIZE → j < HASH_SIZE → bucket_chain s i l → bucket_chain s j l' →
    ∀ e, e ∈ l → e ∈ l' → i = j)

/-- The hash index and the bucket links of `t` are those of `s`: every bucket head and
every `next_same_cl` and `prev_same_cl_p`. -/
def same_index (s t : block_cache β) : Prop :=
  t.next_same_cl = s.next_same_cl ∧ t.prev_same_cl_p = s.prev_same_cl_p ∧
  t.cache_tags = s.cache_tags

/-! ## A concrete payload and concrete caches -/

/-- A block covering the addresses `[pc, end_pc)`. -/
structure range_block where
  pc : Nat
  end_pc : Nat
  valid : Bool
  deriving DecidableEq

instance : block_info range_block where
  pc b := b.pc
  intersect b start end_ := decide (b.pc < end_ ∧ start < b.end_pc)
  invalidate b := { b with valid := false }

/-- Memory holding the payloads `info`, every pointer in it `NULL`. -/
def blank_memory (info : Nat → β) : block_cache β where
  info := info
  next_same_cl := fun _ => none
  prev_same_cl_p := fun _ => none
  next := fun _ => none
  prev_p := fun _ => none
  cache_tags := fun _ => none
  active := none
  dormant := none
  stats := ⟨0, 0, 0, 0⟩
  released := []
  invalidated := []

/-- Insertion of a new block as callers do it: into its bucket chain and the active
list. -/
def insert_active [block_info β] (s : block_cache β) (e : Nat) : block_cache β :=
  add_to_active_list (add_to_cl_list s e) e

/-- Insertion of a new block into its bucket chain and the dormant list. -/
def insert_dormant [block_info β] (s : block_cache β) (e : Nat) : block_cache β :=
  add_to_dormant_list (add_to_cl_list s e) e

/-- Three blocks whose start addresses differ by `2^17`: all three hash to bucket 2. -/
def heap_abc : Nat → range_block
  | 1 => ⟨8, 16, true⟩
  | 2 => ⟨131080, 131088, true⟩
  | 3 => ⟨262152, 262160, true⟩
  | _ => ⟨0, 0, true⟩

/-- The cache after inserting the blocks 1, 2, 3 of `heap_abc`, in this order. -/
def cache_abc : block_cache range_block :=
  insert_active (insert_active (insert_active
    (block_cache.construct (blank_memory heap_abc)) 1) 2) 3

/-- Two blocks that start at the same address. -/
def heap_dup : Nat → range_block
  | 1 => ⟨8, 16, true⟩
  | 2 => ⟨8, 12, true⟩
  | _ => ⟨0, 0, true⟩

/-- The cache after inserting the blocks 1 and 2 of `heap_dup`, in this order. -/
def cache_dup : block_cache range_block :=
  insert_active (insert_active (block_cache.construct (blank_memory heap_dup)) 1) 2

/-- Three blocks covering `[0, 10)`, `[20, 30)` and `[40, 50)`. -/
def heap_ranges : Nat → range_block
  | 1 => ⟨0, 10, true⟩
  | 2 => ⟨20, 30, true⟩
  | 3 => ⟨40, 50, true⟩
  | _ => ⟨0, 0, true⟩

/-- The cache with the three blocks of `heap_ranges` in the active pool. -/
def cache_ranges : block_cache range_block :=
  insert_active (insert_active (insert_active
    (block_cache.construct (blank_memory heap_ranges)) 1) 2) 3

/-- The cache with block 1 of `heap_ranges` in the active pool and block 3 in the dormant
pool. -/
def cache_mixed : block_cache range_block :=
  insert_dormant (insert_active (block_cache.construct (blank_memory heap_ranges)) 1) 3

/-- A cache in which block 3 of `heap_ranges` is linked in its bucket chain but no longer
in a pool: it was inserted, then taken out of the active list with `remove_from_list`,
which leaves its `prev_p` and `next` as they were; block 1 was inserted afterwards. -/
def cache_stale : block_cache range_block :=
  insert_active (remove_from_list (insert_active
    (block_cache.construct (blank_memory heap_ranges)) 3) 3) 1

/-- The blocks 2 and 1 of `heap_abc` linked into their bucket (chain 1, 2), block 1 also
into the active list. -/
def cache_pair : block_cache range_block :=
  add_to_active_list (add_to_cl_list (add_to_cl_list
    (block_cache.construct (blank_memory heap_abc)) 2) 1) 1

/-- `cache_pair` after `remove_from_cl_list` of block 1 and then of block 2: the bucket
is empty, block 1 is still in the active list. -/
def cache_unlinked : block_cache range_block :=
  remove_from_cl_list (remove_from_cl_list cache_pair 1) 2

/-- `cache_unlinked` after the storage of block 2 has been given a block at address 28
(bucket 7), which is then linked into its bucket. -/
def cache_moved : block_cache range_block :=
  add_to_cl_list
    { cache_unlinked with info := Function.update cache_unlinked.info 2 ⟨28, 32, true⟩ } 2

/-- The cache after `add_to_cl_list` of block 1 of `heap_abc`, twice: the chain of its
bucket runs from block 1 to block 1. -/
def cache_loop : block_cache range_block :=
  add_to_cl_list (add_to_cl_list (block_cache.construct (blank_memory heap_abc)) 1) 1

/-- The blocks 1 and 2 of `heap_abc` linked into their bucket (chain 2, 1) and into the
active list (2 first, then 1: list 1, 2), then block 2 taken out of its bucket chain with
`remove_from_cl_list`, which leaves its `prev_same_cl_p` and `next_same_cl` as they
were. -/
def cache_orphan : block_cache range_block :=
  remove_from_cl_list (add_to_active_list (add_to_active_list (add_to_cl_list
    (add_to_cl_list (block_cache.construct (blank_memory heap_abc)) 1) 2) 2) 1) 2

/-- The blocks 1 and 2 of `heap_abc` linked into their bucket (chain 2, 1), block 1 also
into the active list. -/
def cache_half : block_cache range_block :=
  add_to_active_list (add_to_cl_list (add_to_cl_list
    (block_cache.construct (blank_memory heap_abc)) 1) 2) 1

end BlockCache

namespace BlockCache

variable {β : Type}

/-! ## Chains of pointers -/

theorem IsChain.functional {nx : Nat → Option Nat} {h : Option Nat} {l1 l2 : List Nat}
    (h1 : IsChain nx h l1) (h2 : IsChain nx h l2) : l1 = l2 := by
  induction l1 generalizing h l2 with
  | nil =>
    cases l2 with
    | nil => rfl
    | cons b l2 => simp [IsChain] at h1 h2; simp [h1] at h2
  | cons a l1 ih =>
    cases l2 with
    | nil => simp [IsChain] at h1 h2; simp [h2] at h1
    | cons b l2 =>
      simp only [IsChain] at h1 h2
      obtain ⟨ha, h1⟩ := h1
      obtain ⟨hb, h2⟩ := h2
      have hab : a = b := by rw [ha] at hb; exact Option.some.inj hb
      subst hab
      rw [ih h1 h2]

theorem Linked.isChain {nx : Nat → Option Nat} {pv : Nat → Option Slot} {mk : Nat → Slot}
    {sl : Slot} {h : Option Nat} {l : List Nat} (hl : Linked nx pv mk sl h l) :
    IsChain nx h l := by
  induction l generalizing sl h with
  | nil => exact hl
  | cons a l ih => exact ⟨hl.1, ih hl.2.2⟩

theorem IsChain.agree {nx nx' : Nat → Option Nat} {h : Option Nat} {l : List Nat}
    (hl : IsChain nx h l) (hnx : ∀ a ∈ l, nx' a = nx a) : IsChain nx' h l := by
  induction l generalizing h with
  | nil => exact hl
  | cons a l ih =>
    refine ⟨hl.1, ?_⟩
    rw [hnx a (List.mem_cons_self _ _)]
    exact ih hl.2 (fun b hb => hnx b (List.mem_cons_of_mem _ hb))

/-! ## The hash key -/

theorem cacheline_eq (addr : Nat) : cacheline addr = (addr / 4) % 2 ^ 15 := by
  have h : HASH_MASK = 2 ^ 15 - 1 := by decide
  unfold cacheline
  rw [h, Nat.and_pow_two_sub_one_eq_mod, Nat.shiftRight_eq_div_pow]

theorem cacheline_lt (addr : Nat) : cacheline addr < HASH_SIZE := by
  have h : HASH_SIZE = 2 ^ 15 := by decide
  rw [cacheline_eq, h]
  exact Nat.mod_lt _ (by norm_num)

/-- C10: `cacheline(addr)` is `(addr / 4) mod 2^15`, a valid index into the `HASH_SIZE =
32768` buckets; addresses that differ only in their low two bits, or by a multiple of
`2^17`, fall into the same bucket. -/
theorem cacheline_index (addr q r r' k : Nat) :
    cacheline addr = (addr / 4) % 2 ^ 15 ∧ cacheline addr < HASH_SIZE ∧ HASH_SIZE = 32768 ∧
    cacheline (4 * q + r % 4) = cacheline (4 * q + r' % 4) ∧
    cacheline (addr + k * 2 ^ 17) = cacheline addr := by
  refine ⟨cacheline_eq addr, cacheline_lt addr, by decide, ?_, ?_⟩
  · rw [cacheline_eq, cacheline_eq]
    have h1 : (4 * q + r % 4) / 4 = q := by omega
    have h2 : (4 * q + r' % 4) / 4 = q := by omega
    rw [h1, h2]
  · rw [cacheline_eq, cacheline_eq]
    have h1 : (addr + k * 2 ^ 17) / 4 = addr / 4 + k * 2 ^ 15 := by omega
    rw [h1, Nat.add_mul_mod_self_right]

end BlockCache

namespace BlockCache

variable {β : Type}

/-! ## Lookup -/

/-- C2: `fast_find(pc)` returns an entry exactly when that entry is the head of bucket
`cacheline(pc)` and its stored `pc` is `pc`, and `NULL` in every other case, also when
a matching entry sits deeper in the chain (as entry 1 in `cache_abc`, behind 3 and 2);
the cache state is left as it was. -/
theorem fast_find_head_only [block_info β] (s : block_cache β) (pc e : Nat) :
    ((fast_find s pc).2 = some e ↔
      s.cache_tags (cacheline pc) = some e ∧ block_info.pc (s.info e) = pc) ∧
    ((fast_find s pc).2 = none ↔
      ¬ ∃ h, s.cache_tags (cacheline pc) = some h ∧ block_info.pc (s.info h) = pc) ∧
    (fast_find s pc).1 = s ∧
    (bucket_chain cache_abc (cacheline 8) [3, 2, 1] ∧
      block_info.pc (cache_abc.info 1) = 8 ∧ (fast_find cache_abc 8).2 = none) := by
  refine ⟨?_, ?_, ?_, ?_⟩
  · unfold fast_find
    cases hh : s.cache_tags (cacheline pc) with
    | none => simp
    | some b =>
      by_cases hp : block_info.pc (s.info b) = pc
      · simp only [hp, if_true, Option.some.injEq]
        constructor
        · intro hbe; subst hbe; exact ⟨rfl, hp⟩
        · intro h; exact h.1
      · simp only [hp, if_false]
        constructor
        · intro h; cases h
        · intro h
          have hbe : b = e := Option.some.inj h.1
          subst hbe
          exact absurd h.2 hp
  · unfold fast_find
    cases hh : s.cache_tags (cacheline pc) with
    | none => simp
    | some b =>
      by_cases hp : block_info.pc (s.info b) = pc
      · simp [hp]
      · simp [hp]
  · unfold fast_find
    cases hh : s.cache_tags (cacheline pc) with
    | none => rfl
    | some b =>
      by_cases hp : block_info.pc (s.info b) = pc
      · simp [hp]
      · simp [hp]
  · exact ⟨⟨rfl, rfl, rfl, rfl⟩, rfl, rfl⟩

theorem find_scan_spec [block_info β] (s : block_cache β) (pc : Nat) (l : List Nat) :
    ∀ (b fuel : Nat), IsChain s.next_same_cl (s.next_same_cl b) l → l.length + 1 < fuel →
      find_scan pc fuel s (some b) = some (scan_result s pc l) := by
  induction l with
  | nil =>
    intro b fuel hl hf
    obtain ⟨f, rfl⟩ : ∃ f, fuel = f + 2 := ⟨fuel - 2, by simp at hf; omega⟩
    simp only [IsChain] at hl
    simp [find_scan, hl, scan_result]
  | cons a l ih =>
    intro b fuel hl hf
    obtain ⟨f, rfl⟩ : ∃ f, fuel = f + 1 := ⟨fuel - 1, by omega⟩
    simp only [IsChain] at hl
    by_cases hp : block_info.pc (s.info a) = pc
    · simp [find_scan, hl.1, hp, pc_is, scan_result]
    · have h1 := ih a f hl.2 (by simp at hf; omega)
      simp only [find_scan, hl.1, hp, if_false, h1]
      simp [scan_result, pc_is, hp]

theorem scan_result_snd [block_info β] (s : block_cache β) (pc : Nat) (l : List Nat) :
    (scan_result s pc l).2 = l.find? (pc_is s pc) := by
  unfold scan_result
  cases h : l.find? (pc_is s pc) <;> rfl

theorem find_result_snd [block_info β] (s : block_cache β) (pc : Nat) (l : List Nat) :
    (find_result s pc l).2 = l.find? (pc_is s pc) := by
  cases l with
  | nil => rfl
  | cons a l =>
    by_cases hp : block_info.pc (s.info a) = pc
    · simp [find_result, hp, pc_is]
    · simp only [find_result, hp, if_false, scan_result_snd]
      have h1 : List.find? (pc_is s pc) (a :: l) = List.find? (pc_is s pc) l := by
        simp [List.find?, pc_is, hp]
      rw [h1]
      rfl

/-- With fuel above the length of the bucket chain, `find` returns, and what it leaves
and returns is `find_result`. -/
theorem find_eq [block_info β] (s : block_cache β) (pc : Nat) (l : List Nat)
    (hl : bucket_chain s (cacheline pc) l) (fuel : Nat) (hf : l.length < fuel) :
    find fuel s pc = some (find_result s pc l) := by
  cases l with
  | nil =>
    obtain ⟨f, rfl⟩ : ∃ f, fuel = f + 1 := ⟨fuel - 1, by simp at hf; omega⟩
    simp only [bucket_chain, IsChain] at hl
    simp [find, hl, find_scan, find_result, scan_result]
  | cons a l =>
    simp only [bucket_chain, IsChain] at hl
    by_cases hp : block_info.pc (s.info a) = pc
    · simp [find, hl.1, hp, find_result]
    · have h1 := find_scan_spec
        { s with stats := { s.stats with searches := incr32 s.stats.searches } } pc l a fuel
        hl.2 (by simpa using hf)
      simp only [find, hl.1, hp, if_false, find_result]
      exact h1

theorem find_spec [block_info β] (s : block_cache β) (pc : Nat) (l : List Nat)
    (hl : bucket_chain s (cacheline pc) l) (fuel : Nat) (hf : l.length < fuel) :
    ∃ s', find fuel s pc = some (s', l.find? (pc_is s pc)) := by
  refine ⟨(find_result s pc l).1, ?_⟩
  rw [find_eq s pc l hl fuel hf, ← find_result_snd]

/-- C1: in a cache whose bucket chains are acyclic and hold only entries hashing to
their bucket, `find(pc)` returns (for any fuel above the chain length) the first entry,
in chain order, of bucket `cacheline(pc)` whose stored `pc` is `pc`; it returns `NULL`
if and only if no entry of that chain has stored `pc` equal to `pc`. -/
theorem find_returns_first_match [block_info β] (s : block_cache β) (hwf : chains_ok s)
    (pc : Nat) :
    ∃ l, bucket_chain s (cacheline pc) l ∧
      (∀ fuel, l.length < fuel →
        ∃ s', find fuel s pc = some (s', l.find? (pc_is s pc))) ∧
      (l.find? (pc_is s pc) = none ↔ ∀ e ∈ l, block_info.pc (s.info e) ≠ pc) := by
  obtain ⟨l, hl, _⟩ := hwf (cacheline pc) (cacheline_lt pc)
  refine ⟨l, hl, fun fuel hf => find_spec s pc l hl fuel hf, ?_⟩
  simp [List.find?_eq_none, pc_is]

end BlockCache

namespace BlockCache

variable {β : Type}

/-! ## Doubly linked lists with back-references to slots -/

theorem Linked.congr {nx nx' : Nat → Option Nat} {pv pv' : Nat → Option Slot}
    {mk : Nat → Slot} {sl : Slot} {h : Option Nat} {l : List Nat}
    (hl : Linked nx pv mk sl h l) (hnx : ∀ a ∈ l, nx' a = nx a)
    (hpv : ∀ a ∈ l, pv' a = pv a) : Linked nx' pv' mk sl h l := by
  induction l generalizing sl h with
  | nil => exact hl
  | cons a l ih =>
    refine ⟨hl.1, ?_, ?_⟩
    · rw [hpv a (List.mem_cons_self _ _)]; exact hl.2.1
    · rw [hnx a (List.mem_cons_self _ _)]
      exact ih hl.2.2 (fun b hb => hnx b (List.mem_cons_of_mem _ hb))
        (fun b hb => hpv b (List.mem_cons_of_mem _ hb))

/-- The forward link of a listed entry is `NULL` or a listed entry. -/
theorem IsChain.nx_mem {nx : Nat → Option Nat} {h : Option Nat} {l : List Nat}
    (hl : IsChain nx h l) {q : Nat} (hq : q ∈ l) : nx q = none ∨ ∃ b ∈ l, nx q = some b := by
  induction l generalizing h with
  | nil => cases hq
  | cons a l ih =>
    rcases List.mem_cons.1 hq with rfl | hq'
    · cases l with
      | nil => exact Or.inl hl.2
      | cons b l => exact Or.inr ⟨b, by simp, hl.2.1⟩
    · rcases ih hl.2 hq' with h1 | ⟨b, hb, h1⟩
      · exact Or.inl h1
      · exact Or.inr ⟨b, List.mem_cons_of_mem _ hb, h1⟩

/-- A chain that reaches `NULL` repeats no entry. -/
theorem IsChain.nodup {nx : Nat → Option Nat} {h : Option Nat} {l : List Nat}
    (hl : IsChain nx h l) : l.Nodup := by
  induction l generalizing h with
  | nil => exact List.nodup_nil
  | cons a l ih =>
    refine List.nodup_cons.2 ⟨?_, ih hl.2⟩
    intro ha
    obtain ⟨l1, l2, rfl⟩ := List.append_of_mem ha
    have h2 : IsChain nx (some a) (a :: l2) := by
      have : ∀ (l1 : List Nat) (h : Option Nat), IsChain nx h (l1 ++ a :: l2) →
          IsChain nx (some a) (a :: l2) := by
        intro l1
        induction l1 with
        | nil => intro h hh; exact ⟨rfl, hh.2⟩
        | cons c l1 ih1 => intro h hh; exact ih1 _ hh.2
      exact this l1 _ hl.2
    have h1 : IsChain nx (some a) (a :: (l1 ++ a :: l2)) := ⟨rfl, hl.2⟩
    have := congrArg List.length (IsChain.functional h1 h2)
    simp at this
    omega

/-- The back-reference of a listed entry designates the head slot or the link field of
another listed entry. -/
theorem Linked.pv_mem {nx : Nat → Option Nat} {pv : Nat → Option Slot} {mk : Nat → Slot}
    {sl : Slot} {h : Option Nat} {l : List Nat} (hl : Linked nx pv mk sl h l) {q : Nat}
    (hq : q ∈ l) : pv q = some sl ∨ ∃ p ∈ l, p ≠ q ∧ pv q = some (mk p) := by
  induction l generalizing sl h with
  | nil => cases hq
  | cons a l ih =>
    have hnd := IsChain.nodup hl.isChain
    rcases List.mem_cons.1 hq with rfl | hq'
    · exact Or.inl hl.2.1
    · rcases ih hl.2.2 hq' with h1 | ⟨p, hp, hpq, h1⟩
      · refine Or.inr ⟨a, List.mem_cons_self _ _, ?_, h1⟩
        intro hx; subst hx
        exact (List.nodup_cons.1 hnd).1 hq'
      · exact Or.inr ⟨p, List.mem_cons_of_mem _ hp, hpq, h1⟩

/-- Unlinking a listed entry `q` through its back-reference: the list loses `q` and
keeps the order of the others. -/
theorem Linked.unlink {nx : Nat → Option Nat} {pv : Nat → Option Slot} {mk : Nat → Slot}
    (hmk : Function.Injective mk) {q : Nat} {l : List Nat} :
    ∀ {sl : Slot} {h : Option Nat}, Linked nx pv mk sl h l → l.Nodup → q ∈ l →
      (∀ b ∈ l, mk b ≠ sl) →
      Linked (fun a => if pv q = some (mk a) then nx q else nx a)
        (fun a => if nx q = some a then pv q else pv a) mk sl
        (if pv q = some sl then nx q else h) (l.erase q) := by
  induction l with
  | nil => intro sl h _ _ hq; cases hq
  | cons a l ih =>
    intro sl h hl hnd hq hsl
    obtain ⟨hna, hnd'⟩ := List.nodup_cons.1 hnd
    obtain ⟨hh, hpa, hrest⟩ := hl
    by_cases hqa : q = a
    · subst hqa
      rw [List.erase_cons_head, if_pos hpa]
      cases l with
      | nil => exact hrest
      | cons b l =>
        obtain ⟨hb, hpb, hrest'⟩ := hrest
        obtain ⟨hnb, _⟩ := List.nodup_cons.1 hnd'
        refine ⟨hb, ?_, ?_⟩
        · simp only [hb, if_true]; exact hpa
        · have hsb : sl ≠ mk b := fun hc => hsl b (by simp) hc.symm
          have hnx : (if pv q = some (mk b) then nx q else nx b) = nx b := by
            rw [hpa]; simp [hsb]
          show Linked _ _ mk (mk b) (if pv q = some (mk b) then nx q else nx b) l
          rw [hnx]
          refine Linked.congr hrest' ?_ ?_
          · intro c hc
            have hsc : sl ≠ mk c := fun hx => hsl c (by simp [hc]) hx.symm
            rw [hpa]; simp [hsc]
          · intro c hc
            have hcb : b ≠ c := fun hx => hnb (hx ▸ hc)
            rw [hb]; simp [hcb]
    · have hql : q ∈ l := by
        rcases List.mem_cons.1 hq with h1 | h1
        · exact absurd h1 hqa
        · exact h1
      have hne : a ≠ q := fun hx => hqa hx.symm
      rw [List.erase_cons_tail (by simpa using hne)]
      have hpq : pv q ≠ some sl := by
        rcases Linked.pv_mem hrest hql with h1 | ⟨p, hp, _, h1⟩
        · rw [h1]; intro hx
          exact hsl a (List.mem_cons_self _ _) (Option.some.inj hx)
        · rw [h1]; intro hx
          exact hsl p (List.mem_cons_of_mem _ hp) (Option.some.inj hx)
      have hnq : nx q ≠ some a := by
        rcases IsChain.nx_mem hrest.isChain hql with h1 | ⟨b, hb, h1⟩
        · rw [h1]; simp
        · rw [h1]; intro hx
          exact hna (Option.some.inj hx ▸ hb)
      refine ⟨?_, ?_, ?_⟩
      · rw [if_neg hpq]; exact hh
      · simp only [hnq, if_false]; exact hpa
      · exact ih hrest hnd' hql (fun b hb hx => hna (hmk hx ▸ hb))

/-- Unlinking `q` leaves alone a list that holds neither `q` nor a neighbour of `q`. -/
theorem Linked.unlink_other {nx : Nat → Option Nat} {pv : Nat → Option Slot}
    {mk : Nat → Slot} {q : Nat} {l : List Nat} {sl : Slot} {h : Option Nat}
    (hl : Linked nx pv mk sl h l) (h1 : pv q ≠ some sl)
    (h2 : ∀ a ∈ l, pv q ≠ some (mk a)) (h3 : ∀ a ∈ l, nx q ≠ some a) :
    Linked (fun a => if pv q = some (mk a) then nx q else nx a)
      (fun a => if nx q = some a then pv q else pv a) mk sl
      (if pv q = some sl then nx q else h) l := by
  rw [if_neg h1]
  refine Linked.congr hl ?_ ?_
  · intro a ha; simp [h2 a ha]
  · intro a ha; simp [h3 a ha]

/-- Linking a new entry `e` in front of a list. -/
theorem Linked.push {nx : Nat → Option Nat} {pv : Nat → Option Slot} {mk : Nat → Slot}
    {sl : Slot} {h : Option Nat} {l : List Nat} {e : Nat}
    (hl : Linked nx pv mk sl h l) (he : e ∉ l) :
    Linked (Function.update nx e h)
      (Function.update (set_back pv h (mk e)) e (some sl)) mk sl (some e) (e :: l) := by
  have hnd := IsChain.nodup (Linked.isChain hl)
  cases l with
  | nil =>
    have hh : h = none := hl
    subst hh
    exact ⟨rfl, by simp, by simp [Linked]⟩
  | cons b l =>
    obtain ⟨hb, hpb, hrest⟩ := hl
    subst hb
    have hbe : b ≠ e := fun hx => he (by simp [hx])
    obtain ⟨hbl, _⟩ := List.nodup_cons.1 hnd
    refine ⟨rfl, by simp, ?_⟩
    rw [Function.update_same]
    refine ⟨rfl, ?_, ?_⟩
    · simp [set_back, Function.update_noteq hbe]
    · have hnb : Function.update nx e (some b) b = nx b := Function.update_noteq hbe _ _
      rw [hnb]
      refine Linked.congr hrest ?_ ?_
      · intro c hc
        have hce : c ≠ e := fun hx => he (by simp [← hx, hc])
        exact Function.update_noteq hce _ _
      · intro c hc
        have hce : c ≠ e := fun hx => he (by simp [← hx, hc])
        have hcb : c ≠ b := fun hx => hbl (hx ▸ hc)
        simp [set_back, Function.update_noteq hce, Function.update_noteq hcb]

end BlockCache

namespace BlockCache

variable {β : Type}

/-! ## The effect of the list operations on each field -/

theorem remove_from_cl_list_next_same_cl (s : block_cache β) (q a : Nat)
    (hq : s.prev_same_cl_p q ≠ some (Slot.next_same_cl q)) :
    (remove_from_cl_list s q).next_same_cl a =
      if s.prev_same_cl_p q = some (Slot.next_same_cl a) then s.next_same_cl q
      else s.next_same_cl a := by
  unfold remove_from_cl_list
  cases hp : s.prev_same_cl_p q with
  | none => cases hn : s.next_same_cl q <;> simp [hn]
  | some sl =>
    cases sl with
    | next_same_cl p =>
      have hpq : q ≠ p := fun hx => hq (by rw [hp, hx])
      cases hn : s.next_same_cl q <;>
        simp [store, hn, Function.update_noteq hpq, Function.update_apply, eq_comm]
    | _ => cases hn : s.next_same_cl q <;> simp [store, hn]

theorem remove_from_cl_list_prev_same_cl_p (s : block_cache β) (q a : Nat)
    (hq : s.prev_same_cl_p q ≠ some (Slot.next_same_cl q)) :
    (remove_from_cl_list s q).prev_same_cl_p a =
      if s.next_same_cl q = some a then s.prev_same_cl_p q else s.prev_same_cl_p a := by
  unfold remove_from_cl_list
  cases hp : s.prev_same_cl_p q with
  | none => cases hn : s.next_same_cl q <;> simp [hn, hp, Function.update_apply, eq_comm]
  | some sl =>
    cases sl with
    | next_same_cl p =>
      have hpq : q ≠ p := fun hx => hq (by rw [hp, hx])
      cases hn : s.next_same_cl q <;>
        simp [store, hn, hp, Function.update_noteq hpq, Function.update_apply, eq_comm]
    | _ => cases hn : s.next_same_cl q <;> simp [store, hn, hp, Function.update_apply, eq_comm]

theorem remove_from_cl_list_cache_tags (s : block_cache β) (q i : Nat) :
    (remove_from_cl_list s q).cache_tags i =
      if s.prev_same_cl_p q = some (Slot.tag i) then s.next_same_cl q else s.cache_tags i := by
  unfold remove_from_cl_list
  cases hp : s.prev_same_cl_p q with
  | none => cases hn : s.next_same_cl q <;> simp [hn]
  | some sl =>
    cases sl <;> simp only [store] <;> split <;> simp [Function.update_apply, eq_comm]

theorem remove_from_cl_list_next (s : block_cache β) (q a : Nat) :
    (remove_from_cl_list s q).next a =
      if s.prev_same_cl_p q = some (Slot.next a) then s.next_same_cl q else s.next a := by
  unfold remove_from_cl_list
  cases hp : s.prev_same_cl_p q with
  | none => cases hn : s.next_same_cl q <;> simp [hn]
  | some sl =>
    cases sl <;> simp only [store] <;> split <;> simp [Function.update_apply, eq_comm]

theorem remove_from_cl_list_active (s : block_cache β) (q : Nat) :
    (remove_from_cl_list s q).active =
      if s.prev_same_cl_p q = some Slot.active then s.next_same_cl q else s.active := by
  unfold remove_from_cl_list
  cases hp : s.prev_same_cl_p q with
  | none => cases hn : s.next_same_cl q <;> simp [hn]
  | some sl => cases sl <;> simp only [store] <;> split <;> simp

theorem remove_from_cl_list_dormant (s : block_cache β) (q : Nat) :
    (remove_from_cl_list s q).dormant =
      if s.prev_same_cl_p q = some Slot.dormant then s.next_same_cl q else s.dormant := by
  unfold remove_from_cl_list
  cases hp : s.prev_same_cl_p q with
  | none => cases hn : s.next_same_cl q <;> simp [hn]
  | some sl => cases sl <;> simp only [store] <;> split <;> simp

theorem remove_from_cl_list_rest (s : block_cache β) (q : Nat) :
    (remove_from_cl_list s q).prev_p = s.prev_p ∧ (remove_from_cl_list s q).info = s.info ∧
    (remove_from_cl_list s q).stats = s.stats ∧
    (remove_from_cl_list s q).released = s.released ∧
    (remove_from_cl_list s q).invalidated = s.invalidated := by
  unfold remove_from_cl_list
  cases hp : s.prev_same_cl_p q with
  | none => cases hn : s.next_same_cl q <;> simp [hn]
  | some sl => cases sl <;> simp only [store] <;> split <;> simp

theorem remove_from_list_next (s : block_cache β) (q a : Nat)
    (hq : s.prev_p q ≠ some (Slot.next q)) :
    (remove_from_list s q).next a =
      if s.prev_p q = some (Slot.next a) then s.next q else s.next a := by
  unfold remove_from_list
  cases hp : s.prev_p q with
  | none => cases hn : s.next q <;> simp [hn]
  | some sl =>
    cases sl with
    | next p =>
      have hpq : q ≠ p := fun hx => hq (by rw [hp, hx])
      cases hn : s.next q <;>
        simp [store, hn, Function.update_noteq hpq, Function.update_apply, eq_comm]
    | _ => cases hn : s.next q <;> simp [store, hn]

theorem remove_from_list_prev_p (s : block_cache β) (q a : Nat)
    (hq : s.prev_p q ≠ some (Slot.next q)) :
    (remove_from_list s q).prev_p a =
      if s.next q = some a then s.prev_p q else s.prev_p a := by
  unfold remove_from_list
  cases hp : s.prev_p q with
  | none => cases hn : s.next q <;> simp [hn, hp, Function.update_apply, eq_comm]
  | some sl =>
    cases sl with
    | next p =>
      have hpq : q ≠ p := fun hx => hq (by rw [hp, hx])
      cases hn : s.next q <;>
        simp [store, hn, hp, Function.update_noteq hpq, Function.update_apply, eq_comm]
    | _ => cases hn : s.next q <;> simp [store, hn, hp, Function.update_apply, eq_comm]

theorem remove_from_list_active (s : block_cache β) (q : Nat) :
    (remove_from_list s q).active =
      if s.prev_p q = some Slot.active then s.next q else s.active := by
  unfold remove_from_list
  cases hp : s.prev_p q with
  | none => cases hn : s.next q <;> simp [hn]
  | some sl => cases sl <;> simp only [store] <;> split <;> simp

theorem remove_from_list_dormant (s : block_cache β) (q : Nat) :
    (remove_from_list s q).dormant =
      if s.prev_p q = some Slot.dormant then s.next q else s.dormant := by
  unfold remove_from_list
  cases hp : s.prev_p q with
  | none => cases hn : s.next q <;> simp [hn]
  | some sl => cases sl <;> simp only [store] <;> split <;> simp

theorem remove_from_list_cache_tags (s : block_cache β) (q i : Nat) :
    (remove_from_list s q).cache_tags i =
      if s.prev_p q = some (Slot.tag i) then s.next q else s.cache_tags i := by
  unfold remove_from_list
  cases hp : s.prev_p q with
  | none => cases hn : s.next q <;> simp [hn]
  | some sl =>
    cases sl <;> simp only [store] <;> split <;> simp [Function.update_apply, eq_comm]

theorem remove_from_list_next_same_cl (s : block_cache β) (q a : Nat) :
    (remove_from_list s q).next_same_cl a =
      if s.prev_p q = some (Slot.next_same_cl a) then s.next q else s.next_same_cl a := by
  unfold remove_from_list
  cases hp : s.prev_p q with
  | none => cases hn : s.next q <;> simp [hn]
  | some sl =>
    cases sl <;> simp only [store] <;> split <;> simp [Function.update_apply, eq_comm]

theorem remove_from_list_rest (s : block_cache β) (q : Nat) :
    (remove_from_list s q).prev_same_cl_p = s.prev_same_cl_p ∧
    (remove_from_list s q).info = s.info ∧
    (remove_from_list s q).stats = s.stats ∧
    (remove_from_list s q).released = s.released ∧
    (remove_from_list s q).invalidated = s.invalidated := by
  unfold remove_from_list
  cases hp : s.prev_p q with
  | none => cases hn : s.next q <;> simp [hn]
  | some sl => cases sl <;> simp only [store] <;> split <;> simp

end BlockCache

namespace BlockCache

variable {β : Type}

/-! ## Unlinking an entry of a well-formed cache -/

theorem next_same_cl_injective : Function.Injective Slot.next_same_cl := by
  intro a b h; cases h; rfl

theorem next_injective : Function.Injective Slot.next := by
  intro a b h; cases h; rfl

/-- `remove_from_cl_list(q)` on a resident entry: every bucket loses `q` (only its own
bucket holds it) and is still consistently linked. -/
theorem remove_from_cl_list_buckets {s : block_cache β} {ch : Nat → List Nat}
    (hb : ∀ i, i < HASH_SIZE → bucket_linked s i (ch i))
    (hp : ∀ i j, i < HASH_SIZE → j < HASH_SIZE → ∀ e, e ∈ ch i → e ∈ ch j → i = j)
    {q i0 : Nat} (hi0 : i0 < HASH_SIZE) (hq : q ∈ ch i0) :
    ∀ i, i < HASH_SIZE → bucket_linked (remove_from_cl_list s q) i ((ch i).erase q) := by
  have hl0 := hb _ hi0
  have hpv := Linked.pv_mem hl0 hq
  have hnx := IsChain.nx_mem hl0.isChain hq
  have hq' : s.prev_same_cl_p q ≠ some (Slot.next_same_cl q) := by
    rcases hpv with h1 | ⟨p, _, hpq, h1⟩
    · rw [h1]; simp
    · rw [h1]; intro hx; exact hpq (next_same_cl_injective (Option.some.inj hx))
  have e1 : (remove_from_cl_list s q).next_same_cl = fun a =>
      if s.prev_same_cl_p q = some (Slot.next_same_cl a) then s.next_same_cl q
      else s.next_same_cl a := funext (fun a => remove_from_cl_list_next_same_cl s q a hq')
  have e2 : (remove_from_cl_list s q).prev_same_cl_p = fun a =>
      if s.next_same_cl q = some a then s.prev_same_cl_p q else s.prev_same_cl_p a :=
    funext (fun a => remove_from_cl_list_prev_same_cl_p s q a hq')
  intro i hi
  unfold bucket_linked
  rw [e1, e2, remove_from_cl_list_cache_tags]
  by_cases hii : i = i0
  · subst hii
    exact Linked.unlink next_same_cl_injective hl0 (IsChain.nodup hl0.isChain) hq
      (fun b _ hx => by cases hx)
  · have hqi : q ∉ ch i := fun hx => hii (hp i i0 hi hi0 q hx hq)
    rw [List.erase_of_not_mem hqi]
    refine Linked.unlink_other (hb i hi) ?_ ?_ ?_
    · rcases hpv with h1 | ⟨p, _, _, h1⟩
      · rw [h1]; intro hx; exact hii (by cases hx; rfl)
      · rw [h1]; simp
    · intro a ha
      rcases hpv with h1 | ⟨p, hpm, _, h1⟩
      · rw [h1]; simp
      · rw [h1]; intro hx
        have hap : p = a := next_same_cl_injective (Option.some.inj hx)
        subst hap
        exact hii (hp i i0 hi hi0 p ha hpm)
    · intro a ha
      rcases hnx with h1 | ⟨b, hbm, h1⟩
      · rw [h1]; simp
      · rw [h1]; intro hx
        have hab : b = a := Option.some.inj hx
        subst hab
        exact hii (hp i i0 hi hi0 b ha hbm)

/-- `remove_from_cl_list(q)` on a resident entry touches no pool link. -/
theorem remove_from_cl_list_frame [block_info β] {s : block_cache β} {l : List Nat} {i : Nat}
    (hl : bucket_linked s i l) {q : Nat} (hq : q ∈ l) :
    (remove_from_cl_list s q).next = s.next ∧ (remove_from_cl_list s q).prev_p = s.prev_p ∧
    (remove_from_cl_list s q).active = s.active ∧
    (remove_from_cl_list s q).dormant = s.dormant := by
  have hpv := Linked.pv_mem hl hq
  refine ⟨?_, (remove_from_cl_list_rest s q).1, ?_, ?_⟩
  · funext a
    rw [remove_from_cl_list_next]
    rcases hpv with h1 | ⟨p, _, _, h1⟩ <;> rw [h1] <;> simp
  · rw [remove_from_cl_list_active]
    rcases hpv with h1 | ⟨p, _, _, h1⟩ <;> rw [h1] <;> simp
  · rw [remove_from_cl_list_dormant]
    rcases hpv with h1 | ⟨p, _, _, h1⟩ <;> rw [h1] <;> simp

/-- `remove_from_list(q)` on an entry of a pool: both pools lose `q` (only one holds it)
and are still consistently linked. -/
theorem remove_from_list_pools {s : block_cache β} {la ld : List Nat}
    (ha : active_linked s la) (hd : dormant_linked s ld) (hdis : ∀ e ∈ la, e ∉ ld)
    {q : Nat} (hq : q ∈ la ∨ q ∈ ld) :
    active_linked (remove_from_list s q) (la.erase q) ∧
    dormant_linked (remove_from_list s q) (ld.erase q) := by
  have hq' : s.prev_p q ≠ some (Slot.next q) := by
    rcases hq with hq | hq
    · rcases Linked.pv_mem ha hq with h1 | ⟨p, _, hpq, h1⟩
      · rw [h1]; simp
      · rw [h1]; intro hx; exact hpq (next_injective (Option.some.inj hx))
    · rcases Linked.pv_mem hd hq with h1 | ⟨p, _, hpq, h1⟩
      · rw [h1]; simp
      · rw [h1]; intro hx; exact hpq (next_injective (Option.some.inj hx))
  have e1 : (remove_from_list s q).next = fun a =>
      if s.prev_p q = some (Slot.next a) then s.next q else s.next a :=
    funext (fun a => remove_from_list_next s q a hq')
  have e2 : (remove_from_list s q).prev_p = fun a =>
      if s.next q = some a then s.prev_p q else s.prev_p a :=
    funext (fun a => remove_from_list_prev_p s q a hq')
  unfold active_linked dormant_linked
  rw [e1, e2, remove_from_list_active, remove_from_list_dormant]
  rcases hq with hq | hq
  · have hpv := Linked.pv_mem ha hq
    have hnx := IsChain.nx_mem ha.isChain hq
    have hqd : q ∉ ld := hdis q hq
    refine ⟨Linked.unlink next_injective ha (IsChain.nodup ha.isChain) hq
      (fun b _ hx => by cases hx), ?_⟩
    rw [List.erase_of_not_mem hqd]
    refine Linked.unlink_other hd ?_ ?_ ?_
    · rcases hpv with h1 | ⟨p, _, _, h1⟩ <;> rw [h1] <;> simp
    · intro a ha'
      rcases hpv with h1 | ⟨p, hpm, _, h1⟩
      · rw [h1]; simp
      · rw [h1]; intro hx
        have hap : p = a := next_injective (Option.some.inj hx)
        subst hap
        exact hdis p hpm ha'
    · intro a ha'
      rcases hnx with h1 | ⟨b, hbm, h1⟩
      · rw [h1]; simp
      · rw [h1]; intro hx
        have hab : b = a := Option.some.inj hx
        subst hab
        exact hdis b hbm ha'
  · have hpv := Linked.pv_mem hd hq
    have hnx := IsChain.nx_mem hd.isChain hq
    have hqa : q ∉ la := fun hx => hdis q hx hq
    refine ⟨?_, Linked.unlink next_injective hd (IsChain.nodup hd.isChain) hq
      (fun b _ hx => by cases hx)⟩
    rw [List.erase_of_not_mem hqa]
    refine Linked.unlink_other ha ?_ ?_ ?_
    · rcases hpv with h1 | ⟨p, _, _, h1⟩ <;> rw [h1] <;> simp
    · intro a ha'
      rcases hpv with h1 | ⟨p, hpm, _, h1⟩
      · rw [h1]; simp
      · rw [h1]; intro hx
        have hap : p = a := next_injective (Option.some.inj hx)
        subst hap
        exact hdis p ha' hpm
    · intro a ha'
      rcases hnx with h1 | ⟨b, hbm, h1⟩
      · rw [h1]; simp
      · rw [h1]; intro hx
        have hab : b = a := Option.some.inj hx
        subst hab
        exact hdis b ha' hbm

/-- `remove_from_list(q)` on an entry of a pool touches no bucket link. -/
theorem remove_from_list_frame {s : block_cache β} {la ld : List Nat}
    (ha : active_linked s la) (hd : dormant_linked s ld) {q : Nat} (hq : q ∈ la ∨ q ∈ ld) :
    (remove_from_list s q).next_same_cl = s.next_same_cl ∧
    (remove_from_list s q).prev_same_cl_p = s.prev_same_cl_p ∧
    (remove_from_list s q).cache_tags = s.cache_tags := by
  have hpv : s.prev_p q = some Slot.active ∨ s.prev_p q = some Slot.dormant ∨
      ∃ p, s.prev_p q = some (Slot.next p) := by
    rcases hq with hq | hq
    · rcases Linked.pv_mem ha hq with h1 | ⟨p, _, _, h1⟩
      · exact Or.inl h1
      · exact Or.inr (Or.inr ⟨p, h1⟩)
    · rcases Linked.pv_mem hd hq with h1 | ⟨p, _, _, h1⟩
      · exact Or.inr (Or.inl h1)
      · exact Or.inr (Or.inr ⟨p, h1⟩)
  refine ⟨?_, (remove_from_list_rest s q).1, ?_⟩
  · funext a
    rw [remove_from_list_next_same_cl]
    rcases hpv with h1 | h1 | ⟨p, h1⟩ <;> rw [h1] <;> simp
  · funext i
    rw [remove_from_list_cache_tags]
    rcases hpv with h1 | h1 | ⟨p, h1⟩ <;> rw [h1] <;> simp

theorem Rep.buckets_disjoint [block_info β] {s : block_cache β} {ch : Nat → List Nat}
    {la ld : List Nat} (hr : Rep s ch la ld) :
    ∀ i j, i < HASH_SIZE → j < HASH_SIZE → ∀ e, e ∈ ch i → e ∈ ch j → i = j :=
  fun i j hi hj e hei hej => (hr.placed i hi e hei).symm.trans (hr.placed j hj e hej)

theorem Rep.nodup_bucket [block_info β] {s : block_cache β} {ch : Nat → List Nat}
    {la ld : List Nat} (hr : Rep s ch la ld) {i : Nat} (hi : i < HASH_SIZE) : (ch i).Nodup :=
  IsChain.nodup (hr.buckets i hi).isChain

theorem Rep.nodup_active [block_info β] {s : block_cache β} {ch : Nat → List Nat}
    {la ld : List Nat} (hr : Rep s ch la ld) : la.Nodup :=
  IsChain.nodup hr.act.isChain

theorem Rep.nodup_dormant [block_info β] {s : block_cache β} {ch : Nat → List Nat}
    {la ld : List Nat} (hr : Rep s ch la ld) : ld.Nodup :=
  IsChain.nodup hr.dor.isChain

/-- Unlinking a resident entry `q` from its bucket chain and its pool list, whatever has
been written into its payload before: `q` leaves both lists, which stay consistently
linked, and nothing else moves. -/
theorem remove_from_lists_core [block_info β] {s : block_cache β} {ch : Nat → List Nat}
    {la ld : List Nat} (hr : Rep s ch la ld) {q : Nat}
    (hq : q ∈ ch (cacheline (block_info.pc (s.info q)))) (b : β) (inv : List Nat) :
    Rep (remove_from_lists
        { s with info := Function.update s.info q b, invalidated := inv } q)
      (fun i => (ch i).erase q) (la.erase q) (ld.erase q) ∧
    (remove_from_lists
      { s with info := Function.update s.info q b, invalidated := inv } q).released =
      s.released ∧
    (remove_from_lists
      { s with info := Function.update s.info q b, invalidated := inv } q).invalidated = inv ∧
    (remove_from_lists
      { s with info := Function.update s.info q b, invalidated := inv } q).info =
      Function.update s.info q b ∧
    (remove_from_lists
      { s with info := Function.update s.info q b, invalidated := inv } q).stats = s.stats ∧
    (∀ a, s.prev_same_cl_p q ≠ some (Slot.next_same_cl a) →
      (remove_from_lists
        { s with info := Function.update s.info q b, invalidated := inv } q).next_same_cl a =
        s.next_same_cl a) ∧
    (∀ a, s.prev_p q ≠ some (Slot.next a) →
      (remove_from_lists
        { s with info := Function.update s.info q b, invalidated := inv } q).next a =
        s.next a) := by
  have hi0 := cacheline_lt (block_info.pc (s.info q))
  have hqp : q ∈ la ∨ q ∈ ld := (hr.both q).2 hq
  generalize hs1 : ({ s with info := Function.update s.info q b, invalidated := inv } :
    block_cache β) = s1
  have e1 : s1.next_same_cl = s.next_same_cl := by rw [← hs1]
  have e2 : s1.prev_same_cl_p = s.prev_same_cl_p := by rw [← hs1]
  have e3 : s1.cache_tags = s.cache_tags := by rw [← hs1]
  have e4 : s1.next = s.next := by rw [← hs1]
  have e5 : s1.prev_p = s.prev_p := by rw [← hs1]
  have e6 : s1.active = s.active := by rw [← hs1]
  have e7 : s1.dormant = s.dormant := by rw [← hs1]
  have e8 : s1.info = Function.update s.info q b := by rw [← hs1]
  have e9 : s1.released = s.released := by rw [← hs1]
  have e10 : s1.invalidated = inv := by rw [← hs1]
  have e11 : s1.stats = s.stats := by rw [← hs1]
  have hb1 : ∀ i, i < HASH_SIZE → bucket_linked s1 i (ch i) := by
    intro i hi; unfold bucket_linked; rw [e1, e2, e3]; exact hr.buckets i hi
  have ha1 : active_linked s1 la := by
    unfold active_linked; rw [e4, e5, e6]; exact hr.act
  have hd1 : dormant_linked s1 ld := by
    unfold dormant_linked; rw [e4, e5, e7]; exact hr.dor
  -- after `remove_from_cl_list(q)`
  have hb2 := remove_from_cl_list_buckets hb1 hr.buckets_disjoint hi0 hq
  obtain ⟨f1, f2, f3, f4⟩ := remove_from_cl_list_frame (hb1 _ hi0) hq
  obtain ⟨g1, g2, g3, g4, g5⟩ := remove_from_cl_list_rest s1 q
  have ha2 : active_linked (remove_from_cl_list s1 q) la := by
    unfold active_linked; rw [f1, f2, f3]; exact ha1
  have hd2 : dormant_linked (remove_from_cl_list s1 q) ld := by
    unfold dormant_linked; rw [f1, f2, f4]; exact hd1
  -- after `remove_from_list(q)`
  obtain ⟨ha3, hd3⟩ := remove_from_list_pools ha2 hd2 hr.disjoint hqp
  obtain ⟨k1, k2, k3⟩ := remove_from_list_frame ha2 hd2 hqp
  obtain ⟨m1, m2, m3, m4, m5⟩ := remove_from_list_rest (remove_from_cl_list s1 q) q
  have hinfo : (remove_from_lists s1 q).info = Function.update s.info q b := by
    show (remove_from_list (remove_from_cl_list s1 q) q).info = _
    rw [m2, g2, e8]
  have hinfo' : ∀ e, e ≠ q → (remove_from_lists s1 q).info e = s.info e := by
    intro e he
    rw [hinfo]
    exact Function.update_noteq he _ _
  have hpvq : s1.prev_same_cl_p q ≠ some (Slot.next_same_cl q) := by
    rcases Linked.pv_mem (hb1 _ hi0) hq with h1 | ⟨p, _, hpq, h1⟩
    · rw [h1]; simp
    · rw [h1]; intro hx; exact hpq (next_same_cl_injective (Option.some.inj hx))
  have hppq : s1.prev_p q ≠ some (Slot.next q) := by
    rcases hqp with hq1 | hq1
    · rcases Linked.pv_mem ha1 hq1 with h1 | ⟨p, _, hpq, h1⟩
      · rw [h1]; simp
      · rw [h1]; intro hx; exact hpq (next_injective (Option.some.inj hx))
    · rcases Linked.pv_mem hd1 hq1 with h1 | ⟨p, _, hpq, h1⟩
      · rw [h1]; simp
      · rw [h1]; intro hx; exact hpq (next_injective (Option.some.inj hx))
  refine ⟨?_, ?_, ?_, hinfo, ?_, ?_, ?_⟩
  · refine ⟨?_, ?_, ha3, hd3, ?_, ?_⟩
    · intro i hi
      have := hb2 i hi
      unfold bucket_linked at this ⊢
      show Linked (remove_from_list (remove_from_cl_list s1 q) q).next_same_cl
        (remove_from_list (remove_from_cl_list s1 q) q).prev_same_cl_p Slot.next_same_cl
        (Slot.tag i) ((remove_from_list (remove_from_cl_list s1 q) q).cache_tags i) _
      rw [k1, k2, k3]; exact this
    · intro i hi e he
      have hnd := hr.nodup_bucket hi
      have hee := (List.Nodup.mem_erase_iff hnd).1 he
      rw [hinfo' e hee.1]
      exact hr.placed i hi e hee.2
    · intro e he1 he2
      exact hr.disjoint e (List.mem_of_mem_erase he1) (List.mem_of_mem_erase he2)
    · intro e
      rw [List.Nodup.mem_erase_iff hr.nodup_active, List.Nodup.mem_erase_iff hr.nodup_dormant,
        List.Nodup.mem_erase_iff (hr.nodup_bucket (cacheline_lt _))]
      by_cases heq : e = q
      · simp [heq]
      · rw [hinfo' e heq]
        have := hr.both e
        simp only [heq, ne_eq, not_false_eq_true, true_and]
        exact this
  · show (remove_from_list (remove_from_cl_list s1 q) q).released = s.released
    rw [m4, g4, e9]
  · show (remove_from_list (remove_from_cl_list s1 q) q).invalidated = inv
    rw [m5, g5, e10]
  · show (remove_from_list (remove_from_cl_list s1 q) q).stats = s.stats
    rw [m3, g3, e11]
  · intro a ha
    show (remove_from_list (remove_from_cl_list s1 q) q).next_same_cl a = s.next_same_cl a
    rw [k1, remove_from_cl_list_next_same_cl s1 q a hpvq, e1, e2]
    exact if_neg ha
  · intro a ha
    show (remove_from_list (remove_from_cl_list s1 q) q).next a = s.next a
    have hppq2 : (remove_from_cl_list s1 q).prev_p q ≠ some (Slot.next q) := by
      rw [f2]; exact hppq
    rw [remove_from_list_next _ q a hppq2, f1, f2, e4, e5]
    exact if_neg ha

/-- Releasing an entry changes no list of the cache. -/
theorem Rep.delete_blockinfo [block_info β] {s : block_cache β} {ch : Nat → List Nat}
    {la ld : List Nat} (hr : Rep s ch la ld) (q : Nat) :
    Rep (delete_blockinfo s q) ch la ld :=
  ⟨hr.buckets, hr.placed, hr.act, hr.dor, hr.disjoint, hr.both⟩

/-- The four statements that destroy an intersecting entry `q`, on a well-formed cache
in which `q` is resident: `q` leaves its bucket chain and its pool list, which stay
consistently linked; nothing else moves; `q` is invalidated and released once. -/
theorem clear_range_drop_rep [block_info β] {s : block_cache β} {ch : Nat → List Nat}
    {la ld : List Nat} (hr : Rep s ch la ld) {q : Nat}
    (hq : q ∈ ch (cacheline (block_info.pc (s.info q)))) :
    Rep (clear_range_drop s q) (fun i => (ch i).erase q) (la.erase q) (ld.erase q) ∧
    (clear_range_drop s q).released = s.released ++ [q] ∧
    (clear_range_drop s q).invalidated = s.invalidated ++ [q] ∧
    (∀ e, e ≠ q → (clear_range_drop s q).info e = s.info e) ∧
    (clear_range_drop s q).stats = s.stats ∧
    (∀ a, s.prev_same_cl_p q ≠ some (Slot.next_same_cl a) →
      (clear_range_drop s q).next_same_cl a = s.next_same_cl a) ∧
    (∀ a, s.prev_p q ≠ some (Slot.next a) → (clear_range_drop s q).next a = s.next a) := by
  obtain ⟨h1, h2, h3, h4, h5, h6, h7⟩ :=
    remove_from_lists_core hr hq (block_info.invalidate (s.info q)) (s.invalidated ++ [q])
  refine ⟨h1.delete_blockinfo q, ?_, h3, ?_, h5, h6, h7⟩
  · show (remove_from_lists _ q).released ++ [q] = s.released ++ [q]
    rw [h2]
  · intro e he
    show (remove_from_lists _ q).info e = s.info e
    rw [h4]
    exact Function.update_noteq he _ _

end BlockCache

namespace BlockCache

variable {β : Type}

/-! ## The loops of `clear_range` -/

/-- The back-reference of the entry at a given position designates the head slot or
the link field of an entry ahead of it. -/
theorem Linked.pv_split {nx : Nat → Option Nat} {pv : Nat → Option Slot} {mk : Nat → Slot}
    {q : Nat} {rest : List Nat} (pre : List Nat) :
    ∀ {sl : Slot} {h : Option Nat}, Linked nx pv mk sl h (pre ++ q :: rest) →
      pv q = some sl ∨ ∃ p ∈ pre, pv q = some (mk p) := by
  induction pre with
  | nil => intro sl h hl; exact Or.inl hl.2.1
  | cons a pre ih =>
    intro sl h hl
    rcases ih hl.2.2 with h1 | ⟨p, hp, h1⟩
    · exact Or.inr ⟨a, List.mem_cons_self _ _, h1⟩
    · exact Or.inr ⟨p, List.mem_cons_of_mem _ hp, h1⟩

theorem filter_hits_congr [block_info β] {s s1 : block_cache β} (start end_ : Nat)
    {l : List Nat} (h : ∀ e ∈ l, s1.info e = s.info e) :
    l.filter (hits_range s1 start end_) = l.filter (hits_range s start end_) := by
  apply List.filter_congr
  intro e he
  simp [hits_range, h e he]

/-- The inner loop of the bucket branch, started at the pointer `p` heading the rest
`rest` of bucket `i`: it returns, and it has destroyed exactly the entries of `rest`
that intersect the range. -/
theorem clear_range_line_spec [block_info β] (start end_ i : Nat) (hi : i < HASH_SIZE)
    (rest : List Nat) :
    ∀ (s : block_cache β) (ch : Nat → List Nat) (la ld pre : List Nat) (p : Option Nat)
      (fuel : Nat), Rep s ch la ld → ch i = pre ++ rest → IsChain s.next_same_cl p rest →
      rest.length < fuel →
      ∃ s', clear_range_line start end_ fuel s p = some s' ∧
        Rep s' (fun j => (ch j).diff (rest.filter (hits_range s start end_)))
          (la.diff (rest.filter (hits_range s start end_)))
          (ld.diff (rest.filter (hits_range s start end_))) ∧
        s'.released = s.released ++ rest.filter (hits_range s start end_) ∧
        s'.invalidated = s.invalidated ++ rest.filter (hits_range s start end_) ∧
        (∀ e, e ∉ rest.filter (hits_range s start end_) → s'.info e = s.info e) ∧
        s'.stats = s.stats := by
  induction rest with
  | nil =>
    intro s ch la ld pre p fuel hr _ hp hf
    obtain ⟨f, rfl⟩ : ∃ f, fuel = f + 1 := ⟨fuel - 1, by simp at hf; omega⟩
    have hpn : p = none := hp
    subst hpn
    refine ⟨s, by simp [clear_range_line], ?_, by simp, by simp, by simp, rfl⟩
    simpa using hr
  | cons q rest ih =>
    intro s ch la ld pre p fuel hr hch hp hf
    obtain ⟨f, rfl⟩ : ∃ f, fuel = f + 1 := ⟨fuel - 1, by omega⟩
    have hf' : rest.length < f := by simp at hf; omega
    obtain ⟨hpq, hrest⟩ := hp
    subst hpq
    have hnd : (pre ++ q :: rest).Nodup := hch ▸ hr.nodup_bucket hi
    have hqi : q ∈ ch i := by rw [hch]; simp
    have hqr : q ∉ rest := by
      have := (List.nodup_append.1 hnd).2.1
      exact (List.nodup_cons.1 this).1
    have hqpre : q ∉ pre := fun hx =>
      (List.nodup_append.1 hnd).2.2 hx (List.mem_cons_self _ _)
    by_cases hh : hits_range s start end_ q = true
    · have hq : q ∈ ch (cacheline (block_info.pc (s.info q))) := by
        rw [hr.placed i hi q hqi]; exact hqi
      obtain ⟨hr1, hrel, hinv, hinfo, hst, hnxf, _⟩ := clear_range_drop_rep hr hq
      have hch1 : (fun j => (ch j).erase q) i = pre ++ rest := by
        show (ch i).erase q = pre ++ rest
        rw [hch, List.erase_append_right _ hqpre, List.erase_cons_head]
      have hrest1 : IsChain (clear_range_drop s q).next_same_cl (s.next_same_cl q) rest := by
        refine IsChain.agree hrest ?_
        intro a ha
        apply hnxf
        have hl : Linked s.next_same_cl s.prev_same_cl_p Slot.next_same_cl (Slot.tag i)
            (s.cache_tags i) (pre ++ q :: rest) := hch ▸ hr.buckets i hi
        rcases Linked.pv_split pre hl with h1 | ⟨p, hp, h1⟩
        · rw [h1]; simp
        · rw [h1]; intro hx
          have hpa : p = a := next_same_cl_injective (Option.some.inj hx)
          subst hpa
          exact (List.nodup_append.1 hnd).2.2 hp (List.mem_cons_of_mem _ ha)
      obtain ⟨s', h1, h2, h3, h4, h5, h6⟩ :=
        ih (clear_range_drop s q) _ _ _ pre (s.next_same_cl q) f hr1 hch1 hrest1 hf'
      have hD : rest.filter (hits_range (clear_range_drop s q) start end_) =
          rest.filter (hits_range s start end_) :=
        filter_hits_congr start end_ (fun e he => hinfo e (fun hx => hqr (hx ▸ he)))
      rw [hD] at h2 h3 h4 h5
      have hDq : (q :: rest).filter (hits_range s start end_) =
          q :: rest.filter (hits_range s start end_) := by
        simp [List.filter_cons, hh]
      rw [hDq]
      refine ⟨s', ?_, ?_, ?_, ?_, ?_, ?_⟩
      · have hh' : block_info.intersect (s.info q) start end_ = true := hh
        simp only [clear_range_line, hh', if_true]
        exact h1
      · simpa [List.diff_cons] using h2
      · rw [h3, hrel]; simp
      · rw [h4, hinv]; simp
      · intro e he
        have he1 : e ≠ q := fun hx => he (by simp [hx])
        have he2 : e ∉ rest.filter (hits_range s start end_) :=
          fun hx => he (List.mem_cons_of_mem _ hx)
        rw [h5 e he2, hinfo e he1]
      · rw [h6, hst]
    · have hch1 : ch i = (pre ++ [q]) ++ rest := by rw [hch]; simp
      obtain ⟨s', h1, h2, h3, h4, h5, h6⟩ :=
        ih s ch la ld (pre ++ [q]) (s.next_same_cl q) f hr hch1 hrest hf'
      have hDq : (q :: rest).filter (hits_range s start end_) =
          rest.filter (hits_range s start end_) := by
        simp [List.filter_cons, hh]
      rw [hDq]
      refine ⟨s', ?_, h2, h3, h4, h5, h6⟩
      have hh' : ¬ block_info.intersect (s.info q) start end_ = true := hh
      simp only [clear_range_line, hh', if_false]
      exact h1

end BlockCache

namespace BlockCache

variable {β : Type}

/-- The loop of the active-list branch, started at the pointer `p` heading the rest
`rest` of the active list: it returns, and it has destroyed exactly the entries of
`rest` that intersect the range. -/
theorem clear_range_pool_spec [block_info β] (start end_ : Nat) (rest : List Nat) :
    ∀ (s : block_cache β) (ch : Nat → List Nat) (la ld pre : List Nat) (p : Option Nat)
      (fuel : Nat), Rep s ch la ld → la = pre ++ rest → IsChain s.next p rest →
      rest.length < fuel →
      ∃ s', clear_range_pool start end_ fuel s p = some s' ∧
        Rep s' (fun j => (ch j).diff (rest.filter (hits_range s start end_)))
          (la.diff (rest.filter (hits_range s start end_)))
          (ld.diff (rest.filter (hits_range s start end_))) ∧
        s'.released = s.released ++ rest.filter (hits_range s start end_) ∧
        s'.invalidated = s.invalidated ++ rest.filter (hits_range s start end_) ∧
        (∀ e, e ∉ rest.filter (hits_range s start end_) → s'.info e = s.info e) ∧
        s'.stats = s.stats := by
  induction rest with
  | nil =>
    intro s ch la ld pre p fuel hr _ hp hf
    obtain ⟨f, rfl⟩ : ∃ f, fuel = f + 1 := ⟨fuel - 1, by simp at hf; omega⟩
    have hpn : p = none := hp
    subst hpn
    refine ⟨s, by simp [clear_range_pool], ?_, by simp, by simp, by simp, rfl⟩
    simpa using hr
  | cons q rest ih =>
    intro s ch la ld pre p fuel hr hla hp hf
    obtain ⟨f, rfl⟩ : ∃ f, fuel = f + 1 := ⟨fuel - 1, by omega⟩
    have hf' : rest.length < f := by simp at hf; omega
    obtain ⟨hpq, hrest⟩ := hp
    subst hpq
    have hnd : (pre ++ q :: rest).Nodup := hla ▸ hr.nodup_active
    have hqa : q ∈ la := by rw [hla]; simp
    have hqr : q ∉ rest := by
      have := (List.nodup_append.1 hnd).2.1
      exact (List.nodup_cons.1 this).1
    have hqpre : q ∉ pre := fun hx =>
      (List.nodup_append.1 hnd).2.2 hx (List.mem_cons_self _ _)
    by_cases hh : hits_range s start end_ q = true
    · have hq : q ∈ ch (cacheline (block_info.pc (s.info q))) := (hr.both q).1 (Or.inl hqa)
      obtain ⟨hr1, hrel, hinv, hinfo, hst, _, hnxf⟩ := clear_range_drop_rep hr hq
      have hla1 : la.erase q = pre ++ rest := by
        rw [hla, List.erase_append_right _ hqpre, List.erase_cons_head]
      have hrest1 : IsChain (clear_range_drop s q).next (s.next q) rest := by
        refine IsChain.agree hrest ?_
        intro a ha
        apply hnxf
        have hl : Linked s.next s.prev_p Slot.next Slot.active s.active (pre ++ q :: rest) :=
          hla ▸ hr.act
        rcases Linked.pv_split pre hl with h1 | ⟨p, hp, h1⟩
        · rw [h1]; simp
        · rw [h1]; intro hx
          have hpa : p = a := next_injective (Option.some.inj hx)
          subst hpa
          exact (List.nodup_append.1 hnd).2.2 hp (List.mem_cons_of_mem _ ha)
      obtain ⟨s', h1, h2, h3, h4, h5, h6⟩ :=
        ih (clear_range_drop s q) _ _ _ pre (s.next q) f hr1 hla1 hrest1 hf'
      have hD : rest.filter (hits_range (clear_range_drop s q) start end_) =
          rest.filter (hits_range s start end_) :=
        filter_hits_congr start end_ (fun e he => hinfo e (fun hx => hqr (hx ▸ he)))
      rw [hD] at h2 h3 h4 h5
      have hDq : (q :: rest).filter (hits_range s start end_) =
          q :: rest.filter (hits_range s start end_) := by
        simp [List.filter_cons, hh]
      rw [hDq]
      refine ⟨s', ?_, ?_, ?_, ?_, ?_, ?_⟩
      · have hh' : block_info.intersect (s.info q) start end_ = true := hh
        simp only [clear_range_pool, hh', if_true]
        exact h1
      · simpa [List.diff_cons] using h2
      · rw [h3, hrel]; simp
      · rw [h4, hinv]; simp
      · intro e he
        have he1 : e ≠ q := fun hx => he (by simp [hx])
        have he2 : e ∉ rest.filter (hits_range s start end_) :=
          fun hx => he (List.mem_cons_of_mem _ hx)
        rw [h5 e he2, hinfo e he1]
      · rw [h6, hst]
    · have hla1 : la = (pre ++ [q]) ++ rest := by rw [hla]; simp
      obtain ⟨s', h1, h2, h3, h4, h5, h6⟩ :=
        ih s ch la ld (pre ++ [q]) (s.next q) f hr hla1 hrest hf'
      have hDq : (q :: rest).filter (hits_range s start end_) =
          rest.filter (hits_range s start end_) := by
        simp [List.filter_cons, hh]
      rw [hDq]
      refine ⟨s', ?_, h2, h3, h4, h5, h6⟩
      have hh' : ¬ block_info.intersect (s.info q) start end_ = true := hh
      simp only [clear_range_pool, hh', if_false]
      exact h1

/-- The `for` loop of the bucket branch over the buckets `cls`: it returns, and the
entries it has destroyed are exactly the entries of those buckets that intersect the
range. -/
theorem clear_range_lines_spec [block_info β] (start end_ fuel : Nat) (cls : List Nat) :
    ∀ (s : block_cache β) (ch : Nat → List Nat) (la ld : List Nat), Rep s ch la ld →
      (∀ cl ∈ cls, cl < HASH_SIZE) → (∀ j, j < HASH_SIZE → (ch j).length < fuel) →
      ∃ s' D, clear_range_lines start end_ fuel cls s = some s' ∧
        Rep s' (fun j => (ch j).diff D) (la.diff D) (ld.diff D) ∧
        s'.released = s.released ++ D ∧ s'.invalidated = s.invalidated ++ D ∧
        (∀ e, e ∉ D → s'.info e = s.info e) ∧ s'.stats = s.stats ∧
        (∀ e ∈ D, hits_range s start end_ e = true ∧ ∃ cl ∈ cls, e ∈ ch cl) ∧
        (∀ cl ∈ cls, ∀ e ∈ ch cl, hits_range s start end_ e = true → e ∈ D) := by
  induction cls with
  | nil =>
    intro s ch la ld hr _ _
    refine ⟨s, [], rfl, by simpa using hr, by simp, by simp, by simp, rfl, by simp, by simp⟩
  | cons cl cls ih =>
    intro s ch la ld hr hcls hlen
    have hcl : cl < HASH_SIZE := hcls cl (List.mem_cons_self _ _)
    obtain ⟨s1, h1, hr1, hrel1, hinv1, hinfo1, hst1⟩ :=
      clear_range_line_spec start end_ cl hcl (ch cl) s ch la ld [] (s.cache_tags cl) fuel hr
        (by simp) (hr.buckets cl hcl).isChain (hlen cl hcl)
    have hlen1 : ∀ j, j < HASH_SIZE →
        ((ch j).diff ((ch cl).filter (hits_range s start end_))).length < fuel := by
      intro j hj
      exact lt_of_le_of_lt (List.diff_sublist _ _).length_le (hlen j hj)
    obtain ⟨s', D2, h2, hr2, hrel2, hinv2, hinfo2, hst2, hD2, hC2⟩ :=
      ih s1 _ _ _ hr1 (fun c hc => hcls c (List.mem_cons_of_mem _ hc)) hlen1
    refine ⟨s', (ch cl).filter (hits_range s start end_) ++ D2, ?_, ?_, ?_, ?_, ?_, ?_, ?_, ?_⟩
    · simp only [clear_range_lines, h1]
      exact h2
    · simpa [List.diff_append] using hr2
    · rw [hrel2, hrel1]; simp
    · rw [hinv2, hinv1]; simp
    · intro e he
      have he1 : e ∉ (ch cl).filter (hits_range s start end_) :=
        fun hx => he (List.mem_append_left _ hx)
      have he2 : e ∉ D2 := fun hx => he (List.mem_append_right _ hx)
      rw [hinfo2 e he2, hinfo1 e he1]
    · rw [hst2, hst1]
    · intro e he
      rcases List.mem_append.1 he with he | he
      · obtain ⟨hm, hh⟩ := List.mem_filter.1 he
        exact ⟨hh, cl, List.mem_cons_self _ _, hm⟩
      · obtain ⟨hh, c, hc, hm⟩ := hD2 e he
        have hcc : c < HASH_SIZE := hcls c (List.mem_cons_of_mem _ hc)
        have hm' := (List.Nodup.mem_diff_iff (hr.nodup_bucket hcc)).1 hm
        refine ⟨?_, c, List.mem_cons_of_mem _ hc, hm'.1⟩
        have : hits_range s1 start end_ e = hits_range s start end_ e := by
          simp [hits_range, hinfo1 e hm'.2]
        rw [← this]; exact hh
    · intro c hc e hm hh
      by_cases he1 : e ∈ (ch cl).filter (hits_range s start end_)
      · exact List.mem_append_left _ he1
      · apply List.mem_append_right
        rcases List.mem_cons.1 hc with rfl | hc'
        · exact absurd (List.mem_filter.2 ⟨hm, hh⟩) he1
        · refine hC2 c hc' e (List.mem_diff_of_mem hm he1) ?_
          have : hits_range s1 start end_ e = hits_range s start end_ e := by
            simp [hits_range, hinfo1 e he1]
          rw [this]; exact hh

end BlockCache

namespace BlockCache

variable {β : Type}

/-! ## Range invalidation -/

theorem Rep.bucket_length [block_info β] {s : block_cache β} {ch : Nat → List Nat}
    {la ld : List Nat} (hr : Rep s ch la ld) {i : Nat} (hi : i < HASH_SIZE) :
    (ch i).length ≤ la.length + ld.length := by
  have hsub : ch i ⊆ la ++ ld := by
    intro e he
    have h1 := hr.placed i hi e he
    have h2 := (hr.both e).2 (by rw [h1]; exact he)
    exact List.mem_append.2 h2
  have := (List.subperm_of_subset (hr.nodup_bucket hi) hsub).length_le
  simpa using this

/-- What `clear_range` does to a well-formed cache: it returns, having destroyed a list
`D` of entries that all intersect the range; every list of the cache loses the entries of
`D` and nothing else. -/
theorem clear_range_spec [block_info β] (W : Nat) {s : block_cache β} {ch : Nat → List Nat}
    {la ld : List Nat} (hr : Rep s ch la ld) (start end_ fuel : Nat)
    (hf : la.length + ld.length < fuel) :
    ∃ s' D, clear_range W fuel s start end_ = some s' ∧
      Rep s' (fun j => (ch j).diff D) (la.diff D) (ld.diff D) ∧
      s'.released = s.released ++ D ∧ s'.invalidated = s.invalidated ++ D ∧
      (∀ e, e ∉ D → s'.info e = s.info e) ∧ s'.stats = s.stats ∧
      (∀ e ∈ D, hits_range s start end_ e = true) := by
  unfold clear_range
  cases hact : s.active with
  | none =>
    exact ⟨s, [], rfl, by simpa using hr, by simp, by simp, by simp, rfl, by simp⟩
  | some a =>
    simp only
    by_cases hc : cacheline start < cacheline (uintptr_pred W end_)
    · rw [if_pos hc]
      obtain ⟨s', D, h1, h2, h3, h4, h5, h6, h7, _⟩ :=
        clear_range_lines_spec start end_ fuel
          (List.range' (cacheline start)
            (cacheline (uintptr_pred W end_) + 1 - cacheline start)) s ch la ld hr
          (by
            intro cl hcl
            have := cacheline_lt (uintptr_pred W end_)
            rw [List.mem_range'_1] at hcl
            omega)
          (fun j hj => lt_of_le_of_lt (hr.bucket_length hj) hf)
      exact ⟨s', D, h1, h2, h3, h4, h5, h6, fun e he => (h7 e he).1⟩
    · rw [if_neg hc]
      obtain ⟨s', h1, h2, h3, h4, h5, h6⟩ :=
        clear_range_pool_spec start end_ la s ch la ld [] (some a) fuel hr (by simp)
          (hact ▸ hr.act.isChain) (by omega)
      exact ⟨s', _, h1, h2, h3, h4, h5, h6, fun e he => (List.mem_filter.1 he).2⟩

end BlockCache

namespace BlockCache

variable {β : Type}

/-! ## Linking a new entry -/

theorem add_to_cl_list_fields [block_info β] (s : block_cache β) (e : Nat) :
    (add_to_cl_list s e).next_same_cl =
      Function.update s.next_same_cl e (s.cache_tags (cacheline (block_info.pc (s.info e)))) ∧
    (add_to_cl_list s e).prev_same_cl_p =
      Function.update
        (set_back s.prev_same_cl_p (s.cache_tags (cacheline (block_info.pc (s.info e))))
          (Slot.next_same_cl e)) e
        (some (Slot.tag (cacheline (block_info.pc (s.info e))))) ∧
    (add_to_cl_list s e).cache_tags =
      Function.update s.cache_tags (cacheline (block_info.pc (s.info e))) (some e) ∧
    (add_to_cl_list s e).next = s.next ∧ (add_to_cl_list s e).prev_p = s.prev_p ∧
    (add_to_cl_list s e).active = s.active ∧ (add_to_cl_list s e).dormant = s.dormant ∧
    (add_to_cl_list s e).info = s.info ∧ (add_to_cl_list s e).stats = s.stats ∧
    (add_to_cl_list s e).released = s.released ∧
    (add_to_cl_list s e).invalidated = s.invalidated := by
  unfold add_to_cl_list
  cases h : s.cache_tags (cacheline (block_info.pc (s.info e))) <;> simp [h, set_back]

theorem add_to_active_list_fields (s : block_cache β) (e : Nat) :
    (add_to_active_list s e).next = Function.update s.next e s.active ∧
    (add_to_active_list s e).prev_p =
      Function.update
        (set_back s.prev_p s.active (Slot.next e)) e (some Slot.active) ∧
    (add_to_active_list s e).active = some e ∧
    (add_to_active_list s e).dormant = s.dormant ∧
    (add_to_active_list s e).next_same_cl = s.next_same_cl ∧
    (add_to_active_list s e).prev_same_cl_p = s.prev_same_cl_p ∧
    (add_to_active_list s e).cache_tags = s.cache_tags ∧
    (add_to_active_list s e).info = s.info ∧ (add_to_active_list s e).stats = s.stats ∧
    (add_to_active_list s e).released = s.released ∧
    (add_to_active_list s e).invalidated = s.invalidated := by
  unfold add_to_active_list
  cases h : s.active <;> simp [h, set_back]

theorem add_to_dormant_list_fields (s : block_cache β) (e : Nat) :
    (add_to_dormant_list s e).next = Function.update s.next e s.dormant ∧
    (add_to_dormant_list s e).prev_p =
      Function.update
        (set_back s.prev_p s.dormant (Slot.next e)) e (some Slot.dormant) ∧
    (add_to_dormant_list s e).dormant = some e ∧
    (add_to_dormant_list s e).active = s.active ∧
    (add_to_dormant_list s e).next_same_cl = s.next_same_cl ∧
    (add_to_dormant_list s e).prev_same_cl_p = s.prev_same_cl_p ∧
    (add_to_dormant_list s e).cache_tags = s.cache_tags ∧
    (add_to_dormant_list s e).info = s.info ∧ (add_to_dormant_list s e).stats = s.stats ∧
    (add_to_dormant_list s e).released = s.released ∧
    (add_to_dormant_list s e).invalidated = s.invalidated := by
  unfold add_to_dormant_list
  cases h : s.dormant <;> simp [h, set_back]

/-- A list that holds neither the new entry nor the old head of the list the entry is
pushed on is not affected by the push. -/
theorem Linked.push_other {nx : Nat → Option Nat} {pv : Nat → Option Slot} {mk : Nat → Slot}
    {sl sl' : Slot} {h h' : Option Nat} {l : List Nat} {e : Nat}
    (hl : Linked nx pv mk sl h l) (he : e ∉ l) (hh : ∀ b, h' = some b → b ∉ l) :
    Linked (Function.update nx e h')
      (Function.update (set_back pv h' (mk e)) e (some sl')) mk sl h l := by
  refine Linked.congr hl ?_ ?_
  · intro a ha
    have hae : a ≠ e := fun hx => he (hx ▸ ha)
    exact Function.update_noteq hae _ _
  · intro a ha
    have hae : a ≠ e := fun hx => he (hx ▸ ha)
    rw [Function.update_noteq hae]
    cases h' with
    | none => rfl
    | some b =>
      have hab : a ≠ b := fun hx => hh b rfl (hx ▸ ha)
      exact Function.update_noteq hab _ _

/-- `add_to_cl_list(e)` for an entry in no bucket: `e` becomes the head of its bucket,
the other buckets keep their chains. -/
theorem add_to_cl_list_buckets [block_info β] {s : block_cache β} {ch : Nat → List Nat}
    (hb : ∀ i, i < HASH_SIZE → bucket_linked s i (ch i))
    (hp : ∀ i j, i < HASH_SIZE → j < HASH_SIZE → ∀ e, e ∈ ch i → e ∈ ch j → i = j)
    {e : Nat} (he : ∀ i, i < HASH_SIZE → e ∉ ch i) :
    ∀ i, i < HASH_SIZE → bucket_linked (add_to_cl_list s e) i
      (Function.update ch (cacheline (block_info.pc (s.info e)))
        (e :: ch (cacheline (block_info.pc (s.info e)))) i) := by
  obtain ⟨f1, f2, f3, _⟩ := add_to_cl_list_fields s e
  have hi0 := cacheline_lt (block_info.pc (s.info e))
  intro i hi
  unfold bucket_linked
  rw [f1, f2, f3]
  by_cases hii : i = cacheline (block_info.pc (s.info e))
  · subst hii
    rw [Function.update_same, Function.update_same]
    exact Linked.push (hb _ hi) (he _ hi)
  · rw [Function.update_noteq hii, Function.update_noteq hii]
    refine Linked.push_other (hb i hi) (he i hi) ?_
    intro b hb' hbi
    have hbm : b ∈ ch (cacheline (block_info.pc (s.info e))) := by
      have hl0 := hb _ hi0
      cases hc : ch (cacheline (block_info.pc (s.info e))) with
      | nil =>
        rw [hc] at hl0
        have : s.cache_tags (cacheline (block_info.pc (s.info e))) = none := hl0
        rw [this] at hb'; cases hb'
      | cons c l =>
        rw [hc] at hl0
        have : s.cache_tags (cacheline (block_info.pc (s.info e))) = some c := hl0.1
        rw [this] at hb'
        cases hb'
        simp
    exact hii (hp i _ hi hi0 b hbi hbm)

theorem Linked.head_mem {nx : Nat → Option Nat} {pv : Nat → Option Slot} {mk : Nat → Slot}
    {sl : Slot} {h : Option Nat} {l : List Nat} (hl : Linked nx pv mk sl h l) {b : Nat}
    (hb : h = some b) : b ∈ l := by
  cases l with
  | nil =>
    have : h = none := hl
    rw [this] at hb; cases hb
  | cons c l =>
    have : h = some c := hl.1
    rw [this] at hb
    cases hb
    simp

/-- `add_to_active_list(e)` for an entry in neither pool. -/
theorem add_to_active_list_pools {s : block_cache β} {la ld : List Nat}
    (ha : active_linked s la) (hd : dormant_linked s ld) (hdis : ∀ e ∈ la, e ∉ ld)
    {e : Nat} (hea : e ∉ la) (hed : e ∉ ld) :
    active_linked (add_to_active_list s e) (e :: la) ∧
    dormant_linked (add_to_active_list s e) ld := by
  obtain ⟨f1, f2, f3, f4, _⟩ := add_to_active_list_fields s e
  unfold active_linked dormant_linked
  rw [f1, f2, f3, f4]
  refine ⟨Linked.push ha hea, Linked.push_other hd hed ?_⟩
  intro b hb hbd
  exact hdis b (Linked.head_mem ha hb) hbd

/-- `add_to_dormant_list(e)` for an entry in neither pool. -/
theorem add_to_dormant_list_pools {s : block_cache β} {la ld : List Nat}
    (ha : active_linked s la) (hd : dormant_linked s ld) (hdis : ∀ e ∈ la, e ∉ ld)
    {e : Nat} (hea : e ∉ la) (hed : e ∉ ld) :
    active_linked (add_to_dormant_list s e) la ∧
    dormant_linked (add_to_dormant_list s e) (e :: ld) := by
  obtain ⟨f1, f2, f3, f4, _⟩ := add_to_dormant_list_fields s e
  unfold active_linked dormant_linked
  rw [f1, f2, f3, f4]
  refine ⟨Linked.push_other ha hea ?_, Linked.push hd hed⟩
  intro b hb hba
  exact hdis b hba (Linked.head_mem hd hb)

end BlockCache

namespace BlockCache

variable {β : Type}

/-! ## Well-formed caches: the constructor and insertion -/

theorem construct_rep [block_info β] (s : block_cache β) :
    Rep (block_cache.construct s) (fun _ => []) [] [] := by
  refine ⟨fun i _ => rfl, ?_, rfl, rfl, ?_, ?_⟩
  · intro i _ e he; cases he
  · intro e he; cases he
  · intro e; simp

theorem Rep.not_mem_bucket [block_info β] {s : block_cache β} {ch : Nat → List Nat}
    {la ld : List Nat} (hr : Rep s ch la ld) {e : Nat} (hea : e ∉ la) (hed : e ∉ ld) :
    ∀ i, i < HASH_SIZE → e ∉ ch i := by
  intro i hi he
  have h1 := hr.placed i hi e he
  rcases (hr.both e).2 (by rw [h1]; exact he) with h | h
  · exact hea h
  · exact hed h

theorem add_to_cl_list_rep [block_info β] {s : block_cache β} {ch : Nat → List Nat}
    {la ld : List Nat} (hr : Rep s ch la ld) {e : Nat} (hea : e ∉ la) (hed : e ∉ ld) :
    (∀ i, i < HASH_SIZE → bucket_linked (add_to_cl_list s e) i
      (Function.update ch (cacheline (block_info.pc (s.info e)))
        (e :: ch (cacheline (block_info.pc (s.info e)))) i)) ∧
    active_linked (add_to_cl_list s e) la ∧ dormant_linked (add_to_cl_list s e) ld := by
  obtain ⟨_, _, _, f4, f5, f6, f7, _⟩ := add_to_cl_list_fields s e
  refine ⟨add_to_cl_list_buckets hr.buckets hr.buckets_disjoint (hr.not_mem_bucket hea hed),
    ?_, ?_⟩
  · unfold active_linked; rw [f4, f5, f6]; exact hr.act
  · unfold dormant_linked; rw [f4, f5, f7]; exact hr.dor

theorem insert_placed [block_info β] {s : block_cache β} {ch : Nat → List Nat}
    {la ld : List Nat} (hr : Rep s ch la ld) (e : Nat) :
    ∀ i, i < HASH_SIZE → ∀ x ∈ Function.update ch (cacheline (block_info.pc (s.info e)))
      (e :: ch (cacheline (block_info.pc (s.info e)))) i,
      cacheline (block_info.pc (s.info x)) = i := by
  intro i hi x hx
  by_cases hii : i = cacheline (block_info.pc (s.info e))
  · subst hii
    rw [Function.update_same] at hx
    rcases List.mem_cons.1 hx with rfl | hx
    · rfl
    · exact hr.placed _ hi x hx
  · rw [Function.update_noteq hii] at hx
    exact hr.placed i hi x hx

theorem insert_both [block_info β] {s : block_cache β} {ch : Nat → List Nat}
    {la ld : List Nat} (hr : Rep s ch la ld) (e x : Nat) :
    ((x = e ∨ x ∈ la) ∨ x ∈ ld) ↔
      x ∈ Function.update ch (cacheline (block_info.pc (s.info e)))
        (e :: ch (cacheline (block_info.pc (s.info e))))
        (cacheline (block_info.pc (s.info x))) := by
  have hb := hr.both x
  by_cases hii : cacheline (block_info.pc (s.info x)) = cacheline (block_info.pc (s.info e))
  · rw [hii, Function.update_same, List.mem_cons]
    rw [hii] at hb
    rw [← hb]
    tauto
  · rw [Function.update_noteq hii]
    have hxe : x ≠ e := fun hx => hii (by rw [hx])
    rw [← hb]
    simp [hxe]

/-- Inserting an entry that is linked nowhere into its bucket and the active list keeps
the cache well-formed. -/
theorem insert_active_rep [block_info β] {s : block_cache β} {ch : Nat → List Nat}
    {la ld : List Nat} (hr : Rep s ch la ld) {e : Nat} (hea : e ∉ la) (hed : e ∉ ld) :
    Rep (insert_active s e)
      (Function.update ch (cacheline (block_info.pc (s.info e)))
        (e :: ch (cacheline (block_info.pc (s.info e))))) (e :: la) ld := by
  obtain ⟨hb1, ha1, hd1⟩ := add_to_cl_list_rep hr hea hed
  obtain ⟨_, _, _, _, _, _, _, finfo, _⟩ := add_to_cl_list_fields s e
  obtain ⟨_, _, _, _, g5, g6, g7, ginfo, _⟩ := add_to_active_list_fields (add_to_cl_list s e) e
  obtain ⟨ha2, hd2⟩ := add_to_active_list_pools ha1 hd1 hr.disjoint hea hed
  have hinfo : (insert_active s e).info = s.info := by
    show (add_to_active_list (add_to_cl_list s e) e).info = s.info
    rw [ginfo, finfo]
  refine ⟨?_, ?_, ha2, hd2, ?_, ?_⟩
  · intro i hi
    have := hb1 i hi
    unfold bucket_linked at this ⊢
    show Linked (add_to_active_list (add_to_cl_list s e) e).next_same_cl
      (add_to_active_list (add_to_cl_list s e) e).prev_same_cl_p Slot.next_same_cl (Slot.tag i)
      ((add_to_active_list (add_to_cl_list s e) e).cache_tags i) _
    rw [g5, g6, g7]; exact this
  · rw [hinfo]; exact insert_placed hr e
  · intro x hx hxd
    rcases List.mem_cons.1 hx with rfl | hx
    · exact hed hxd
    · exact hr.disjoint x hx hxd
  · intro x
    rw [hinfo, List.mem_cons]
    exact insert_both hr e x

/-- Inserting an entry that is linked nowhere into its bucket and the dormant list keeps
the cache well-formed. -/
theorem insert_dormant_rep [block_info β] {s : block_cache β} {ch : Nat → List Nat}
    {la ld : List Nat} (hr : Rep s ch la ld) {e : Nat} (hea : e ∉ la) (hed : e ∉ ld) :
    Rep (insert_dormant s e)
      (Function.update ch (cacheline (block_info.pc (s.info e)))
        (e :: ch (cacheline (block_info.pc (s.info e))))) la (e :: ld) := by
  obtain ⟨hb1, ha1, hd1⟩ := add_to_cl_list_rep hr hea hed
  obtain ⟨_, _, _, _, _, _, _, finfo, _⟩ := add_to_cl_list_fields s e
  obtain ⟨_, _, _, _, g5, g6, g7, ginfo, _⟩ := add_to_dormant_list_fields (add_to_cl_list s e) e
  obtain ⟨ha2, hd2⟩ := add_to_dormant_list_pools ha1 hd1 hr.disjoint hea hed
  have hinfo : (insert_dormant s e).info = s.info := by
    show (add_to_dormant_list (add_to_cl_list s e) e).info = s.info
    rw [ginfo, finfo]
  refine ⟨?_, ?_, ha2, hd2, ?_, ?_⟩
  · intro i hi
    have := hb1 i hi
    unfold bucket_linked at this ⊢
    show Linked (add_to_dormant_list (add_to_cl_list s e) e).next_same_cl
      (add_to_dormant_list (add_to_cl_list s e) e).prev_same_cl_p Slot.next_same_cl (Slot.tag i)
      ((add_to_dormant_list (add_to_cl_list s e) e).cache_tags i) _
    rw [g5, g6, g7]; exact this
  · rw [hinfo]; exact insert_placed hr e
  · intro x hx hxd
    rcases List.mem_cons.1 hxd with rfl | hxd
    · exact hea hx
    · exact hr.disjoint x hx hxd
  · intro x
    rw [hinfo, List.mem_cons]
    have := insert_both hr e x
    rw [← this]
    tauto

theorem well_formed.chains_ok [block_info β] {s : block_cache β} (hwf : well_formed s) :
    chains_ok s := by
  obtain ⟨ch, la, ld, hr⟩ := hwf
  intro i hi
  exact ⟨ch i, (hr.buckets i hi).isChain, hr.placed i hi⟩

theorem cache_abc_well_formed : well_formed cache_abc := by
  have h0 := construct_rep (blank_memory heap_abc)
  have h1 := insert_active_rep h0 (e := 1) (by simp) (by simp)
  have h2 := insert_active_rep h1 (e := 2) (by simp) (by simp)
  have h3 := insert_active_rep h2 (e := 3) (by simp) (by simp)
  exact ⟨_, _, _, h3⟩

end BlockCache

namespace BlockCache

/-! ## Instances of the theorems on `cache_abc` -/

theorem find_returns_first_match_witness :
    chains_ok cache_abc ∧
    ∃ l, bucket_chain cache_abc (cacheline 8) l ∧
      (∀ fuel, l.length < fuel →
        ∃ s', find fuel cache_abc 8 = some (s', l.find? (pc_is cache_abc 8))) ∧
      (l.find? (pc_is cache_abc 8) = none ↔
        ∀ e ∈ l, block_info.pc (cache_abc.info e) ≠ 8) :=
  ⟨cache_abc_well_formed.chains_ok,
    find_returns_first_match cache_abc cache_abc_well_formed.chains_ok 8⟩

end BlockCache

namespace BlockCache

variable {β : Type}

/-! ## Raise on hit -/

theorem find?_pc_is [block_info β] {s : block_cache β} {pc e : Nat} {l : List Nat}
    (h : l.find? (pc_is s pc) = some e) : e ∈ l ∧ block_info.pc (s.info e) = pc := by
  refine ⟨List.mem_of_find?_eq_some h, ?_⟩
  have := List.find?_some h
  simpa [pc_is] using this

end BlockCache

namespace BlockCache

variable {β : Type}

theorem cache_abc_find :
    ∃ s', find 4 cache_abc 8 = some (s', some 1) ∧
      bucket_chain cache_abc (cacheline 8) [3, 2, 1] ∧ bucket_chain s' (cacheline 8) [1, 3, 2] ∧
      (fast_find s' 8).2 = some 1 :=
  ⟨(find_result cache_abc 8 [3, 2, 1]).1, rfl, ⟨rfl, rfl, rfl, rfl⟩, ⟨rfl, rfl, rfl, rfl⟩, rfl⟩

end BlockCache

namespace BlockCache

variable {β : Type}

/-! ## Round trip -/

theorem fast_find_some [block_info β] {s : block_cache β} {pc e : Nat}
    (h : (fast_find s pc).2 = some e) : s.cache_tags (cacheline pc) = some e := by
  unfold fast_find at h
  cases hh : s.cache_tags (cacheline pc) with
  | none => rw [hh] at h; cases h
  | some b =>
    rw [hh] at h
    by_cases hp : block_info.pc (s.info b) = pc
    · simp only [hp, if_true] at h; exact h
    · simp only [hp, if_false] at h; cases h

theorem IsChain.head_in {nx : Nat → Option Nat} {h : Option Nat} {l : List Nat}
    (hl : IsChain nx h l) {b : Nat} (hb : h = some b) : b ∈ l := by
  cases l with
  | nil =>
    have : h = none := hl
    rw [this] at hb; cases hb
  | cons c l =>
    have : h = some c := hl.1
    rw [this] at hb
    cases hb
    simp

theorem cache_dup_well_formed : well_formed cache_dup := by
  have h0 := construct_rep (blank_memory heap_dup)
  have h1 := insert_active_rep h0 (e := 1) (by simp) (by simp)
  have h2 := insert_active_rep h1 (e := 2) (by simp) (by simp)
  exact ⟨_, _, _, h2⟩

/-- C3, as stated, fails: in the well-formed cache `cache_dup` block 1 is resident (in
bucket `cacheline(8)` behind block 2, and in the active list), its `pc` is 8, and
`find(8)` never returns it: it returns block 2, which has the same `pc`. -/
theorem round_trip_counterexample :
    well_formed cache_dup ∧ bucket_chain cache_dup (cacheline 8) [2, 1] ∧
    active_list cache_dup [2, 1] ∧ block_info.pc (cache_dup.info 1) = 8 ∧
    (∀ fuel, ∃ s', find fuel cache_dup 8 = some (s', some 2)) ∧
    ∀ fuel s', find fuel cache_dup 8 ≠ some (s', some 1) := by
  have hf : ∀ fuel, ∃ s', find fuel cache_dup 8 = some (s', some 2) :=
    fun fuel => ⟨_, rfl⟩
  refine ⟨cache_dup_well_formed, ⟨rfl, rfl, rfl⟩, ⟨rfl, rfl, rfl⟩, rfl, hf, ?_⟩
  intro fuel s' h
  obtain ⟨s'', h2⟩ := hf fuel
  rw [h2] at h
  cases h

end BlockCache

namespace BlockCache

variable {β : Type}

/-! ## Full clear -/

/-- One loop of `clear`, started at the head of a list `l`: it returns and has released
the entries of `l`, each once, in list order; nothing else changes. -/
theorem clear_list_spec (l : List Nat) :
    ∀ (s : block_cache β) (p : Option Nat) (fuel : Nat), IsChain s.next p l →
      l.length < fuel →
      clear_list fuel s p = some { s with released := s.released ++ l } := by
  induction l with
  | nil =>
    intro s p fuel hp hf
    obtain ⟨f, rfl⟩ : ∃ f, fuel = f + 1 := ⟨fuel - 1, by simp at hf; omega⟩
    have hpn : p = none := hp
    subst hpn
    simp [clear_list]
  | cons d l ih =>
    intro s p fuel hp hf
    obtain ⟨f, rfl⟩ : ∃ f, fuel = f + 1 := ⟨fuel - 1, by omega⟩
    obtain ⟨hpd, hrest⟩ := hp
    subst hpd
    have h1 := ih (delete_blockinfo s d) (s.next d) f hrest (by simp at hf; omega)
    simp only [clear_list, h1]
    simp [delete_blockinfo, allocator_release]

/-- What `clear()` does when the active list is `la` and the dormant list is `ld`. -/
theorem clear_spec (s : block_cache β) (la ld : List Nat) (ha : active_list s la)
    (hd : dormant_list s ld) (fuel : Nat) (hfa : la.length < fuel) (hfd : ld.length < fuel) :
    clear fuel s =
      some { s with
        active := none, dormant := none, released := s.released ++ la ++ ld } := by
  unfold clear
  rw [clear_list_spec la s s.active fuel ha hfa]
  simp only
  have h2 := clear_list_spec ld
    { s with active := none, released := s.released ++ la } s.dormant fuel hd hfd
  rw [h2]

end BlockCache

namespace BlockCache

/-! ## Where the code departs from the specification -/

theorem cache_ranges_well_formed : well_formed cache_ranges := by
  have h0 := construct_rep (blank_memory heap_ranges)
  have h1 := insert_active_rep h0 (e := 1) (by simp) (by simp)
  have h2 := insert_active_rep h1 (e := 2) (by simp) (by simp)
  have h3 := insert_active_rep h2 (e := 3) (by simp) (by simp)
  exact ⟨_, _, _, h3⟩

theorem cache_mixed_well_formed : well_formed cache_mixed := by
  have h0 := construct_rep (blank_memory heap_ranges)
  have h1 := insert_active_rep h0 (e := 1) (by simp) (by simp)
  have h2 := insert_dormant_rep h1 (e := 3) (by simp) (by simp)
  exact ⟨_, _, _, h2⟩

/-- C5 on the code: with the blocks `[0, 10)`, `[20, 30)`, `[40, 50)` active,
`clear_range(25, 45)` takes the bucket branch and scans the buckets 6 to 11 only.  The
block `[20, 30)` intersects the range but sits in bucket 5: it is neither invalidated nor
released and stays in its bucket chain and in the active list.  Likewise block 2 of
`cache_abc`, which lies wholly inside `[12, 131089)`, survives `clear_range(12, 131089)`,
while the active-list branch (`clear_range(16, 131084)`) does destroy it. -/
theorem clear_range_misses_overlap :
    well_formed cache_ranges ∧ active_list cache_ranges [3, 2, 1] ∧
    hits_range cache_ranges 25 45 2 = true ∧
    (cacheline 25 = 6 ∧ cacheline (uintptr_pred 32 45) = 11 ∧ cacheline 20 = 5) ∧
    (∃ s', clear_range 32 4 cache_ranges 25 45 = some s' ∧
      s'.released = [3] ∧ s'.invalidated = [3] ∧ active_list s' [2, 1] ∧
      bucket_chain s' (cacheline 20) [2]) ∧
    (hits_range cache_abc 12 131089 2 = true ∧
      ∃ s', clear_range 32 4 cache_abc 12 131089 = some s' ∧
        s'.released = [] ∧ active_list s' [3, 2, 1]) ∧
    (∃ s', clear_range 32 4 cache_abc 16 131084 = some s' ∧
      s'.released = [2] ∧ active_list s' [3, 1]) :=
  ⟨cache_ranges_well_formed, ⟨rfl, rfl, rfl, rfl⟩, rfl, ⟨rfl, rfl, rfl⟩,
    ⟨_, rfl, rfl, rfl, ⟨rfl, rfl, rfl⟩, ⟨rfl, rfl⟩⟩,
    ⟨rfl, _, rfl, rfl, ⟨rfl, rfl, rfl, rfl⟩⟩,
    ⟨_, rfl, rfl, ⟨rfl, rfl, rfl⟩⟩⟩

/-- C6 on the code: with block `[0, 10)` active and block `[40, 50)` dormant,
`clear_range(25, 45)` takes the bucket branch, meets the dormant block in bucket 10 and
destroys it: it is invalidated, unlinked from its bucket chain and from the dormant list,
and released.  The active-list branch (`clear_range(40, 44)`) leaves the same block
alone. -/
theorem clear_range_drops_dormant :
    well_formed cache_mixed ∧ active_list cache_mixed [1] ∧ dormant_list cache_mixed [3] ∧
    bucket_chain cache_mixed (cacheline 40) [3] ∧
    (∃ s', clear_range 32 4 cache_mixed 25 45 = some s' ∧
      s'.released = [3] ∧ s'.invalidated = [3] ∧ dormant_list s' [] ∧
      bucket_chain s' (cacheline 40) [] ∧ active_list s' [1]) ∧
    (hits_range cache_mixed 40 44 3 = true ∧
      ∃ s', clear_range 32 4 cache_mixed 40 44 = some s' ∧
        s'.released = [] ∧ dormant_list s' [3] ∧ bucket_chain s' (cacheline 40) [3]) :=
  ⟨cache_mixed_well_formed, ⟨rfl, rfl⟩, ⟨rfl, rfl⟩, ⟨rfl, rfl⟩,
    ⟨_, rfl, rfl, rfl, rfl, rfl, ⟨rfl, rfl⟩⟩,
    ⟨rfl, _, rfl, rfl, ⟨rfl, rfl⟩, ⟨rfl, rfl⟩⟩⟩

/-- C9 on the code: `clear()` releases the entries of both pools without unlinking them
from their bucket chains.  After `clear()` on `cache_abc` the head of bucket
`cacheline(8)` is still block 3, and the chain from it still runs through the blocks 2
and 1, all three released. -/
theorem clear_leaves_dangling :
    well_formed cache_abc ∧
    ∃ s', clear 4 cache_abc = some s' ∧ s'.released = [3, 2, 1] ∧
      s'.active = none ∧ s'.dormant = none ∧
      s'.cache_tags (cacheline 8) = some 3 ∧ bucket_chain s' (cacheline 8) [3, 2, 1] :=
  ⟨cache_abc_well_formed, _, rfl, rfl, rfl, rfl, rfl, ⟨rfl, rfl, rfl, rfl⟩⟩

end BlockCache

namespace BlockCache

variable {β : Type}

/-! ## Consistently linked caches -/

/-- Two consistently linked lists with different head slots share no entry. -/
theorem Linked.disjoint {nx : Nat → Option Nat} {pv : Nat → Option Slot} {mk : Nat → Slot}
    (hmk : Function.Injective mk) {sl1 sl2 : Slot} {h1 h2 : Option Nat} {l1 l2 : List Nat}
    (hne : sl1 ≠ sl2) (hs1 : ∀ a, mk a ≠ sl1) (hs2 : ∀ a, mk a ≠ sl2)
    (hl1 : Linked nx pv mk sl1 h1 l1) (hl2 : Linked nx pv mk sl2 h2 l2) :
    ∀ e ∈ l1, e ∉ l2 := by
  have key : ∀ n (pre : List Nat) (e : Nat) (rest : List Nat), pre.length = n →
      l1 = pre ++ e :: rest → e ∉ l2 := by
    intro n
    induction n using Nat.strong_induction_on with
    | _ n ih =>
      intro pre e rest hn hl he2
      have hl1' : Linked nx pv mk sl1 h1 (pre ++ e :: rest) := hl ▸ hl1
      rcases Linked.pv_split pre hl1' with p1 | ⟨p', hp', p1⟩
      · rcases Linked.pv_mem hl2 he2 with p2 | ⟨p, _, _, p2⟩
        · rw [p1] at p2; exact hne (Option.some.inj p2)
        · rw [p1] at p2; exact hs1 p (Option.some.inj p2).symm
      · rcases Linked.pv_mem hl2 he2 with p2 | ⟨p, hp, _, p2⟩
        · rw [p1] at p2; exact hs2 p' (Option.some.inj p2)
        · rw [p1] at p2
          have hpp : p' = p := hmk (Option.some.inj p2)
          subst hpp
          obtain ⟨pre1, pre2, rfl⟩ := List.append_of_mem hp'
          refine ih pre1.length ?_ pre1 p' (pre2 ++ e :: rest) rfl ?_ hp
          · rw [← hn]; simp
          · rw [hl]; simp
  intro e he
  obtain ⟨pre, rest, rfl⟩ := List.append_of_mem he
  exact key pre.length pre e rest rfl rfl

theorem Links.buckets_apart {s : block_cache β} {ch : Nat → List Nat} {la ld : List Nat}
    (hk : Links s ch la ld) :
    ∀ i j, i < HASH_SIZE → j < HASH_SIZE → ∀ e, e ∈ ch i → e ∈ ch j → i = j := by
  intro i j hi hj e hei hej
  by_contra hij
  exact Linked.disjoint next_same_cl_injective (fun hx => hij (by cases hx; rfl))
    (fun a hx => by cases hx) (fun a hx => by cases hx) (hk.buckets i hi) (hk.buckets j hj)
    e hei hej

theorem Links.pools_apart {s : block_cache β} {ch : Nat → List Nat} {la ld : List Nat}
    (hk : Links s ch la ld) : ∀ e ∈ la, e ∉ ld :=
  Linked.disjoint next_injective (fun hx => by cases hx) (fun a hx => by cases hx)
    (fun a hx => by cases hx) hk.act hk.dor

theorem Rep.links [block_info β] {s : block_cache β} {ch : Nat → List Nat} {la ld : List Nat}
    (hr : Rep s ch la ld) : Links s ch la ld :=
  ⟨hr.buckets, hr.act, hr.dor⟩

theorem well_formed.links_ok [block_info β] {s : block_cache β} (hwf : well_formed s) :
    links_ok s := by
  obtain ⟨ch, la, ld, hr⟩ := hwf
  exact ⟨ch, la, ld, hr.links⟩

theorem Links.in_bucket_iff {s : block_cache β} {ch : Nat → List Nat} {la ld : List Nat}
    (hk : Links s ch la ld) (e : Nat) : in_bucket s e ↔ ∃ i, i < HASH_SIZE ∧ e ∈ ch i := by
  constructor
  · rintro ⟨i, hi, l, hl, he⟩
    have : l = ch i := IsChain.functional hl (hk.buckets i hi).isChain
    exact ⟨i, hi, this ▸ he⟩
  · rintro ⟨i, hi, he⟩
    exact ⟨i, hi, ch i, (hk.buckets i hi).isChain, he⟩

theorem Links.in_pool_iff {s : block_cache β} {ch : Nat → List Nat} {la ld : List Nat}
    (hk : Links s ch la ld) (e : Nat) : in_pool s e ↔ e ∈ la ∨ e ∈ ld := by
  constructor
  · rintro (⟨l, hl, he⟩ | ⟨l, hl, he⟩)
    · have : l = la := IsChain.functional hl hk.act.isChain
      exact Or.inl (this ▸ he)
    · have : l = ld := IsChain.functional hl hk.dor.isChain
      exact Or.inr (this ▸ he)
  · rintro (he | he)
    · exact Or.inl ⟨la, hk.act.isChain, he⟩
    · exact Or.inr ⟨ld, hk.dor.isChain, he⟩

end BlockCache

namespace BlockCache

variable {β : Type}

theorem links_construct (m : block_cache β) :
    Links (block_cache.construct m) (fun _ => []) [] [] :=
  ⟨fun _ _ => rfl, rfl, rfl⟩

theorem links_with_stats {s : block_cache β} {ch : Nat → List Nat} {la ld : List Nat}
    (hk : Links s ch la ld) (t : stats_t) : Links { s with stats := t } ch la ld :=
  ⟨hk.buckets, hk.act, hk.dor⟩

theorem links_add_to_cl_list [block_info β] {s : block_cache β} {ch : Nat → List Nat}
    {la ld : List Nat} (hk : Links s ch la ld) {e : Nat} (he : ∀ i, i < HASH_SIZE → e ∉ ch i) :
    Links (add_to_cl_list s e)
      (Function.update ch (cacheline (block_info.pc (s.info e)))
        (e :: ch (cacheline (block_info.pc (s.info e))))) la ld := by
  obtain ⟨_, _, _, f4, f5, f6, f7, _⟩ := add_to_cl_list_fields s e
  refine ⟨add_to_cl_list_buckets hk.buckets hk.buckets_apart he, ?_, ?_⟩
  · unfold active_linked; rw [f4, f5, f6]; exact hk.act
  · unfold dormant_linked; rw [f4, f5, f7]; exact hk.dor

theorem links_remove_from_cl_list {s : block_cache β} {ch : Nat → List Nat}
    {la ld : List Nat} (hk : Links s ch la ld) {e i0 : Nat} (hi0 : i0 < HASH_SIZE)
    (he : e ∈ ch i0) :
    Links (remove_from_cl_list s e) (fun i => (ch i).erase e) la ld := by
  have hl0 := hk.buckets i0 hi0
  have hpv := Linked.pv_mem hl0 he
  obtain ⟨g1, _⟩ := remove_from_cl_list_rest s e
  have f1 : (remove_from_cl_list s e).next = s.next := by
    funext a
    rw [remove_from_cl_list_next]
    rcases hpv with h1 | ⟨p, _, _, h1⟩ <;> rw [h1] <;> simp
  have f3 : (remove_from_cl_list s e).active = s.active := by
    rw [remove_from_cl_list_active]
    rcases hpv with h1 | ⟨p, _, _, h1⟩ <;> rw [h1] <;> simp
  have f4 : (remove_from_cl_list s e).dormant = s.dormant := by
    rw [remove_from_cl_list_dormant]
    rcases hpv with h1 | ⟨p, _, _, h1⟩ <;> rw [h1] <;> simp
  refine ⟨remove_from_cl_list_buckets hk.buckets hk.buckets_apart hi0 he, ?_, ?_⟩
  · unfold active_linked; rw [f1, g1, f3]; exact hk.act
  · unfold dormant_linked; rw [f1, g1, f4]; exact hk.dor

theorem links_add_to_active_list {s : block_cache β} {ch : Nat → List Nat}
    {la ld : List Nat} (hk : Links s ch la ld) {e : Nat} (hea : e ∉ la) (hed : e ∉ ld) :
    Links (add_to_active_list s e) ch (e :: la) ld := by
  obtain ⟨_, _, _, _, g5, g6, g7, _⟩ := add_to_active_list_fields s e
  obtain ⟨ha2, hd2⟩ := add_to_active_list_pools hk.act hk.dor hk.pools_apart hea hed
  refine ⟨?_, ha2, hd2⟩
  intro i hi
  unfold bucket_linked
  rw [g5, g6, g7]
  exact hk.buckets i hi

theorem links_add_to_dormant_list {s : block_cache β} {ch : Nat → List Nat}
    {la ld : List Nat} (hk : Links s ch la ld) {e : Nat} (hea : e ∉ la) (hed : e ∉ ld) :
    Links (add_to_dormant_list s e) ch la (e :: ld) := by
  obtain ⟨_, _, _, _, g5, g6, g7, _⟩ := add_to_dormant_list_fields s e
  obtain ⟨ha2, hd2⟩ := add_to_dormant_list_pools hk.act hk.dor hk.pools_apart hea hed
  refine ⟨?_, ha2, hd2⟩
  intro i hi
  unfold bucket_linked
  rw [g5, g6, g7]
  exact hk.buckets i hi

theorem links_remove_from_list {s : block_cache β} {ch : Nat → List Nat}
    {la ld : List Nat} (hk : Links s ch la ld) {e : Nat} (he : e ∈ la ∨ e ∈ ld) :
    Links (remove_from_list s e) ch (la.erase e) (ld.erase e) := by
  obtain ⟨ha2, hd2⟩ := remove_from_list_pools hk.act hk.dor hk.pools_apart he
  obtain ⟨k1, k2, k3⟩ := remove_from_list_frame hk.act hk.dor he
  refine ⟨?_, ha2, hd2⟩
  intro i hi
  unfold bucket_linked
  rw [k1, k2, k3]
  exact hk.buckets i hi

theorem links_remove_from_lists {s : block_cache β} {ch : Nat → List Nat}
    {la ld : List Nat} (hk : Links s ch la ld) {e i0 : Nat} (hi0 : i0 < HASH_SIZE)
    (he : e ∈ ch i0) (hp : e ∈ la ∨ e ∈ ld) :
    Links (remove_from_lists s e) (fun i => (ch i).erase e) (la.erase e) (ld.erase e) :=
  links_remove_from_list (links_remove_from_cl_list hk hi0 he) hp

theorem Links.nodup_chain {s : block_cache β} {ch : Nat → List Nat} {la ld : List Nat}
    (hk : Links s ch la ld) {i : Nat} (hi : i < HASH_SIZE) : (ch i).Nodup :=
  IsChain.nodup (hk.buckets i hi).isChain

/-- `raise_in_cl_list(e)` on an entry linked in bucket `i0`: it leaves that bucket and
becomes the head of the bucket its `pc` hashes to. -/
theorem links_raise_in_cl_list [block_info β] {s : block_cache β} {ch : Nat → List Nat}
    {la ld : List Nat} (hk : Links s ch la ld) {e i0 : Nat} (hi0 : i0 < HASH_SIZE)
    (he : e ∈ ch i0) :
    Links (raise_in_cl_list s e)
      (Function.update (fun i => (ch i).erase e) (cacheline (block_info.pc (s.info e)))
        (e :: (ch (cacheline (block_info.pc (s.info e)))).erase e)) la ld := by
  have h1 := links_remove_from_cl_list hk hi0 he
  obtain ⟨_, g2, _⟩ := remove_from_cl_list_rest s e
  have hne : ∀ i, i < HASH_SIZE → e ∉ (fun i => (ch i).erase e) i := fun i hi hx =>
    ((List.Nodup.mem_erase_iff (hk.nodup_chain hi)).1 hx).1 rfl
  have h2 := links_add_to_cl_list h1 hne
  rw [g2] at h2
  exact h2

end BlockCache

namespace BlockCache

variable {β : Type}

theorem scan_result_links [block_info β] {s : block_cache β} {ch : Nat → List Nat}
    {la ld : List Nat} (hk : Links s ch la ld) (pc : Nat) (l : List Nat)
    (hsub : ∀ e ∈ l, e ∈ ch (cacheline pc)) :
    ∃ ch', Links (scan_result s pc l).1 ch' la ld ∧
      (∀ i, i < HASH_SIZE → (ch' i).Perm (ch i)) ∧ (scan_result s pc l).1.info = s.info := by
  have hi := cacheline_lt pc
  unfold scan_result
  cases hf : l.find? (pc_is s pc) with
  | none => exact ⟨ch, links_with_stats hk _, fun i _ => List.Perm.refl _, rfl⟩
  | some e =>
    obtain ⟨hel, hpc⟩ := find?_pc_is hf
    have hem := hsub e hel
    have hk1 := links_raise_in_cl_list hk hi hem
    rw [hpc] at hk1
    obtain ⟨hinfo⟩ : (raise_in_cl_list s e).info = s.info ∧ True := by
      obtain ⟨_, g2, _⟩ := remove_from_cl_list_rest s e
      obtain ⟨_, _, _, _, _, _, _, k8, _⟩ := add_to_cl_list_fields (remove_from_cl_list s e) e
      exact ⟨by show (add_to_cl_list (remove_from_cl_list s e) e).info = s.info; rw [k8, g2],
        trivial⟩
    refine ⟨_, links_with_stats hk1 _, ?_, hinfo⟩
    intro i hi'
    by_cases hii : i = cacheline pc
    · subst hii
      rw [Function.update_same]
      exact (List.perm_cons_erase hem).symm
    · rw [Function.update_noteq hii]
      have : e ∉ ch i := fun hx => hii (hk.buckets_apart i _ hi' hi e hx hem)
      show ((ch i).erase e).Perm (ch i)
      rw [List.erase_of_not_mem this]

/-- What `find(pc)` leaves of a consistently linked cache: a consistently linked cache
whose buckets hold the same entries (bucket `cacheline(pc)` maybe in another order) and
whose pools and payloads are as before. -/
theorem find_result_links [block_info β] {s : block_cache β} {ch : Nat → List Nat}
    {la ld : List Nat} (hk : Links s ch la ld) (pc : Nat) :
    ∃ ch', Links (find_result s pc (ch (cacheline pc))).1 ch' la ld ∧
      (∀ i, i < HASH_SIZE → (ch' i).Perm (ch i)) ∧
      (find_result s pc (ch (cacheline pc))).1.info = s.info := by
  have hk0 : Links { s with stats := { s.stats with searches := incr32 s.stats.searches } }
      ch la ld := links_with_stats hk _
  cases hc : ch (cacheline pc) with
  | nil =>
    have := scan_result_links hk0 pc [] (by simp)
    simpa [find_result] using this
  | cons a l =>
    by_cases hp : block_info.pc (s.info a) = pc
    · simp only [find_result, hp, if_true]
      exact ⟨ch, links_with_stats hk0 _, fun i _ => List.Perm.refl _, trivial⟩
    · simp only [find_result, hp, if_false]
      exact scan_result_links hk0 pc l (fun e he => by rw [hc]; exact List.mem_cons_of_mem _ he)

end BlockCache

namespace BlockCache

variable {β : Type}

/-! ## The bucket chain operations -/

theorem slot_after_cons (mk : Nat → Slot) (sl : Slot) (a : Nat) (pre : List Nat) :
    slot_after mk sl (a :: pre) = slot_after mk (mk a) pre := by
  cases pre with
  | nil => rfl
  | cons b pre =>
    have hp : (b :: pre).getLast? = some ((b :: pre).getLast (by simp)) :=
      List.getLast?_eq_getLast _ _
    simp only [slot_after, List.getLast?_cons_cons, hp]

/-- The back-reference of the entry that follows `pre` designates `slot_after pre`. -/
theorem Linked.pv_at {nx : Nat → Option Nat} {pv : Nat → Option Slot} {mk : Nat → Slot}
    {q : Nat} {rest : List Nat} (pre : List Nat) :
    ∀ {sl : Slot} {h : Option Nat}, Linked nx pv mk sl h (pre ++ q :: rest) →
      pv q = some (slot_after mk sl pre) := by
  induction pre with
  | nil => intro sl h hl; exact hl.2.1
  | cons a pre ih =>
    intro sl h hl
    rw [slot_after_cons]
    exact ih hl.2.2

/-- The forward link of the entry at a position heads the rest of the chain. -/
theorem IsChain.next_at {nx : Nat → Option Nat} {q : Nat} {rest : List Nat} (pre : List Nat) :
    ∀ {h : Option Nat}, IsChain nx h (pre ++ q :: rest) → IsChain nx (nx q) rest := by
  induction pre with
  | nil => intro h hl; exact hl.2
  | cons a pre ih => intro h hl; exact ih hl.2

theorem IsChain.head_eq {nx : Nat → Option Nat} {h : Option Nat} {l : List Nat}
    (hl : IsChain nx h l) : h = l.head? := by
  cases l with
  | nil => exact hl
  | cons a l => exact hl.1

theorem remove_from_cl_list_pool_links {s : block_cache β} {l : List Nat} {i : Nat}
    (hl : bucket_linked s i l) {q : Nat} (hq : q ∈ l) :
    (remove_from_cl_list s q).next = s.next ∧ (remove_from_cl_list s q).prev_p = s.prev_p ∧
    (remove_from_cl_list s q).active = s.active ∧
    (remove_from_cl_list s q).dormant = s.dormant := by
  have hpv := Linked.pv_mem hl hq
  refine ⟨?_, (remove_from_cl_list_rest s q).1, ?_, ?_⟩
  · funext a
    rw [remove_from_cl_list_next]
    rcases hpv with h1 | ⟨p, _, _, h1⟩ <;> rw [h1] <;> simp
  · rw [remove_from_cl_list_active]
    rcases hpv with h1 | ⟨p, _, _, h1⟩ <;> rw [h1] <;> simp
  · rw [remove_from_cl_list_dormant]
    rcases hpv with h1 | ⟨p, _, _, h1⟩ <;> rw [h1] <;> simp

theorem not_in_bucket_iff {s : block_cache β} {ch : Nat → List Nat} {la ld : List Nat}
    (hk : Links s ch la ld) (e : Nat) : ¬ in_bucket s e ↔ ∀ i, i < HASH_SIZE → e ∉ ch i := by
  rw [hk.in_bucket_iff]
  constructor
  · intro h i hi he; exact h ⟨i, hi, he⟩
  · rintro h ⟨i, hi, he⟩; exact h i hi he

/-- C11: in a consistently linked cache (every well-formed cache is one) let `e` be linked
in no bucket chain, and let `l` be the chain of bucket `cacheline(e.pc)`.  After
`add_to_cl_list(e)` that chain is `e` followed by `l`; the back-reference of `e`
designates the head slot `cache_tags[cacheline(e.pc)]`; the previous head, if there was
one, has its back-reference designating `e->next_same_cl`; every other bucket keeps its
head and its chain; no pool link is written, so both pool lists are as before; and the
cache is again consistently linked. -/
theorem add_to_cl_list_pushes [block_info β] (s : block_cache β) (h : links_ok s) (e : Nat)
    (he : ¬ in_bucket s e) :
    ∃ l, bucket_chain s (cacheline (block_info.pc (s.info e))) l ∧
      bucket_chain (add_to_cl_list s e) (cacheline (block_info.pc (s.info e))) (e :: l) ∧
      (add_to_cl_list s e).prev_same_cl_p e =
        some (Slot.tag (cacheline (block_info.pc (s.info e)))) ∧
      (∀ b, s.cache_tags (cacheline (block_info.pc (s.info e))) = some b →
        (add_to_cl_list s e).prev_same_cl_p b = some (Slot.next_same_cl e)) ∧
      (∀ i l', i < HASH_SIZE → i ≠ cacheline (block_info.pc (s.info e)) →
        bucket_chain s i l' →
        (add_to_cl_list s e).cache_tags i = s.cache_tags i ∧
        bucket_chain (add_to_cl_list s e) i l') ∧
      ((add_to_cl_list s e).next = s.next ∧ (add_to_cl_list s e).prev_p = s.prev_p ∧
        (add_to_cl_list s e).active = s.active ∧ (add_to_cl_list s e).dormant = s.dormant) ∧
      (∀ l', active_list s l' → active_list (add_to_cl_list s e) l') ∧
      (∀ l', dormant_list s l' → dormant_list (add_to_cl_list s e) l') ∧
      links_ok (add_to_cl_list s e) := by
  obtain ⟨ch, la, ld, hk⟩ := h
  have hne := (not_in_bucket_iff hk e).1 he
  have hi0 := cacheline_lt (block_info.pc (s.info e))
  have hk' := links_add_to_cl_list hk hne
  obtain ⟨_, f2, f3, f4, f5, f6, f7, _⟩ := add_to_cl_list_fields s e
  have hb := hk'.buckets _ hi0
  rw [Function.update_same] at hb
  refine ⟨ch _, (hk.buckets _ hi0).isChain, hb.isChain, hb.2.1, ?_, ?_, ⟨f4, f5, f6, f7⟩,
    ?_, ?_, ⟨_, _, _, hk'⟩⟩
  · intro b hb'
    have hbm : b ∈ ch (cacheline (block_info.pc (s.info e))) :=
      Linked.head_mem (hk.buckets _ hi0) hb'
    have hbe : b ≠ e := fun hx => hne _ hi0 (hx ▸ hbm)
    rw [f2, Function.update_noteq hbe, hb']
    simp [set_back]
  · intro i l' hi hii hl'
    have hl : l' = ch i := IsChain.functional hl' (hk.buckets i hi).isChain
    have hbi := hk'.buckets i hi
    rw [Function.update_noteq hii] at hbi
    refine ⟨?_, hl ▸ hbi.isChain⟩
    rw [f3, Function.update_noteq hii]
  · intro l' hl'
    unfold active_list at hl' ⊢
    rw [f4, f6]; exact hl'
  · intro l' hl'
    unfold dormant_list at hl' ⊢
    rw [f4, f7]; exact hl'

/-- C12: in a consistently linked cache let `e` be linked in bucket `i`, behind the
entries `l1` and ahead of the entries `l2` (either may be empty).  After
`remove_from_cl_list(e)` the chain of bucket `i` is `l1` followed by `l2`; the successor
of `e`, if there is one, has its back-reference designating the slot that pointed at `e`
(the head slot, or the link field of the last entry of `l1`); every other bucket keeps its
chain; no pool link is written; the cache is again consistently linked.  The operation
reads the two link fields of `e` and nothing else: a pointer after the call is what it
was before, except the slot `e->prev_same_cl_p` designates, which holds
`e->next_same_cl`, and the back-reference of `e->next_same_cl`, which holds
`e->prev_same_cl_p`. -/
theorem remove_from_cl_list_unlinks (s : block_cache β) (h : links_ok s) (e i : Nat)
    (hi : i < HASH_SIZE) (l1 l2 : List Nat) (hl : bucket_chain s i (l1 ++ e :: l2)) :
    bucket_chain (remove_from_cl_list s e) i (l1 ++ l2) ∧
    s.prev_same_cl_p e = some (slot_after Slot.next_same_cl (Slot.tag i) l1) ∧
    s.next_same_cl e = l2.head? ∧
    (∀ b, s.next_same_cl e = some b →
      (remove_from_cl_list s e).prev_same_cl_p b =
        some (slot_after Slot.next_same_cl (Slot.tag i) l1)) ∧
    (∀ j l', j < HASH_SIZE → j ≠ i → bucket_chain s j l' →
      bucket_chain (remove_from_cl_list s e) j l') ∧
    ((remove_from_cl_list s e).next = s.next ∧ (remove_from_cl_list s e).prev_p = s.prev_p ∧
      (remove_from_cl_list s e).active = s.active ∧
      (remove_from_cl_list s e).dormant = s.dormant) ∧
    links_ok (remove_from_cl_list s e) ∧
    (∀ a, (remove_from_cl_list s e).next_same_cl a =
      if s.prev_same_cl_p e = some (Slot.next_same_cl a) then s.next_same_cl e
      else s.next_same_cl a) ∧
    (∀ a, (remove_from_cl_list s e).prev_same_cl_p a =
      if s.next_same_cl e = some a then s.prev_same_cl_p e else s.prev_same_cl_p a) ∧
    (∀ j, (remove_from_cl_list s e).cache_tags j =
      if s.prev_same_cl_p e = some (Slot.tag j) then s.next_same_cl e
      else s.cache_tags j) := by
  obtain ⟨ch, la, ld, hk⟩ := h
  have hch : l1 ++ e :: l2 = ch i := IsChain.functional hl (hk.buckets i hi).isChain
  have hem : e ∈ ch i := by rw [← hch]; simp
  have hlk : Linked s.next_same_cl s.prev_same_cl_p Slot.next_same_cl (Slot.tag i)
      (s.cache_tags i) (l1 ++ e :: l2) := hch ▸ hk.buckets i hi
  have hnd : (l1 ++ e :: l2).Nodup := IsChain.nodup hl
  have hel1 : e ∉ l1 := fun hx => (List.nodup_append.1 hnd).2.2 hx (List.mem_cons_self _ _)
  have hk' := links_remove_from_cl_list hk hi hem
  have hpv := Linked.pv_at l1 hlk
  have hq' : s.prev_same_cl_p e ≠ some (Slot.next_same_cl e) := by
    rcases Linked.pv_mem (hk.buckets i hi) hem with h1 | ⟨p, _, hpq, h1⟩
    · rw [h1]; simp
    · rw [h1]; intro hx; exact hpq (next_same_cl_injective (Option.some.inj hx))
  obtain ⟨f1, f2, f3, f4⟩ := remove_from_cl_list_pool_links (hk.buckets i hi) hem
  refine ⟨?_, hpv, IsChain.head_eq (IsChain.next_at l1 hl), ?_, ?_, ⟨f1, f2, f3, f4⟩,
    ⟨_, _, _, hk'⟩, fun a => remove_from_cl_list_next_same_cl s e a hq',
    fun a => remove_from_cl_list_prev_same_cl_p s e a hq',
    fun j => remove_from_cl_list_cache_tags s e j⟩
  · have := (hk'.buckets i hi).isChain
    have he : (ch i).erase e = l1 ++ l2 := by
      rw [← hch, List.erase_append_right _ hel1, List.erase_cons_head]
    rw [← he]
    exact this
  · intro b hb
    rw [remove_from_cl_list_prev_same_cl_p s e b hq', if_pos hb, hpv]
  · intro j l' hj hji hl'
    have hl'' : l' = ch j := IsChain.functional hl' (hk.buckets j hj).isChain
    have hej : e ∉ ch j := fun hx => hji (hk.buckets_apart j i hj hi e hx hem)
    have := (hk'.buckets j hj).isChain
    have he : (ch j).erase e = l' := by rw [hl'']; exact List.erase_of_not_mem hej
    rw [← he]
    exact this

end BlockCache

namespace BlockCache

variable {β : Type}

/-! ## More fuel changes no result -/

theorem find_scan_mono [block_info β] (pc : Nat) :
    ∀ (f : Nat) (s : block_cache β) (b : Option Nat) (x : block_cache β × Option Nat),
      find_scan pc f s b = some x → ∀ f', f ≤ f' → find_scan pc f' s b = some x := by
  intro f
  induction f with
  | zero => intro s b x h; simp [find_scan] at h
  | succ f ih =>
    intro s b x h f' hf
    obtain ⟨g, rfl⟩ : ∃ g, f' = g + 1 := ⟨f' - 1, by omega⟩
    cases b with
    | none => simpa [find_scan] using h
    | some b =>
      cases hn : s.next_same_cl b with
      | none =>
        simp only [find_scan, hn] at h ⊢
        exact ih s none x h g (by omega)
      | some n =>
        by_cases hp : block_info.pc (s.info n) = pc
        · simpa [find_scan, hn, hp] using h
        · simp only [find_scan, hn, hp, if_false] at h ⊢
          exact ih s (some n) x h g (by omega)

theorem find_mono [block_info β] {f f' : Nat} {s : block_cache β} {pc : Nat}
    {x : block_cache β × Option Nat} (h : find f s pc = some x) (hf : f ≤ f') :
    find f' s pc = some x := by
  unfold find at h ⊢
  simp only at h ⊢
  cases hc : s.cache_tags (cacheline pc) with
  | none =>
    rw [hc] at h
    exact find_scan_mono pc f _ _ x h f' hf
  | some b =>
    rw [hc] at h
    by_cases hp : block_info.pc (s.info b) = pc
    · simpa [hp] using h
    · simp only [hp, if_false] at h ⊢
      exact find_scan_mono pc f _ _ x h f' hf

/-- Whenever `find` returns on a consistently linked cache, what it leaves and returns
is `find_result`. -/
theorem find_some_eq [block_info β] {s : block_cache β} {ch : Nat → List Nat}
    {la ld : List Nat} (hk : Links s ch la ld) {fuel pc : Nat}
    {x : block_cache β × Option Nat} (h : find fuel s pc = some x) :
    x = find_result s pc (ch (cacheline pc)) := by
  have h1 := find_mono h (Nat.le_max_left fuel ((ch (cacheline pc)).length + 1))
  have h2 := find_eq s pc (ch (cacheline pc)) (hk.buckets _ (cacheline_lt pc)).isChain
    (max fuel ((ch (cacheline pc)).length + 1))
    (lt_of_lt_of_le (Nat.lt_succ_self _) (Nat.le_max_right _ _))
  rw [h1] at h2
  exact Option.some.inj h2

theorem clear_range_line_mono [block_info β] (start end_ : Nat) :
    ∀ (f : Nat) (s : block_cache β) (p : Option Nat) (x : block_cache β),
      clear_range_line start end_ f s p = some x →
      ∀ f', f ≤ f' → clear_range_line start end_ f' s p = some x := by
  intro f
  induction f with
  | zero => intro s p x h; simp [clear_range_line] at h
  | succ f ih =>
    intro s p x h f' hf
    obtain ⟨g, rfl⟩ : ∃ g, f' = g + 1 := ⟨f' - 1, by omega⟩
    cases p with
    | none => simpa [clear_range_line] using h
    | some q =>
      by_cases hh : block_info.intersect (s.info q) start end_ = true
      · simp only [clear_range_line, hh, if_true] at h ⊢
        exact ih _ _ x h g (by omega)
      · simp only [clear_range_line, hh, if_false] at h ⊢
        exact ih _ _ x h g (by omega)

theorem clear_range_pool_mono [block_info β] (start end_ : Nat) :
    ∀ (f : Nat) (s : block_cache β) (p : Option Nat) (x : block_cache β),
      clear_range_pool start end_ f s p = some x →
      ∀ f', f ≤ f' → clear_range_pool start end_ f' s p = some x := by
  intro f
  induction f with
  | zero => intro s p x h; simp [clear_range_pool] at h
  | succ f ih =>
    intro s p x h f' hf
    obtain ⟨g, rfl⟩ : ∃ g, f' = g + 1 := ⟨f' - 1, by omega⟩
    cases p with
    | none => simpa [clear_range_pool] using h
    | some q =>
      by_cases hh : block_info.intersect (s.info q) start end_ = true
      · simp only [clear_range_pool, hh, if_true] at h ⊢
        exact ih _ _ x h g (by omega)
      · simp only [clear_range_pool, hh, if_false] at h ⊢
        exact ih _ _ x h g (by omega)

theorem clear_range_lines_mono [block_info β] (start end_ : Nat) {f f' : Nat} (hf : f ≤ f')
    (cls : List Nat) :
    ∀ (s x : block_cache β), clear_range_lines start end_ f cls s = some x →
      clear_range_lines start end_ f' cls s = some x := by
  induction cls with
  | nil => intro s x h; simpa [clear_range_lines] using h
  | cons cl cls ih =>
    intro s x h
    simp only [clear_range_lines] at h ⊢
    cases h1 : clear_range_line start end_ f s (s.cache_tags cl) with
    | none => rw [h1] at h; cases h
    | some s1 =>
      rw [h1] at h
      rw [clear_range_line_mono start end_ f s _ s1 h1 f' hf]
      exact ih s1 x h

theorem clear_range_mono [block_info β] {W f f' : Nat} {s x : block_cache β}
    {start end_ : Nat} (h : clear_range W f s start end_ = some x) (hf : f ≤ f') :
    clear_range W f' s start end_ = some x := by
  unfold clear_range at h ⊢
  cases ha : s.active with
  | none => rw [ha] at h; exact h
  | some a =>
    rw [ha] at h
    simp only at h ⊢
    by_cases hc : cacheline start < cacheline (uintptr_pred W end_)
    · rw [if_pos hc] at h ⊢
      exact clear_range_lines_mono start end_ hf _ s x h
    · rw [if_neg hc] at h ⊢
      exact clear_range_pool_mono start end_ f s _ x h f' hf

/-- Whenever `clear_range` returns on a well-formed cache, it has done what
`clear_range_spec` says. -/
theorem clear_range_some_rep [block_info β] {W : Nat} {s s' : block_cache β}
    {ch : Nat → List Nat} {la ld : List Nat} (hr : Rep s ch la ld) {fuel start end_ : Nat}
    (h : clear_range W fuel s start end_ = some s') :
    ∃ D, Rep s' (fun j => (ch j).diff D) (la.diff D) (ld.diff D) ∧
      s'.released = s.released ++ D ∧ s'.invalidated = s.invalidated ++ D ∧
      (∀ e, e ∉ D → s'.info e = s.info e) ∧ s'.stats = s.stats ∧
      (∀ e ∈ D, hits_range s start end_ e = true) := by
  obtain ⟨t, D, h1, h2⟩ := clear_range_spec W hr start end_
    (max fuel (la.length + ld.length + 1))
    (lt_of_lt_of_le (Nat.lt_succ_self _) (Nat.le_max_right _ _))
  have h3 := clear_range_mono h (Nat.le_max_left fuel (la.length + ld.length + 1))
  rw [h3] at h1
  have hst : s' = t := Option.some.inj h1
  subst hst
  exact ⟨D, h2⟩

end BlockCache

namespace BlockCache

variable {β : Type}

/-! ## Reachable caches -/

theorem raise_in_cl_list_info [block_info β] (s : block_cache β) (e : Nat) :
    (raise_in_cl_list s e).info = s.info := by
  obtain ⟨_, g2, _⟩ := remove_from_cl_list_rest s e
  obtain ⟨_, _, _, _, _, _, _, k8, _⟩ := add_to_cl_list_fields (remove_from_cl_list s e) e
  show (add_to_cl_list (remove_from_cl_list s e) e).info = s.info
  rw [k8, g2]

/-- A consistently linked cache whose entries are placed and resident in both roles is
well-formed. -/
theorem rep_of_links [block_info β] {s : block_cache β} {ch : Nat → List Nat}
    {la ld : List Nat} (hk : Links s ch la ld)
    (hp : ∀ i, i < HASH_SIZE → ∀ e ∈ ch i, cacheline (block_info.pc (s.info e)) = i)
    (hb : resident_in_both s) : Rep s ch la ld := by
  refine ⟨hk.buckets, hp, hk.act, hk.dor, hk.pools_apart, ?_⟩
  intro e
  rw [← hk.in_pool_iff, ← hb e, hk.in_bucket_iff]
  constructor
  · rintro ⟨i, hi, he⟩
    rw [hp i hi e he]; exact he
  · intro he
    exact ⟨_, cacheline_lt _, he⟩

/-- Every reachable cache, `clear_range` being called only when the entries of the
bucket chains are those of the pool lists, is consistently linked and has its entries
placed. -/
theorem reachable_placed [block_info β] {W : Nat} {t : block_cache β}
    (h : Reachable resident_in_both W t) :
    ∃ ch la ld, Links t ch la ld ∧
      ∀ i, i < HASH_SIZE → ∀ e ∈ ch i, cacheline (block_info.pc (t.info e)) = i := by
  induction h with
  | created m => exact ⟨_, _, _, links_construct m, fun i _ e he => by cases he⟩
  | @linked_cl s e _ hne ih =>
    obtain ⟨ch, la, ld, hk, hp⟩ := ih
    have hne' := (not_in_bucket_iff hk e).1 hne
    obtain ⟨_, _, _, _, _, _, _, k8, _⟩ := add_to_cl_list_fields s e
    refine ⟨_, _, _, links_add_to_cl_list hk hne', ?_⟩
    intro i hi x hx
    rw [k8]
    by_cases hii : i = cacheline (block_info.pc (s.info e))
    · subst hii
      rw [Function.update_same] at hx
      rcases List.mem_cons.1 hx with rfl | hx
      · rfl
      · exact hp _ hi x hx
    · rw [Function.update_noteq hii] at hx
      exact hp i hi x hx
  | @unlinked_cl s e _ hin ih =>
    obtain ⟨ch, la, ld, hk, hp⟩ := ih
    obtain ⟨i0, hi0, he⟩ := (hk.in_bucket_iff e).1 hin
    refine ⟨_, _, _, links_remove_from_cl_list hk hi0 he, ?_⟩
    intro i hi x hx
    rw [(remove_from_cl_list_rest s e).2.1]
    exact hp i hi x (List.mem_of_mem_erase hx)
  | @raised s e _ hin ih =>
    obtain ⟨ch, la, ld, hk, hp⟩ := ih
    obtain ⟨i0, hi0, he⟩ := (hk.in_bucket_iff e).1 hin
    refine ⟨_, _, _, links_raise_in_cl_list hk hi0 he, ?_⟩
    intro i hi x hx
    rw [raise_in_cl_list_info]
    by_cases hii : i = cacheline (block_info.pc (s.info e))
    · subst hii
      rw [Function.update_same] at hx
      rcases List.mem_cons.1 hx with rfl | hx
      · rfl
      · exact hp _ hi x (List.mem_of_mem_erase hx)
    · rw [Function.update_noteq hii] at hx
      exact hp i hi x (List.mem_of_mem_erase hx)
  | @looked_up s s' fuel pc r _ hf ih =>
    obtain ⟨ch, la, ld, hk, hp⟩ := ih
    have hx := find_some_eq hk hf
    obtain ⟨ch', hk', hperm, hinfo⟩ := find_result_links hk pc
    have hs' : s' = (find_result s pc (ch (cacheline pc))).1 := by rw [← hx]
    rw [hs']
    refine ⟨ch', la, ld, hk', ?_⟩
    intro i hi x hx'
    rw [hinfo]
    exact hp i hi x ((hperm i hi).mem_iff.1 hx')
  | @linked_active s e _ hne ih =>
    obtain ⟨ch, la, ld, hk, hp⟩ := ih
    have hne' : ¬ (e ∈ la ∨ e ∈ ld) := fun hx => hne ((hk.in_pool_iff e).2 hx)
    obtain ⟨_, _, _, _, _, _, _, k8, _⟩ := add_to_active_list_fields s e
    refine ⟨_, _, _, links_add_to_active_list hk (fun hx => hne' (Or.inl hx))
      (fun hx => hne' (Or.inr hx)), ?_⟩
    rw [k8]; exact hp
  | @linked_dormant s e _ hne ih =>
    obtain ⟨ch, la, ld, hk, hp⟩ := ih
    have hne' : ¬ (e ∈ la ∨ e ∈ ld) := fun hx => hne ((hk.in_pool_iff e).2 hx)
    obtain ⟨_, _, _, _, _, _, _, k8, _⟩ := add_to_dormant_list_fields s e
    refine ⟨_, _, _, links_add_to_dormant_list hk (fun hx => hne' (Or.inl hx))
      (fun hx => hne' (Or.inr hx)), ?_⟩
    rw [k8]; exact hp
  | @unlinked_pool s e _ hin ih =>
    obtain ⟨ch, la, ld, hk, hp⟩ := ih
    have he := (hk.in_pool_iff e).1 hin
    refine ⟨_, _, _, links_remove_from_list hk he, ?_⟩
    rw [(remove_from_list_rest s e).2.1]; exact hp
  | @range_cleared s s' fuel start end_ _ hg hc ih =>
    obtain ⟨ch, la, ld, hk, hp⟩ := ih
    obtain ⟨D, hr', _⟩ := clear_range_some_rep (rep_of_links hk hp hg) hc
    exact ⟨_, _, _, hr'.links, hr'.placed⟩
  | @payload_written s e b _ hb ih =>
    obtain ⟨ch, la, ld, hk, hp⟩ := ih
    refine ⟨ch, la, ld, ⟨hk.buckets, hk.act, hk.dor⟩, ?_⟩
    intro i hi x hx
    show cacheline (block_info.pc (Function.update s.info e b x)) = i
    by_cases hxe : x = e
    · subst hxe
      rw [Function.update_same, hb ((hk.in_bucket_iff x).2 ⟨i, hi, hx⟩)]
      exact hp i hi x hx
    · rw [Function.update_noteq hxe]
      exact hp i hi x hx

theorem placement_of_links [block_info β] {t : block_cache β} {ch : Nat → List Nat}
    {la ld : List Nat} (hk : Links t ch la ld)
    (hp : ∀ i, i < HASH_SIZE → ∀ e ∈ ch i, cacheline (block_info.pc (t.info e)) = i) :
    placement_ok t := by
  constructor
  · intro i l hi hl e he
    have : l = ch i := IsChain.functional hl (hk.buckets i hi).isChain
    exact hp i hi e (this ▸ he)
  · intro i j l l' hi hj hl hl' e he he'
    have h1 : l = ch i := IsChain.functional hl (hk.buckets i hi).isChain
    have h2 : l' = ch j := IsChain.functional hl' (hk.buckets j hj).isChain
    exact hk.buckets_apart i j hi hj e (h1 ▸ he) (h2 ▸ he')

end BlockCache

namespace BlockCache

variable {β : Type}

/-! ## Which entries are linked after each operation -/

theorem construct_members (m : block_cache β) :
    links_ok (block_cache.construct m) ∧
    (∀ x, ¬ in_bucket (block_cache.construct m) x) ∧
    (∀ x, ¬ in_pool (block_cache.construct m) x) := by
  have hk := links_construct m
  refine ⟨⟨_, _, _, hk⟩, ?_, ?_⟩
  · intro x; rw [hk.in_bucket_iff]; simp
  · intro x; rw [hk.in_pool_iff]; simp

theorem add_to_cl_list_members [block_info β] {s : block_cache β} (h : links_ok s) {e : Nat}
    (he : ¬ in_bucket s e) :
    links_ok (add_to_cl_list s e) ∧
    (∀ x, in_bucket (add_to_cl_list s e) x ↔ x = e ∨ in_bucket s x) ∧
    (∀ x, in_pool (add_to_cl_list s e) x ↔ in_pool s x) := by
  obtain ⟨ch, la, ld, hk⟩ := h
  have hk' := links_add_to_cl_list hk ((not_in_bucket_iff hk e).1 he)
  refine ⟨⟨_, _, _, hk'⟩, ?_, ?_⟩
  · intro x
    rw [hk'.in_bucket_iff, hk.in_bucket_iff]
    constructor
    · rintro ⟨i, hi, hx⟩
      by_cases hii : i = cacheline (block_info.pc (s.info e))
      · subst hii
        rw [Function.update_same] at hx
        rcases List.mem_cons.1 hx with hx | hx
        · exact Or.inl hx
        · exact Or.inr ⟨_, hi, hx⟩
      · rw [Function.update_noteq hii] at hx
        exact Or.inr ⟨i, hi, hx⟩
    · rintro (rfl | ⟨i, hi, hx⟩)
      · exact ⟨_, cacheline_lt _, by rw [Function.update_same]; simp⟩
      · refine ⟨i, hi, ?_⟩
        by_cases hii : i = cacheline (block_info.pc (s.info e))
        · subst hii
          rw [Function.update_same]
          exact List.mem_cons_of_mem _ hx
        · rw [Function.update_noteq hii]; exact hx
  · intro x
    rw [hk'.in_pool_iff, hk.in_pool_iff]

theorem remove_from_cl_list_members {s : block_cache β} (h : links_ok s) {e : Nat}
    (he : in_bucket s e) :
    links_ok (remove_from_cl_list s e) ∧
    (∀ x, in_bucket (remove_from_cl_list s e) x ↔ x ≠ e ∧ in_bucket s x) ∧
    (∀ x, in_pool (remove_from_cl_list s e) x ↔ in_pool s x) := by
  obtain ⟨ch, la, ld, hk⟩ := h
  obtain ⟨i0, hi0, hem⟩ := (hk.in_bucket_iff e).1 he
  have hk' := links_remove_from_cl_list hk hi0 hem
  refine ⟨⟨_, _, _, hk'⟩, ?_, ?_⟩
  · intro x
    rw [hk'.in_bucket_iff, hk.in_bucket_iff]
    constructor
    · rintro ⟨i, hi, hx⟩
      have := (List.Nodup.mem_erase_iff (hk.nodup_chain hi)).1 hx
      exact ⟨this.1, i, hi, this.2⟩
    · rintro ⟨hne, i, hi, hx⟩
      exact ⟨i, hi, (List.Nodup.mem_erase_iff (hk.nodup_chain hi)).2 ⟨hne, hx⟩⟩
  · intro x
    rw [hk'.in_pool_iff, hk.in_pool_iff]

theorem add_to_active_list_members {s : block_cache β} (h : links_ok s) {e : Nat}
    (he : ¬ in_pool s e) :
    links_ok (add_to_active_list s e) ∧
    (∀ x, in_bucket (add_to_active_list s e) x ↔ in_bucket s x) ∧
    (∀ x, in_pool (add_to_active_list s e) x ↔ x = e ∨ in_pool s x) := by
  obtain ⟨ch, la, ld, hk⟩ := h
  have hne : ¬ (e ∈ la ∨ e ∈ ld) := fun hx => he ((hk.in_pool_iff e).2 hx)
  have hk' := links_add_to_active_list hk (fun hx => hne (Or.inl hx))
    (fun hx => hne (Or.inr hx))
  refine ⟨⟨_, _, _, hk'⟩, ?_, ?_⟩
  · intro x
    rw [hk'.in_bucket_iff, hk.in_bucket_iff]
  · intro x
    rw [hk'.in_pool_iff, hk.in_pool_iff, List.mem_cons, or_assoc]

theorem add_to_dormant_list_members {s : block_cache β} (h : links_ok s) {e : Nat}
    (he : ¬ in_pool s e) :
    links_ok (add_to_dormant_list s e) ∧
    (∀ x, in_bucket (add_to_dormant_list s e) x ↔ in_bucket s x) ∧
    (∀ x, in_pool (add_to_dormant_list s e) x ↔ x = e ∨ in_pool s x) := by
  obtain ⟨ch, la, ld, hk⟩ := h
  have hne : ¬ (e ∈ la ∨ e ∈ ld) := fun hx => he ((hk.in_pool_iff e).2 hx)
  have hk' := links_add_to_dormant_list hk (fun hx => hne (Or.inl hx))
    (fun hx => hne (Or.inr hx))
  refine ⟨⟨_, _, _, hk'⟩, ?_, ?_⟩
  · intro x
    rw [hk'.in_bucket_iff, hk.in_bucket_iff]
  · intro x
    rw [hk'.in_pool_iff, hk.in_pool_iff, List.mem_cons]
    tauto

theorem remove_from_list_members {s : block_cache β} (h : links_ok s) {e : Nat}
    (he : in_pool s e) :
    links_ok (remove_from_list s e) ∧
    (∀ x, in_bucket (remove_from_list s e) x ↔ in_bucket s x) ∧
    (∀ x, in_pool (remove_from_list s e) x ↔ x ≠ e ∧ in_pool s x) := by
  obtain ⟨ch, la, ld, hk⟩ := h
  have hem := (hk.in_pool_iff e).1 he
  have hk' := links_remove_from_list hk hem
  refine ⟨⟨_, _, _, hk'⟩, ?_, ?_⟩
  · intro x
    rw [hk'.in_bucket_iff, hk.in_bucket_iff]
  · intro x
    rw [hk'.in_pool_iff, hk.in_pool_iff,
      List.Nodup.mem_erase_iff (IsChain.nodup hk.act.isChain),
      List.Nodup.mem_erase_iff (IsChain.nodup hk.dor.isChain)]
    tauto

end BlockCache

namespace BlockCache

variable {β : Type}

/-! ## Bucket placement -/

theorem cache_moved_reachable (guard : block_cache range_block → Prop) :
    Reachable guard 32 cache_moved := by
  have c0 := construct_members (blank_memory heap_abc)
  have r0 : Reachable guard 32 (block_cache.construct (blank_memory heap_abc)) :=
    Reachable.created _
  have m1 := add_to_cl_list_members c0.1 (c0.2.1 2)
  have r1 := Reachable.linked_cl 2 r0 (c0.2.1 2)
  have hn1 : ¬ in_bucket (add_to_cl_list (block_cache.construct (blank_memory heap_abc)) 2) 1 := by
    intro h
    rcases (m1.2.1 1).1 h with h | h
    · exact absurd h (by decide)
    · exact c0.2.1 1 h
  have m2 := add_to_cl_list_members m1.1 hn1
  have r2 := Reachable.linked_cl 1 r1 hn1
  have hnp : ¬ in_pool (add_to_cl_list (add_to_cl_list
      (block_cache.construct (blank_memory heap_abc)) 2) 1) 1 := by
    intro h
    exact c0.2.2 1 ((m1.2.2 1).1 ((m2.2.2 1).1 h))
  have m3 := add_to_active_list_members m2.1 hnp
  have r3 : Reachable guard 32 cache_pair := Reachable.linked_active 1 r2 hnp
  have hin1 : in_bucket cache_pair 1 := (m3.2.1 1).2 ((m2.2.1 1).2 (Or.inl rfl))
  have m4 := remove_from_cl_list_members m3.1 hin1
  have r4 := Reachable.unlinked_cl 1 r3 hin1
  have hin2 : in_bucket (remove_from_cl_list cache_pair 1) 2 :=
    (m4.2.1 2).2 ⟨by decide, (m3.2.1 2).2 ((m2.2.1 2).2 (Or.inr ((m1.2.1 2).2 (Or.inl rfl))))⟩
  have m5 := remove_from_cl_list_members m4.1 hin2
  have r5 : Reachable guard 32 cache_unlinked := Reachable.unlinked_cl 2 r4 hin2
  have hn5 : ¬ in_bucket cache_unlinked 2 := fun h => ((m5.2.1 2).1 h).1 rfl
  have r6 := Reachable.payload_written 2 (⟨28, 32, true⟩ : range_block) r5
    (fun h => absurd h hn5)
  exact Reachable.linked_cl 2 r6 hn5

/-- C16, as stated, fails.  `cache_moved` is reached from the constructor by list
operations, each used on an entry that is not yet, resp. is, linked, and by writing the
payload of block 2 while it is linked nowhere.  Block 1 is in the active list but in no
bucket chain, with its bucket links left as `remove_from_cl_list` leaves them.
`clear_range(8, 12)` destroys it, and its `remove_from_cl_list` stores block 2 in
`cache_tags[2]`: afterwards block 2, whose `pc` 28 hashes to bucket 7, is the head of
bucket 2 and of bucket 7. -/
theorem placement_counterexample :
    ∃ t : block_cache range_block, Reachable (fun _ => True) 32 t ∧
      bucket_chain t 2 [2] ∧ bucket_chain t 7 [2] ∧
      cacheline (block_info.pc (t.info 2)) = 7 ∧ ¬ placement_ok t := by
  have r := Reachable.range_cleared 2 8 12 (cache_moved_reachable (fun _ => True)) trivial
    (rfl : clear_range 32 2 cache_moved 8 12 = some (clear_range_drop cache_moved 1))
  refine ⟨_, r, ⟨rfl, rfl⟩, ⟨rfl, rfl⟩, rfl, ?_⟩
  intro hp
  have := hp.1 2 [2] (by decide) ⟨rfl, rfl⟩ 2 (by simp)
  exact absurd this (by decide)

/-- C16, amended.  In every state reachable from the constructed cache by
`add_to_cl_list`, `add_to_active_list`, `add_to_dormant_list` (on an entry not linked in
that role), `remove_from_cl_list`, `remove_from_list`, `raise_in_cl_list` (on an entry
linked in that role), `find`, writes to payloads that leave the `pc` of resident entries
alone, and `clear_range` called only when the entries linked in bucket chains are those
linked in pool lists: every entry of the chain of bucket `i` has `cacheline(pc) = i`, no
entry is in the chains of two buckets, and the cache is consistently linked. -/
theorem placement_invariant [block_info β] (W : Nat) (t : block_cache β)
    (h : Reachable resident_in_both W t) : placement_ok t ∧ links_ok t := by
  obtain ⟨ch, la, ld, hk, hp⟩ := reachable_placed h
  exact ⟨placement_of_links hk hp, ⟨ch, la, ld, hk⟩⟩

theorem placement_invariant_witness :
    Reachable resident_in_both 32 cache_moved ∧
    placement_ok cache_moved ∧ links_ok cache_moved :=
  ⟨cache_moved_reachable resident_in_both,
    placement_invariant 32 cache_moved (cache_moved_reachable resident_in_both)⟩

end BlockCache

namespace BlockCache

variable {β : Type}

/-! ## The pool list operations -/

theorem in_pool_lists {s : block_cache β} {la ld : List Nat} (ha : active_list s la)
    (hd : dormant_list s ld) (e : Nat) : in_pool s e ↔ e ∈ la ∨ e ∈ ld := by
  constructor
  · rintro (⟨l, hl, he⟩ | ⟨l, hl, he⟩)
    · exact Or.inl (IsChain.functional hl ha ▸ he)
    · exact Or.inr (IsChain.functional hl hd ▸ he)
  · rintro (he | he)
    · exact Or.inl ⟨la, ha, he⟩
    · exact Or.inr ⟨ld, hd, he⟩

theorem well_formed.resident [block_info β] {s : block_cache β} (hwf : well_formed s) :
    resident_in_both s := by
  obtain ⟨ch, la, ld, hr⟩ := hwf
  intro e
  rw [hr.links.in_bucket_iff, hr.links.in_pool_iff, hr.both e]
  constructor
  · rintro ⟨i, hi, he⟩
    rw [hr.placed i hi e he]; exact he
  · intro he
    exact ⟨_, cacheline_lt _, he⟩

/-- C13: in a consistently linked cache with active list `la` and dormant list `ld` the
two lists share no entry.  For an entry `e` in neither, `add_to_active_list(e)` makes the
active list `e` followed by `la` and leaves the dormant list as it is, and
`add_to_dormant_list(e)` makes the dormant list `e` followed by `ld` and leaves the
active list as it is.  For `e` in the active list `remove_from_list(e)` takes `e` out of
it, the others keeping their order, and leaves the dormant list as it is; for `e` in the
dormant list likewise with the roles exchanged.  None of the three writes a bucket head
or a bucket link, and each leaves the cache consistently linked.  In every cache
reachable from the constructor the two pools share no entry. -/
theorem pool_list_operations [block_info β] (s : block_cache β) (h : links_ok s) (e : Nat)
    (la ld : List Nat) (ha : active_list s la) (hd : dormant_list s ld) :
    (∀ x ∈ la, x ∉ ld) ∧
    (e ∉ la → e ∉ ld →
      (active_list (add_to_active_list s e) (e :: la) ∧
        dormant_list (add_to_active_list s e) ld ∧
        same_index s (add_to_active_list s e) ∧ links_ok (add_to_active_list s e)) ∧
      (active_list (add_to_dormant_list s e) la ∧
        dormant_list (add_to_dormant_list s e) (e :: ld) ∧
        same_index s (add_to_dormant_list s e) ∧ links_ok (add_to_dormant_list s e))) ∧
    (e ∈ la →
      active_list (remove_from_list s e) (la.erase e) ∧
      dormant_list (remove_from_list s e) ld ∧
      same_index s (remove_from_list s e) ∧ links_ok (remove_from_list s e)) ∧
    (e ∈ ld →
      active_list (remove_from_list s e) la ∧
      dormant_list (remove_from_list s e) (ld.erase e) ∧
      same_index s (remove_from_list s e) ∧ links_ok (remove_from_list s e)) ∧
    (∀ (W : Nat) (t : block_cache β), Reachable resident_in_both W t →
      ∀ la' ld', active_list t la' → dormant_list t ld' → ∀ x ∈ la', x ∉ ld') := by
  obtain ⟨ch, la0, ld0, hk⟩ := h
  have hla : la = la0 := IsChain.functional ha hk.act.isChain
  have hld : ld = ld0 := IsChain.functional hd hk.dor.isChain
  subst hla hld
  refine ⟨hk.pools_apart, ?_, ?_, ?_, ?_⟩
  · intro hea hed
    have k1 := links_add_to_active_list hk hea hed
    have k2 := links_add_to_dormant_list hk hea hed
    obtain ⟨_, _, _, _, g5, g6, g7, _⟩ := add_to_active_list_fields s e
    obtain ⟨_, _, _, _, d5, d6, d7, _⟩ := add_to_dormant_list_fields s e
    exact ⟨⟨k1.act.isChain, k1.dor.isChain, ⟨g5, g6, g7⟩, ⟨_, _, _, k1⟩⟩,
      ⟨k2.act.isChain, k2.dor.isChain, ⟨d5, d6, d7⟩, ⟨_, _, _, k2⟩⟩⟩
  · intro hea
    have k1 := links_remove_from_list hk (Or.inl hea)
    have hed : e ∉ ld := hk.pools_apart e hea
    have k3 := remove_from_list_frame hk.act hk.dor (Or.inl hea)
    refine ⟨k1.act.isChain, ?_, k3, ⟨_, _, _, k1⟩⟩
    have := k1.dor.isChain
    rw [List.erase_of_not_mem hed] at this
    exact this
  · intro hed
    have k1 := links_remove_from_list hk (Or.inr hed)
    have hea : e ∉ la := fun hx => hk.pools_apart e hx hed
    have k3 := remove_from_list_frame hk.act hk.dor (Or.inr hed)
    refine ⟨?_, k1.dor.isChain, k3, ⟨_, _, _, k1⟩⟩
    have := k1.act.isChain
    rw [List.erase_of_not_mem hea] at this
    exact this
  · intro W t ht la' ld' ha' hd'
    obtain ⟨ch', la1, ld1, hk', _⟩ := reachable_placed ht
    have h1 : la' = la1 := IsChain.functional ha' hk'.act.isChain
    have h2 : ld' = ld1 := IsChain.functional hd' hk'.dor.isChain
    subst h1 h2
    exact hk'.pools_apart

/-! ## Link consistency is an invariant -/

/-- C15: call a cache consistently linked (`links_ok`) when every bucket chain and both
pool lists reach `NULL` and every listed entry has its back-reference designating the
head slot if it is first and otherwise the link field of its predecessor; such lists
repeat no entry.  The constructor builds a consistently linked cache, whatever the memory
holds.  From a consistently linked cache `add_to_cl_list` (of an entry in no bucket
chain), `add_to_active_list` and `add_to_dormant_list` (of an entry in no pool list),
`remove_from_cl_list` and `raise_in_cl_list` (of an entry in a bucket chain),
`remove_from_list` (of an entry in a pool list), `remove_from_lists` (of an entry in
both) lead to a consistently linked cache, and `find` returns, for any fuel above a
bound, and leaves a consistently linked cache. -/
theorem link_consistency_invariant [block_info β] (s : block_cache β) (h : links_ok s)
    (e pc : Nat) :
    (∀ ch la ld, Links s ch la ld →
      (∀ i, i < HASH_SIZE → (ch i).Nodup) ∧ la.Nodup ∧ ld.Nodup) ∧
    (∀ m : block_cache β, links_ok (block_cache.construct m)) ∧
    (¬ in_bucket s e → links_ok (add_to_cl_list s e)) ∧
    (¬ in_pool s e → links_ok (add_to_active_list s e)) ∧
    (¬ in_pool s e → links_ok (add_to_dormant_list s e)) ∧
    (in_bucket s e → links_ok (remove_from_cl_list s e)) ∧
    (in_pool s e → links_ok (remove_from_list s e)) ∧
    (in_bucket s e → in_pool s e → links_ok (remove_from_lists s e)) ∧
    (in_bucket s e → links_ok (raise_in_cl_list s e)) ∧
    (∃ n, ∀ fuel, n ≤ fuel → ∃ s' r, find fuel s pc = some (s', r) ∧ links_ok s') := by
  refine ⟨?_, fun m => (construct_members m).1, fun he => (add_to_cl_list_members h he).1,
    fun he => (add_to_active_list_members h he).1,
    fun he => (add_to_dormant_list_members h he).1,
    fun he => (remove_from_cl_list_members h he).1,
    fun he => (remove_from_list_members h he).1, ?_, ?_, ?_⟩
  · intro ch la ld hk
    exact ⟨fun i hi => hk.nodup_chain hi, IsChain.nodup hk.act.isChain,
      IsChain.nodup hk.dor.isChain⟩
  · intro hb hp
    obtain ⟨ch, la, ld, hk⟩ := h
    obtain ⟨i0, hi0, hem⟩ := (hk.in_bucket_iff e).1 hb
    exact ⟨_, _, _, links_remove_from_lists hk hi0 hem ((hk.in_pool_iff e).1 hp)⟩
  · intro hb
    obtain ⟨ch, la, ld, hk⟩ := h
    obtain ⟨i0, hi0, hem⟩ := (hk.in_bucket_iff e).1 hb
    exact ⟨_, _, _, links_raise_in_cl_list hk hi0 hem⟩
  · obtain ⟨ch, la, ld, hk⟩ := h
    refine ⟨(ch (cacheline pc)).length + 1, ?_⟩
    intro fuel hf
    obtain ⟨ch', hk', _⟩ := find_result_links hk pc
    exact ⟨(find_result s pc (ch (cacheline pc))).1, (find_result s pc (ch (cacheline pc))).2,
      find_eq s pc _ (hk.buckets _ (cacheline_lt pc)).isChain fuel (by omega),
      ⟨_, _, _, hk'⟩⟩

end BlockCache

namespace BlockCache

/-! ## Instances of the list theorems on `cache_abc` -/

theorem cache_abc_lists :
    active_list cache_abc [3, 2, 1] ∧ dormant_list cache_abc [] ∧
    bucket_chain cache_abc 2 ([3] ++ 2 :: [1]) :=
  ⟨⟨rfl, rfl, rfl, rfl⟩, rfl, ⟨rfl, rfl, rfl, rfl⟩⟩

theorem cache_abc_fresh : ¬ in_bucket cache_abc 4 ∧ ¬ in_pool cache_abc 4 := by
  have hp : ¬ in_pool cache_abc 4 := by
    rw [in_pool_lists cache_abc_lists.1 cache_abc_lists.2.1]
    decide
  exact ⟨fun h => hp ((cache_abc_well_formed.resident 4).1 h), hp⟩

theorem cache_abc_member : in_bucket cache_abc 2 ∧ in_pool cache_abc 2 :=
  ⟨⟨2, by decide, _, cache_abc_lists.2.2, by simp⟩,
    Or.inl ⟨_, cache_abc_lists.1, by simp⟩⟩

theorem add_to_cl_list_pushes_witness :
    links_ok cache_abc ∧ ¬ in_bucket cache_abc 4 ∧
    ∃ l, bucket_chain cache_abc (cacheline (block_info.pc (cache_abc.info 4))) l ∧
      bucket_chain (add_to_cl_list cache_abc 4)
        (cacheline (block_info.pc (cache_abc.info 4))) (4 :: l) ∧
      (add_to_cl_list cache_abc 4).prev_same_cl_p 4 =
        some (Slot.tag (cacheline (block_info.pc (cache_abc.info 4)))) := by
  obtain ⟨l, h1, h2, h3, _⟩ :=
    add_to_cl_list_pushes cache_abc cache_abc_well_formed.links_ok 4 cache_abc_fresh.1
  exact ⟨cache_abc_well_formed.links_ok, cache_abc_fresh.1, l, h1, h2, h3⟩

theorem remove_from_cl_list_unlinks_witness :
    links_ok cache_abc ∧ bucket_chain cache_abc 2 ([3] ++ 2 :: [1]) ∧
    bucket_chain (remove_from_cl_list cache_abc 2) 2 ([3] ++ [1]) ∧
    cache_abc.prev_same_cl_p 2 = some (slot_after Slot.next_same_cl (Slot.tag 2) [3]) ∧
    links_ok (remove_from_cl_list cache_abc 2) := by
  obtain ⟨h1, h2, _, _, _, _, h7, _⟩ :=
    remove_from_cl_list_unlinks cache_abc cache_abc_well_formed.links_ok 2 2 (by decide)
      [3] [1] cache_abc_lists.2.2
  exact ⟨cache_abc_well_formed.links_ok, cache_abc_lists.2.2, h1, h2, h7⟩

theorem pool_list_operations_witness :
    links_ok cache_abc ∧ active_list cache_abc [3, 2, 1] ∧ dormant_list cache_abc [] ∧
    active_list (remove_from_list cache_abc 2) ([3, 2, 1].erase 2) ∧
    dormant_list (remove_from_list cache_abc 2) [] ∧
    same_index cache_abc (remove_from_list cache_abc 2) := by
  obtain ⟨_, _, h3, _⟩ :=
    pool_list_operations cache_abc cache_abc_well_formed.links_ok 2 [3, 2, 1] []
      cache_abc_lists.1 cache_abc_lists.2.1
  obtain ⟨k1, k2, k3, _⟩ := h3 (by simp)
  exact ⟨cache_abc_well_formed.links_ok, cache_abc_lists.1, cache_abc_lists.2.1, k1, k2, k3⟩

theorem link_consistency_invariant_witness :
    links_ok cache_abc ∧ links_ok (remove_from_lists cache_abc 2) ∧
    links_ok (raise_in_cl_list cache_abc 2) ∧
    ∃ n, ∀ fuel, n ≤ fuel →
      ∃ s' r, find fuel cache_abc 131080 = some (s', r) ∧ links_ok s' := by
  obtain ⟨_, _, _, _, _, _, _, h8, h9, h10⟩ :=
    link_consistency_invariant cache_abc cache_abc_well_formed.links_ok 2 131080
  exact ⟨cache_abc_well_formed.links_ok, h8 cache_abc_member.1 cache_abc_member.2,
    h9 cache_abc_member.1, h10⟩

end BlockCache

namespace BlockCache

variable {β : Type}

/-! ## Counting faults -/

theorem incr32_iterate (n a : Nat) : (incr32^[n]) (a % 2 ^ 32) = (a + n) % 2 ^ 32 := by
  induction n generalizing a with
  | zero => simp
  | succ n ih =>
    rw [Function.iterate_succ_apply]
    have h1 : incr32 (a % 2 ^ 32) = (a + 1) % 2 ^ 32 := by
      unfold incr32
      omega
    rw [h1, ih]
    congr 1
    omega

theorem scan_result_fault [block_info β] (t : block_cache β) (pc : Nat) (l : List Nat)
    (hno : ∀ e ∈ l, block_info.pc (t.info e) ≠ pc) :
    scan_result t pc l =
      ({ t with stats := { t.stats with faults := incr32 t.stats.faults } }, none) := by
  have h : l.find? (pc_is t pc) = none := by
    rw [List.find?_eq_none]
    intro x hx
    simp [pc_is, hno x hx]
  simp only [scan_result, h]

/-- A `find(pc)` that meets no entry with that `pc` in the bucket chain counts a search
and a fault, returns `NULL` and changes nothing else. -/
theorem find_fault [block_info β] (s : block_cache β) (pc : Nat) (l : List Nat)
    (hl : bucket_chain s (cacheline pc) l)
    (hno : ∀ e ∈ l, block_info.pc (s.info e) ≠ pc) (fuel : Nat) (hf : l.length < fuel) :
    find fuel s pc =
      some ({ s with
                stats := { s.stats with
                  searches := incr32 s.stats.searches
                  faults := incr32 s.stats.faults } }, none) := by
  rw [find_eq s pc l hl fuel hf]
  cases l with
  | nil =>
    simp only [find_result]
    refine congrArg some ((scan_result_fault _ pc [] ?_).trans rfl)
    intro e he
    cases he
  | cons a l =>
    have hp : ¬ block_info.pc (s.info a) = pc := hno a (by simp)
    simp only [find_result, hp, if_false]
    refine congrArg some ((scan_result_fault _ pc l ?_).trans rfl)
    intro e he
    exact hno e (List.mem_cons_of_mem _ he)

theorem find_seq_faults [block_info β] (fuel : Nat) (pcs : List Nat) :
    ∀ (s : block_cache β),
      (∀ pc ∈ pcs, ∃ l, bucket_chain s (cacheline pc) l ∧ l.length < fuel ∧
        ∀ e ∈ l, block_info.pc (s.info e) ≠ pc) →
      find_seq fuel s pcs =
        some ({ s with
                  stats := { s.stats with
                    searches := (incr32^[pcs.length]) s.stats.searches
                    faults := (incr32^[pcs.length]) s.stats.faults } },
          List.replicate pcs.length none) := by
  induction pcs with
  | nil => intro s _; rfl
  | cons pc pcs ih =>
    intro s h
    obtain ⟨l, hl, hf, hno⟩ := h pc (List.mem_cons_self _ _)
    have h1 := find_fault s pc l hl hno fuel hf
    have h2 := ih { s with
      stats := { s.stats with
        searches := incr32 s.stats.searches
        faults := incr32 s.stats.faults } }
      (fun pc' hpc' => h pc' (List.mem_cons_of_mem _ hpc'))
    simp only [find_seq, h1, h2]
    rfl

theorem chain_bound [block_info β] (s : block_cache β) (hwf : acyclic_chains s)
    (pcs : List Nat)
    (hno : ∀ pc ∈ pcs, ∀ e, in_bucket s e → block_info.pc (s.info e) ≠ pc) :
    ∃ n, ∀ pc ∈ pcs, ∃ l, bucket_chain s (cacheline pc) l ∧ l.length < n ∧
      ∀ e ∈ l, block_info.pc (s.info e) ≠ pc := by
  induction pcs with
  | nil => exact ⟨0, fun pc h => by cases h⟩
  | cons pc pcs ih =>
    obtain ⟨n, hn⟩ := ih (fun pc' hpc' => hno pc' (List.mem_cons_of_mem _ hpc'))
    obtain ⟨l, hl⟩ := hwf (cacheline pc) (cacheline_lt pc)
    refine ⟨max n (l.length + 1), ?_⟩
    intro pc' hpc'
    rcases List.mem_cons.1 hpc' with rfl | hpc'
    · refine ⟨l, hl, lt_of_lt_of_le (Nat.lt_succ_self _) (Nat.le_max_right _ _), ?_⟩
      intro e he
      exact hno pc' (List.mem_cons_self _ _) e ⟨_, cacheline_lt pc', l, hl, he⟩
    · obtain ⟨l', hl', hlt, hne⟩ := hn pc' hpc'
      exact ⟨l', hl', lt_of_lt_of_le hlt (Nat.le_max_left _ _), hne⟩

end BlockCache

namespace BlockCache

variable {β : Type}

/-- On a bucket chain that runs from an entry to itself, the loop of `find` never
returns for a `pc` that entry does not have. -/
theorem find_scan_loop [block_info β] (pc e : Nat) (fuel : Nat) :
    ∀ (t : block_cache β), t.next_same_cl e = some e → block_info.pc (t.info e) ≠ pc →
      find_scan pc fuel t (some e) = none := by
  induction fuel with
  | zero => intro t _ _; rfl
  | succ fuel ih =>
    intro t h1 h2
    simp only [find_scan, h1, h2, if_false]
    exact ih t h1 h2

theorem cache_abc_no_pc (pc : Nat) (h8 : pc ≠ 8) (h1 : pc ≠ 131080) (h2 : pc ≠ 262152) :
    ∀ e, in_bucket cache_abc e → block_info.pc (cache_abc.info e) ≠ pc := by
  intro e he
  have hp := (cache_abc_well_formed.resident e).1 he
  rw [in_pool_lists cache_abc_lists.1 cache_abc_lists.2.1] at hp
  simp only [List.mem_append, List.mem_cons, List.mem_singleton, List.not_mem_nil,
    or_false] at hp
  rcases hp with rfl | rfl | rfl
  · exact fun h => h2 h.symm
  · exact fun h => h1 h.symm
  · exact fun h => h8 h.symm

theorem find_seq_faults_zero [block_info β] (fuel : Nat) (pcs : List Nat)
    (s : block_cache β) (hz : s.stats = ⟨0, 0, 0, 0⟩)
    (h : ∀ pc ∈ pcs, ∃ l, bucket_chain s (cacheline pc) l ∧ l.length < fuel ∧
      ∀ e ∈ l, block_info.pc (s.info e) ≠ pc) :
    find_seq fuel s pcs =
      some ({ s with stats := ⟨pcs.length % 2 ^ 32, 0, 0, pcs.length % 2 ^ 32⟩ },
        List.replicate pcs.length none) := by
  rw [find_seq_faults fuel pcs s h]
  have h0 := incr32_iterate pcs.length 0
  simp only [Nat.zero_mod, Nat.zero_add] at h0
  rw [hz]
  simp only [h0]

/-- C14 as stated fails in two ways.  First, the counters are 32 bits wide: on the
freshly constructed (empty) cache, `N = 2^32` calls `find(0)` all return `NULL` and leave
`stats.searches = stats.faults = 0`, not `N`.  Second, the claim puts no condition on the
links: in `cache_loop`, whose counters are zero and whose only linked entry has `pc` 8,
bucket 2 runs from block 1 to block 1 and `find(131080)` returns for no amount of
fuel. -/
theorem fault_counting_counterexample :
    ((block_cache.construct (blank_memory heap_abc)).stats = ⟨0, 0, 0, 0⟩ ∧
      (∀ e, ¬ in_bucket (block_cache.construct (blank_memory heap_abc)) e) ∧
      (List.replicate (2 ^ 32) 0).length = 2 ^ 32 ∧
      ∃ s', find_seq 1 (block_cache.construct (blank_memory heap_abc))
          (List.replicate (2 ^ 32) 0) = some (s', List.replicate (2 ^ 32) none) ∧
        s'.stats.searches = 0 ∧ s'.stats.faults = 0 ∧ s'.stats.searches ≠ 2 ^ 32) ∧
    (cache_loop.stats = ⟨0, 0, 0, 0⟩ ∧
      cache_loop.cache_tags (cacheline 131080) = some 1 ∧
      cache_loop.next_same_cl 1 = some 1 ∧
      block_info.pc (cache_loop.info 1) = 8 ∧
      ∀ fuel, find fuel cache_loop 131080 = none) := by
  refine ⟨⟨rfl, (construct_members _).2.1, List.length_replicate _ _, ?_⟩,
    rfl, rfl, rfl, rfl, ?_⟩
  · have h := find_seq_faults_zero 1 (List.replicate (2 ^ 32) 0)
      (block_cache.construct (blank_memory heap_abc)) rfl (by
        intro pc hpc
        rw [List.eq_of_mem_replicate hpc]
        exact ⟨[], rfl, Nat.zero_lt_one, fun e he => by cases he⟩)
    rw [List.length_replicate] at h
    have hm : 2 ^ 32 % 2 ^ 32 = 0 := Nat.mod_self _
    refine ⟨_, h, hm, hm, ?_⟩
    show 2 ^ 32 % 2 ^ 32 ≠ 2 ^ 32
    rw [hm]
    norm_num
  · intro fuel
    have h := find_scan_loop 131080 1 fuel
      { cache_loop with
        stats := { cache_loop.stats with searches := incr32 cache_loop.stats.searches } }
      rfl (by decide)
    exact h

end BlockCache

namespace BlockCache

variable {β : Type}

/-! ## Classification of lookups -/

theorem fast_find_fst [block_info β] (s : block_cache β) (pc : Nat) :
    (fast_find s pc).1 = s := by
  unfold fast_find
  cases h : s.cache_tags (cacheline pc) with
  | none => rfl
  | some b => by_cases hp : block_info.pc (s.info b) = pc <;> simp [hp]

theorem raise_in_cl_list_stats [block_info β] (s : block_cache β) (e : Nat) :
    (raise_in_cl_list s e).stats = s.stats := by
  obtain ⟨_, _, g3, _⟩ := remove_from_cl_list_rest s e
  obtain ⟨_, _, _, _, _, _, _, _, k9, _⟩ := add_to_cl_list_fields (remove_from_cl_list s e) e
  show (add_to_cl_list (remove_from_cl_list s e) e).stats = s.stats
  rw [k9, g3]

theorem raise_in_cl_list_head [block_info β] (s : block_cache β) (e : Nat) :
    (raise_in_cl_list s e).cache_tags (cacheline (block_info.pc (s.info e))) = some e := by
  obtain ⟨_, g2, _⟩ := remove_from_cl_list_rest s e
  obtain ⟨_, _, k3, _⟩ := add_to_cl_list_fields (remove_from_cl_list s e) e
  show (add_to_cl_list (remove_from_cl_list s e) e).cache_tags _ = some e
  rw [k3, g2]
  simp

/-- The counters and the bucket head that the loop of `find` leaves. -/
theorem scan_result_class [block_info β] (t : block_cache β) (pc : Nat) (l : List Nat) :
    (∀ e, (scan_result t pc l).2 = some e →
      e ∈ l ∧ block_info.pc (t.info e) = pc ∧
      (scan_result t pc l).1.cache_tags (cacheline pc) = some e ∧
      (scan_result t pc l).1.stats =
        { t.stats with misses := incr32 t.stats.misses }) ∧
    ((scan_result t pc l).2 = none →
      (scan_result t pc l).1.stats =
        { t.stats with faults := incr32 t.stats.faults }) := by
  unfold scan_result
  cases hf : l.find? (pc_is t pc) with
  | none =>
    refine ⟨fun e he => (by cases he), fun _ => rfl⟩
  | some a =>
    obtain ⟨hal, hpc⟩ := find?_pc_is hf
    refine ⟨?_, fun h => (by cases h)⟩
    intro e he
    obtain rfl : a = e := Option.some.inj he
    refine ⟨hal, hpc, ?_, ?_⟩
    · have := raise_in_cl_list_head t a
      rw [hpc] at this
      exact this
    · show stats_t.mk _ _ _ _ = _
      rw [raise_in_cl_list_stats]

/-- The counters and the bucket head that `find(pc)` leaves, by the three ways it can
end. -/
theorem find_result_class [block_info β] (s : block_cache β) (pc : Nat) (l : List Nat) :
    (find_result s pc l).1.stats.searches = incr32 s.stats.searches ∧
    ((∃ a, l.head? = some a ∧ block_info.pc (s.info a) = pc) →
      (find_result s pc l).2 = l.head? ∧
      (find_result s pc l).1.stats.hits = incr32 s.stats.hits ∧
      (find_result s pc l).1.stats.misses = s.stats.misses ∧
      (find_result s pc l).1.stats.faults = s.stats.faults) ∧
    ((¬ ∃ a, l.head? = some a ∧ block_info.pc (s.info a) = pc) →
      ∀ e, (find_result s pc l).2 = some e →
        e ∈ l.tail ∧ block_info.pc (s.info e) = pc ∧
        (find_result s pc l).1.cache_tags (cacheline pc) = some e ∧
        (find_result s pc l).1.stats.misses = incr32 s.stats.misses ∧
        (find_result s pc l).1.stats.hits = s.stats.hits ∧
        (find_result s pc l).1.stats.faults = s.stats.faults) ∧
    ((find_result s pc l).2 = none →
      (find_result s pc l).1.stats.faults = incr32 s.stats.faults ∧
      (find_result s pc l).1.stats.hits = s.stats.hits ∧
      (find_result s pc l).1.stats.misses = s.stats.misses) := by
  have key : ∀ l' : List Nat,
      (scan_result { s with stats := { s.stats with searches := incr32 s.stats.searches } }
          pc l').1.stats.searches = incr32 s.stats.searches ∧
      (∀ e, (scan_result { s with
              stats := { s.stats with searches := incr32 s.stats.searches } } pc l').2 = some e →
        e ∈ l' ∧ block_info.pc (s.info e) = pc ∧
        (scan_result { s with stats := { s.stats with searches := incr32 s.stats.searches } }
          pc l').1.cache_tags (cacheline pc) = some e ∧
        (scan_result { s with stats := { s.stats with searches := incr32 s.stats.searches } }
          pc l').1.stats.misses = incr32 s.stats.misses ∧
        (scan_result { s with stats := { s.stats with searches := incr32 s.stats.searches } }
          pc l').1.stats.hits = s.stats.hits ∧
        (scan_result { s with stats := { s.stats with searches := incr32 s.stats.searches } }
          pc l').1.stats.faults = s.stats.faults) ∧
      ((scan_result { s with stats := { s.stats with searches := incr32 s.stats.searches } }
          pc l').2 = none →
        (scan_result { s with stats := { s.stats with searches := incr32 s.stats.searches } }
          pc l').1.stats.faults = incr32 s.stats.faults ∧
        (scan_result { s with stats := { s.stats with searches := incr32 s.stats.searches } }
          pc l').1.stats.hits = s.stats.hits ∧
        (scan_result { s with stats := { s.stats with searches := incr32 s.stats.searches } }
          pc l').1.stats.misses = s.stats.misses) := by
    intro l'
    obtain ⟨h1, h2⟩ := scan_result_class
      { s with stats := { s.stats with searches := incr32 s.stats.searches } } pc l'
    refine ⟨?_, ?_, ?_⟩
    · cases hr : (scan_result { s with
          stats := { s.stats with searches := incr32 s.stats.searches } } pc l').2 with
      | none => rw [h2 hr]
      | some e => rw [(h1 e hr).2.2.2]
    · intro e he
      obtain ⟨k1, k2, k3, k4⟩ := h1 e he
      exact ⟨k1, k2, k3, by rw [k4], by rw [k4], by rw [k4]⟩
    · intro hr
      have k := h2 hr
      exact ⟨by rw [k], by rw [k], by rw [k]⟩
  cases l with
  | nil =>
    obtain ⟨k1, k2, k3⟩ := key []
    refine ⟨k1, ?_, ?_, k3⟩
    · rintro ⟨a, ha, _⟩
      cases ha
    · intro _ e he
      exact absurd (k2 e he).1 (List.not_mem_nil _)
  | cons a l =>
    by_cases hp : block_info.pc (s.info a) = pc
    · simp only [find_result, hp, if_true]
      refine ⟨?_, fun _ => ⟨?_, ?_, ?_, ?_⟩, ?_, ?_⟩
      any_goals first | rfl | trivial
      · intro hn
        exact absurd ⟨a, rfl, hp⟩ hn
      · intro h
        cases h
    · obtain ⟨k1, k2, k3⟩ := key l
      simp only [find_result, hp, if_false]
      refine ⟨k1, ?_, ?_, k3⟩
      · rintro ⟨b, hb, hpb⟩
        obtain rfl : a = b := Option.some.inj hb
        exact absurd hpb hp
      · intro _ e he
        exact k2 e he

theorem find_result_balanced [block_info β] (s : block_cache β) (pc : Nat) (l : List Nat)
    (hb : s.stats.searches = (s.stats.hits + s.stats.misses + s.stats.faults) % 2 ^ 32) :
    (find_result s pc l).1.stats.searches =
      ((find_result s pc l).1.stats.hits + (find_result s pc l).1.stats.misses +
        (find_result s pc l).1.stats.faults) % 2 ^ 32 := by
  obtain ⟨h1, h2, h3, h4⟩ := find_result_class s pc l
  rw [h1, hb]
  by_cases hh : ∃ a, l.head? = some a ∧ block_info.pc (s.info a) = pc
  · obtain ⟨_, k1, k2, k3⟩ := h2 hh
    rw [k1, k2, k3]
    unfold incr32
    omega
  · cases hr : (find_result s pc l).2 with
    | none =>
      obtain ⟨k1, k2, k3⟩ := h4 hr
      rw [k1, k2, k3]
      unfold incr32
      omega
    | some e =>
      obtain ⟨_, _, _, k1, k2, k3⟩ := h3 hh e hr
      rw [k1, k2, k3]
      unfold incr32
      omega

theorem exists_length_bound (ch : Nat → List Nat) (k : Nat) :
    ∃ n, ∀ i, i < k → (ch i).length < n := by
  induction k with
  | zero => exact ⟨0, fun i hi => absurd hi (Nat.not_lt_zero _)⟩
  | succ k ih =>
    obtain ⟨n, hn⟩ := ih
    refine ⟨max n ((ch k).length + 1), fun i hi => ?_⟩
    rcases Nat.lt_succ_iff_lt_or_eq.1 hi with h | rfl
    · exact lt_of_lt_of_le (hn i h) (Nat.le_max_left _ _)
    · exact lt_of_lt_of_le (Nat.lt_succ_self _) (Nat.le_max_right _ _)

/-- A sequence of lookups on a consistently linked cache returns when the fuel exceeds
every chain length, and keeps `searches = hits + misses + faults` modulo `2^32`. -/
theorem run_lookups_balanced [block_info β] (fuel : Nat) (la ld : List Nat)
    (calls : List lookup) :
    ∀ (s : block_cache β) (ch : Nat → List Nat), Links s ch la ld →
      (∀ i, i < HASH_SIZE → (ch i).length < fuel) →
      s.stats.searches = (s.stats.hits + s.stats.misses + s.stats.faults) % 2 ^ 32 →
      ∃ s', run_lookups fuel s calls = some s' ∧ links_ok s' ∧
        s'.stats.searches =
          (s'.stats.hits + s'.stats.misses + s'.stats.faults) % 2 ^ 32 := by
  induction calls with
  | nil => intro s ch hk _ hb; exact ⟨s, rfl, ⟨ch, la, ld, hk⟩, hb⟩
  | cons c calls ih =>
    intro s ch hk hlen hb
    cases c with
    | call_find pc =>
      have hf := find_eq s pc (ch (cacheline pc))
        (hk.buckets _ (cacheline_lt pc)).isChain fuel (hlen _ (cacheline_lt pc))
      obtain ⟨ch', hk', hperm, _⟩ := find_result_links hk pc
      obtain ⟨s', h1, h2⟩ := ih _ ch' hk'
        (fun i hi => by rw [(hperm i hi).length_eq]; exact hlen i hi)
        (find_result_balanced s pc _ hb)
      refine ⟨s', ?_, h2⟩
      simp only [run_lookups, hf]
      exact h1
    | call_fast_find pc =>
      obtain ⟨s', h1, h2⟩ := ih s ch hk hlen hb
      refine ⟨s', ?_, h2⟩
      simp only [run_lookups, fast_find_fst]
      exact h1

end BlockCache

namespace BlockCache

variable {β : Type}

/-- C17.  On a consistently linked cache (in particular on every well-formed cache), one
call of `find(pc)` with fuel above the length of the bucket chain returns, increments
`stats.searches` by one (as a 32-bit counter) and increments exactly one of the other
three counters by one, leaving the other two as they were: `hits` when the bucket head
has the `pc` (the head is returned), `misses` when the head does not have it and an entry
is returned (that entry lies past the head, has the `pc`, and is the bucket head
afterwards), `faults` when `NULL` is returned.  Hence, from zeroed counters, every
sequence of `find` and `fast_find` calls returns, for any fuel above a bound, in a state
where `searches = (hits + misses + faults) mod 2^32`. -/
theorem lookup_classification [block_info β] (s : block_cache β) (hwf : links_ok s)
    (pc : Nat) :
    (∃ l, bucket_chain s (cacheline pc) l ∧ ∀ fuel, l.length < fuel →
      ∃ s' r, find fuel s pc = some (s', r) ∧
        s'.stats.searches = incr32 s.stats.searches ∧
        ((∃ a, l.head? = some a ∧ block_info.pc (s.info a) = pc) →
          r = l.head? ∧ s'.stats.hits = incr32 s.stats.hits ∧
          s'.stats.misses = s.stats.misses ∧ s'.stats.faults = s.stats.faults) ∧
        ((¬ ∃ a, l.head? = some a ∧ block_info.pc (s.info a) = pc) →
          ∀ e, r = some e →
            e ∈ l.tail ∧ block_info.pc (s.info e) = pc ∧
            s'.cache_tags (cacheline pc) = some e ∧
            s'.stats.misses = incr32 s.stats.misses ∧
            s'.stats.hits = s.stats.hits ∧ s'.stats.faults = s.stats.faults) ∧
        (r = none →
          s'.stats.faults = incr32 s.stats.faults ∧
          s'.stats.hits = s.stats.hits ∧ s'.stats.misses = s.stats.misses)) ∧
    (s.stats = ⟨0, 0, 0, 0⟩ → ∀ calls : List lookup, ∃ n, ∀ fuel, n ≤ fuel →
      ∃ s', run_lookups fuel s calls = some s' ∧
        s'.stats.searches =
          (s'.stats.hits + s'.stats.misses + s'.stats.faults) % 2 ^ 32) := by
  obtain ⟨ch, la, ld, hk⟩ := hwf
  constructor
  · refine ⟨ch (cacheline pc), (hk.buckets _ (cacheline_lt pc)).isChain, ?_⟩
    intro fuel hf
    refine ⟨(find_result s pc (ch (cacheline pc))).1, (find_result s pc (ch (cacheline pc))).2,
      find_eq s pc _ (hk.buckets _ (cacheline_lt pc)).isChain fuel hf, ?_⟩
    exact find_result_class s pc (ch (cacheline pc))
  · intro hz calls
    obtain ⟨n, hn⟩ := exists_length_bound ch HASH_SIZE
    refine ⟨n, fun fuel hfuel => ?_⟩
    obtain ⟨s', h1, _, h3⟩ := run_lookups_balanced fuel la ld calls s ch hk
      (fun i hi => lt_of_lt_of_le (hn i hi) hfuel) (by rw [hz]; rfl)
    exact ⟨s', h1, h3⟩

theorem lookup_classification_witness :
    links_ok cache_abc ∧
    (∃ s', find 4 cache_abc 131080 = some (s', some 2) ∧
      s'.stats = ⟨1, 0, 1, 0⟩ ∧ s'.cache_tags (cacheline 131080) = some 2) ∧
    ∃ n, ∀ fuel, n ≤ fuel →
      ∃ s', run_lookups fuel cache_abc
          [lookup.call_find 131080, lookup.call_fast_find 8, lookup.call_find 0] = some s' ∧
        s'.stats.searches =
          (s'.stats.hits + s'.stats.misses + s'.stats.faults) % 2 ^ 32 :=
  ⟨cache_abc_well_formed.links_ok, ⟨_, rfl, rfl, rfl⟩,
    (lookup_classification cache_abc cache_abc_well_formed.links_ok 131080).2 rfl _⟩

end BlockCache

namespace BlockCache

variable {β : Type}

/-! ## The active-list branch of `clear_range` -/

/-- Recording the tested entries does not change what the loop does. -/
theorem clear_range_pool_tested_fst [block_info β] (start end_ : Nat) :
    ∀ (fuel : Nat) (s : block_cache β) (p : Option Nat),
      (clear_range_pool_tested start end_ fuel s p).map Prod.fst =
        clear_range_pool start end_ fuel s p := by
  intro fuel
  induction fuel with
  | zero => intro s p; rfl
  | succ f ih =>
    intro s p
    cases p with
    | none => rfl
    | some q =>
      by_cases hh : block_info.intersect (s.info q) start end_ = true
      · simp only [clear_range_pool_tested, clear_range_pool, hh, if_true]
        rw [← ih]
        cases clear_range_pool_tested start end_ f (clear_range_drop s q) (s.next q) <;> rfl
      · simp only [clear_range_pool_tested, clear_range_pool, hh, Bool.false_eq_true, if_false]
        rw [← ih]
        cases clear_range_pool_tested start end_ f s (s.next q) <;> rfl

theorem diff_filter_eq {l : List Nat} (hl : l.Nodup) (f : Nat → Bool) :
    l.diff (l.filter f) = l.filter (fun e => !f e) := by
  rw [List.Nodup.diff_eq_filter hl]
  apply List.filter_congr
  intro e he
  by_cases hf : f e = true <;> simp [List.mem_filter, he, hf]

theorem diff_disjoint_eq {l D : List Nat} (hl : l.Nodup) (h : ∀ e ∈ l, e ∉ D) :
    l.diff D = l := by
  rw [List.Nodup.diff_eq_filter hl, List.filter_eq_self]
  intro e he
  simpa using h e he

end BlockCache

namespace BlockCache

variable {β : Type}

end BlockCache

namespace BlockCache

variable {β : Type}

/-! ## The hash index across `clear` -/

/-- One loop of `clear` writes no bucket head, whatever the state it starts in. -/
theorem clear_list_tags :
    ∀ (fuel : Nat) (s : block_cache β) (p : Option Nat) (s' : block_cache β),
      clear_list fuel s p = some s' → s'.cache_tags = s.cache_tags := by
  intro fuel
  induction fuel with
  | zero => intro s p s' h; cases h
  | succ f ih =>
    intro s p s' h
    cases p with
    | none =>
      obtain rfl : s = s' := Option.some.inj h
      rfl
    | some d =>
      simp only [clear_list] at h
      exact ih (delete_blockinfo s d) (s.next d) s' h

theorem clear_tags (fuel : Nat) (s s' : block_cache β) (h : clear fuel s = some s') :
    s'.cache_tags = s.cache_tags := by
  unfold clear at h
  cases h1 : clear_list fuel s s.active with
  | none => rw [h1] at h; cases h
  | some s1 =>
    rw [h1] at h
    simp only at h
    cases h2 : clear_list fuel { s1 with active := none } s1.dormant with
    | none => rw [h2] at h; cases h
    | some s3 =>
      rw [h2] at h
      obtain rfl := Option.some.inj h
      have k1 := clear_list_tags fuel s s.active s1 h1
      have k2 := clear_list_tags fuel _ _ s3 h2
      show s3.cache_tags = s.cache_tags
      rw [k2]
      exact k1

end BlockCache

namespace BlockCache

variable {β : Type}

/-! ## The index report -/

/-- Over buckets that are all empty the loop of the index report changes no total. -/
theorem index_scan_empty (s : block_cache β) (fuel : Nat) (cls : List Nat) (t : index_totals)
    (h : ∀ cl ∈ cls, s.cache_tags cl = none) : index_scan s fuel cls t = some t := by
  induction cls with
  | nil => rfl
  | cons cl cls ih =>
    simp only [index_scan, h cl (List.mem_cons_self _ _)]
    exact ih (fun x hx => h x (List.mem_cons_of_mem _ hx))

/-- On a cache whose bucket heads are all `NULL`, `print_statistics` reaches
`average /= c` with `c = 0`. -/
theorem print_statistics_empty (s : block_cache β)
    (h : ∀ i, i < HASH_SIZE → s.cache_tags i = none) (fuel : Nat) :
    print_statistics fuel s =
      some ({ s with stats := ⟨0, 0, 0, 0⟩ }, index_report.division_by_zero) := by
  unfold print_statistics
  simp only
  rw [index_scan_empty { s with stats := ⟨0, 0, 0, 0⟩ } fuel (List.range HASH_SIZE) _
    (fun cl hcl => h cl (List.mem_range.1 hcl))]
  rfl

/-- The total `c` after the loop of the index report is the number of non-empty buckets
it has met. -/
theorem index_scan_count (s : block_cache β) (fuel : Nat) (cls : List Nat) :
    ∀ (t r : index_totals), index_scan s fuel cls t = some r →
      t.c + cls.length < 2 ^ 32 →
      r.c = t.c + (cls.filter (fun cl => (s.cache_tags cl).isSome)).length := by
  induction cls with
  | nil =>
    intro t r h _
    obtain rfl : t = r := Option.some.inj h
    simp
  | cons cl cls ih =>
    intro t r h hlen
    simp only [List.length_cons] at hlen
    cases hc : s.cache_tags cl with
    | none =>
      simp only [index_scan, hc] at h
      rw [ih t r h (by omega)]
      simp [List.filter_cons, hc]
    | some e =>
      simp only [index_scan, hc] at h
      cases hct : count_chain s fuel (some e) 0 with
      | none => rw [hct] at h; cases h
      | some ct =>
        rw [hct] at h
        simp only at h
        rw [ih _ r h (by
          show incr32 t.c + cls.length < 2 ^ 32
          unfold incr32
          have : (t.c + 1) % 2 ^ 32 ≤ t.c + 1 := Nat.mod_le _ _
          omega)]
        have h1 : incr32 t.c = t.c + 1 := by
          unfold incr32
          exact Nat.mod_eq_of_lt (by omega)
        show incr32 t.c + _ = _
        rw [h1]
        simp [List.filter_cons, hc]
        omega

/-- Whenever `print_statistics` returns, it has divided by zero exactly when every
bucket head is `NULL`. -/
theorem print_statistics_zero_iff (s : block_cache β) (fuel : Nat)
    (x : block_cache β × index_report) (h : print_statistics fuel s = some x) :
    x.2 = index_report.division_by_zero ↔ ∀ i, i < HASH_SIZE → s.cache_tags i = none := by
  unfold print_statistics at h
  simp only at h
  cases hs : index_scan { s with stats := ⟨0, 0, 0, 0⟩ } fuel (List.range HASH_SIZE)
      ⟨0, 2 ^ 32 - 1, 0, 0⟩ with
  | none => rw [hs] at h; cases h
  | some t =>
    rw [hs] at h
    simp only at h
    have hcount := index_scan_count _ fuel (List.range HASH_SIZE) _ t hs (by
      rw [List.length_range]
      have : HASH_SIZE = 2 ^ 15 := by decide
      rw [this]
      norm_num)
    simp only [Nat.zero_add] at hcount
    have hz : t.c = 0 ↔ ∀ i, i < HASH_SIZE → s.cache_tags i = none := by
      rw [hcount, List.length_eq_zero, List.filter_eq_nil_iff]
      constructor
      · intro hx i hi
        have := hx i (List.mem_range.2 hi)
        cases hci : s.cache_tags i with
        | none => rfl
        | some e =>
          have hci' : ({ s with stats := ⟨0, 0, 0, 0⟩ } : block_cache β).cache_tags i =
              some e := hci
          rw [hci'] at this
          exact absurd rfl this
      · intro hx i hi
        have hci : ({ s with stats := ⟨0, 0, 0, 0⟩ } : block_cache β).cache_tags i = none :=
          hx i (List.mem_range.1 hi)
        rw [hci]
        simp
    by_cases hc : t.c = 0
    · rw [if_pos hc] at h
      obtain rfl := Option.some.inj h
      exact ⟨fun _ => hz.1 hc, fun _ => rfl⟩
    · rw [if_neg hc] at h
      obtain rfl := Option.some.inj h
      constructor
      · intro hx
        cases hx
      · intro hx
        exact absurd (hz.2 hx) hc

end BlockCache

namespace BlockCache

variable {β : Type}

/-- With fuel above the length of the chain, the counting loop returns. -/
theorem count_chain_returns (s : block_cache β) (l : List Nat) :
    ∀ (p : Option Nat) (fuel ct : Nat), IsChain s.next_same_cl p l → l.length < fuel →
      count_chain s fuel p ct = some ((incr32^[l.length]) ct) := by
  induction l with
  | nil =>
    intro p fuel ct hp hf
    obtain ⟨f, rfl⟩ : ∃ f, fuel = f + 1 := ⟨fuel - 1, by simp at hf; omega⟩
    have hpn : p = none := hp
    subst hpn
    rfl
  | cons a l ih =>
    intro p fuel ct hp hf
    obtain ⟨f, rfl⟩ : ∃ f, fuel = f + 1 := ⟨fuel - 1, by omega⟩
    obtain ⟨hpa, hrest⟩ := hp
    subst hpa
    simp only [count_chain, List.length_cons, Function.iterate_succ_apply]
    exact ih _ f _ hrest (by simp at hf; omega)

theorem index_scan_returns (s : block_cache β) (fuel : Nat) (cls : List Nat)
    (h : ∀ cl ∈ cls, ∃ l, bucket_chain s cl l ∧ l.length < fuel) :
    ∀ t, ∃ r, index_scan s fuel cls t = some r := by
  induction cls with
  | nil => intro t; exact ⟨t, rfl⟩
  | cons cl cls ih =>
    intro t
    have ih' := ih (fun x hx => h x (List.mem_cons_of_mem _ hx))
    obtain ⟨l, hl, hf⟩ := h cl (List.mem_cons_self _ _)
    cases hc : s.cache_tags cl with
    | none =>
      simp only [index_scan, hc]
      exact ih' t
    | some e =>
      have hl' : IsChain s.next_same_cl (some e) l := hc ▸ hl
      simp only [index_scan, hc, count_chain_returns s l (some e) fuel 0 hl' hf]
      exact ih' _

/-- On a consistently linked cache `print_statistics` runs to its end (the report or the
division by zero) for any fuel above every chain length. -/
theorem print_statistics_returns (s : block_cache β) (hk : links_ok s) :
    ∃ n, ∀ fuel, n ≤ fuel → ∃ x, print_statistics fuel s = some x := by
  obtain ⟨ch, la, ld, hk⟩ := hk
  obtain ⟨n, hn⟩ := exists_length_bound ch HASH_SIZE
  refine ⟨n, fun fuel hf => ?_⟩
  obtain ⟨r, hr⟩ := index_scan_returns { s with stats := ⟨0, 0, 0, 0⟩ } fuel
    (List.range HASH_SIZE)
    (fun cl hcl => ⟨ch cl, (hk.buckets cl (List.mem_range.1 hcl)).isChain,
      lt_of_lt_of_le (hn cl (List.mem_range.1 hcl)) hf⟩) ⟨0, 2 ^ 32 - 1, 0, 0⟩
  unfold print_statistics
  simp only [hr]
  by_cases hc : r.c = 0
  · exact ⟨_, if_pos hc⟩
  · exact ⟨_, if_neg hc⟩

/-- C20 on the code: the index report is not defined on the cache with no resident
entry.  The freshly constructed cache is well-formed and has no entry in any bucket chain;
on it the `for` loop of `print_statistics` leaves `c = 0`, and the statement
`average /= c` that follows divides by zero, whatever the fuel. -/
theorem print_statistics_divides_by_zero :
    well_formed (block_cache.construct (blank_memory heap_abc)) ∧
    (∀ e, ¬ in_bucket (block_cache.construct (blank_memory heap_abc)) e) ∧
    (∀ i, i < HASH_SIZE →
      (block_cache.construct (blank_memory heap_abc)).cache_tags i = none) ∧
    ∀ fuel, print_statistics fuel (block_cache.construct (blank_memory heap_abc)) =
      some (block_cache.construct (blank_memory heap_abc),
        index_report.division_by_zero) :=
  ⟨⟨_, _, _, construct_rep (blank_memory heap_abc)⟩, (construct_members _).2.1,
    fun _ _ => rfl,
    fun fuel => print_statistics_empty _ (fun _ _ => rfl) fuel⟩

end BlockCache

namespace BlockCache

variable {β : Type}

/-! ## Raise on hit, on consistently linked caches -/

/-- Only the lists of the buckets below `HASH_SIZE` matter to link consistency. -/
theorem Links.agree_on {s : block_cache β} {ch ch' : Nat → List Nat} {la ld : List Nat}
    (hk : Links s ch la ld) (h : ∀ i, i < HASH_SIZE → ch' i = ch i) : Links s ch' la ld :=
  ⟨fun i hi => by rw [h i hi]; exact hk.buckets i hi, hk.act, hk.dor⟩

/-- `raise_in_cl_list(e)` on an entry linked in the bucket its `pc` hashes to: that bucket
holds `e` followed by its old chain without `e`, nothing else moves. -/
theorem links_raise_same_bucket [block_info β] {s : block_cache β} {ch : Nat → List Nat}
    {la ld : List Nat} (hk : Links s ch la ld) {e : Nat}
    (he : e ∈ ch (cacheline (block_info.pc (s.info e)))) :
    Links (raise_in_cl_list s e)
      (Function.update ch (cacheline (block_info.pc (s.info e)))
        (e :: (ch (cacheline (block_info.pc (s.info e)))).erase e)) la ld := by
  have hi0 := cacheline_lt (block_info.pc (s.info e))
  refine (links_raise_in_cl_list hk hi0 he).agree_on ?_
  intro i hi
  by_cases hii : i = cacheline (block_info.pc (s.info e))
  · subst hii; simp
  · rw [Function.update_noteq hii, Function.update_noteq hii]
    have : e ∉ ch i := fun hx => hii (hk.buckets_apart i _ hi hi0 e hx he)
    exact (List.erase_of_not_mem this).symm

/-- What `find(pc)` leaves on a consistently linked cache when it returns the entry `e`:
bucket `cacheline(pc)` holds `e` followed by the old chain without `e`, nothing else
moves. -/
theorem find_result_raised [block_info β] {s : block_cache β} {ch : Nat → List Nat}
    {la ld : List Nat} (hk : Links s ch la ld) (pc e : Nat)
    (he : (ch (cacheline pc)).find? (pc_is s pc) = some e) :
    Links (find_result s pc (ch (cacheline pc))).1
      (Function.update ch (cacheline pc) (e :: (ch (cacheline pc)).erase e)) la ld ∧
    (find_result s pc (ch (cacheline pc))).1.info = s.info := by
  obtain ⟨hem, hpc⟩ := find?_pc_is he
  have hs0 : Links { s with stats := { s.stats with searches := incr32 s.stats.searches } }
      ch la ld := links_with_stats hk _
  cases hc : ch (cacheline pc) with
  | nil => rw [hc] at hem; cases hem
  | cons a l =>
    rw [hc] at he
    by_cases hp : block_info.pc (s.info a) = pc
    · have hae : a = e := by
        have : List.find? (pc_is s pc) (a :: l) = some a := by
          simp [List.find?, pc_is, hp]
        rw [this] at he
        exact Option.some.inj he
      subst hae
      have hupd : Function.update ch (cacheline pc) (a :: (a :: l).erase a) = ch := by
        rw [List.erase_cons_head, ← hc]; simp
      rw [hupd]
      simp only [find_result, hp, if_true]
      exact ⟨links_with_stats hs0 _, trivial⟩
    · have he' : l.find? (pc_is s pc) = some e := by
        have : List.find? (pc_is s pc) (a :: l) = List.find? (pc_is s pc) l := by
          simp [List.find?, pc_is, hp]
        rw [this] at he
        exact he
      have he0 : e ∈ ch (cacheline (block_info.pc (s.info e))) := by
        rw [hpc]; exact hem
      have hk1 := links_raise_same_bucket hs0 he0
      have hinfo1 := raise_in_cl_list_info
        { s with stats := { s.stats with searches := incr32 s.stats.searches } } e
      simp only [find_result, hp, if_false, scan_result]
      have he'' : List.find? (pc_is { s with stats :=
          { s.stats with searches := incr32 s.stats.searches } } pc) l = some e := he'
      rw [he'']
      rw [← hc]
      refine ⟨?_, hinfo1⟩
      have := links_with_stats hk1
        { (raise_in_cl_list { s with stats :=
            { s.stats with searches := incr32 s.stats.searches } } e).stats with
          misses := incr32 (raise_in_cl_list { s with stats :=
            { s.stats with searches := incr32 s.stats.searches } } e).stats.misses }
      simp only [hpc] at this
      exact this

/-- C4: raise on hit.  On a consistently linked cache (every well-formed cache is one),
when `find(pc)` returns an entry `e`, then afterwards `e` is the head of bucket
`cacheline(pc)`, the next `fast_find(pc)` returns `e`, and the chain of that bucket is `e`
followed by the old chain with `e` removed, the others in their old order; when `e` was
already the head this is the old chain.  The other buckets keep their chains and the
cache stays consistently linked.  On `cache_abc` (blocks 1, 2, 3 inserted in this order
into one bucket, chain 3, 2, 1) `find` of the `pc` of block 1 returns 1 and leaves the
chain 1, 3, 2. -/
theorem find_raises_hit [block_info β] (s : block_cache β) (hwf : links_ok s) (pc : Nat) :
    (∃ l, bucket_chain s (cacheline pc) l ∧ ∀ fuel, l.length < fuel →
      ∃ s', find fuel s pc = some (s', l.find? (pc_is s pc)) ∧
        ∀ e, l.find? (pc_is s pc) = some e →
          s'.cache_tags (cacheline pc) = some e ∧
          (fast_find s' pc).2 = some e ∧
          bucket_chain s' (cacheline pc) (e :: l.erase e) ∧
          (l.head? = some e → bucket_chain s' (cacheline pc) l) ∧
          (∀ i l', i < HASH_SIZE → i ≠ cacheline pc → bucket_chain s i l' →
            bucket_chain s' i l') ∧
          links_ok s') ∧
    (∃ s', find 4 cache_abc 8 = some (s', some 1) ∧
      bucket_chain cache_abc (cacheline 8) [3, 2, 1] ∧ bucket_chain s' (cacheline 8) [1, 3, 2] ∧
      (fast_find s' 8).2 = some 1) := by
  refine ⟨?_, cache_abc_find⟩
  obtain ⟨ch, la, ld, hk⟩ := hwf
  have hi := cacheline_lt pc
  refine ⟨ch (cacheline pc), (hk.buckets _ hi).isChain, ?_⟩
  intro fuel hf
  refine ⟨(find_result s pc (ch (cacheline pc))).1, ?_, ?_⟩
  · rw [find_eq s pc _ (hk.buckets _ hi).isChain fuel hf, ← find_result_snd]
  · intro e he
    obtain ⟨hem, hpc⟩ := find?_pc_is he
    obtain ⟨hk', hinfo⟩ := find_result_raised hk pc e he
    have hb := hk'.buckets _ hi
    unfold bucket_linked at hb
    rw [Function.update_same] at hb
    have hhead : (find_result s pc (ch (cacheline pc))).1.cache_tags (cacheline pc) = some e :=
      hb.1
    refine ⟨hhead, ?_, hb.isChain, ?_, ?_, ⟨_, _, _, hk'⟩⟩
    · unfold fast_find
      rw [hhead, hinfo]
      simp [hpc]
    · intro hh
      have : e :: (ch (cacheline pc)).erase e = ch (cacheline pc) := by
        cases hc : ch (cacheline pc) with
        | nil => rw [hc] at hh; cases hh
        | cons a l =>
          rw [hc] at hh
          have hae : a = e := by simpa using hh
          subst hae
          simp
      have h2 : bucket_chain (find_result s pc (ch (cacheline pc))).1 (cacheline pc)
          (e :: (ch (cacheline pc)).erase e) := hb.isChain
      rw [this] at h2
      exact h2
    · intro i l' hi' hne hl'
      have hb' := hk'.buckets i hi'
      unfold bucket_linked at hb'
      rw [Function.update_noteq hne] at hb'
      rw [IsChain.functional hl' (hk.buckets i hi').isChain]
      exact hb'.isChain

theorem find_raises_hit_witness :
    links_ok cache_abc ∧
    ∃ l, bucket_chain cache_abc (cacheline 8) l ∧ ∀ fuel, l.length < fuel →
      ∃ s', find fuel cache_abc 8 = some (s', l.find? (pc_is cache_abc 8)) ∧
        ∀ e, l.find? (pc_is cache_abc 8) = some e →
          s'.cache_tags (cacheline 8) = some e ∧
          (fast_find s' 8).2 = some e ∧
          bucket_chain s' (cacheline 8) (e :: l.erase e) ∧
          (l.head? = some e → bucket_chain s' (cacheline 8) l) ∧
          (∀ i l', i < HASH_SIZE → i ≠ cacheline 8 → bucket_chain cache_abc i l' →
            bucket_chain s' i l') ∧
          links_ok s' :=
  ⟨cache_abc_well_formed.links_ok,
    (find_raises_hit cache_abc cache_abc_well_formed.links_ok 8).1⟩

end BlockCache

namespace BlockCache

variable {β : Type}

/-! ## Full clear, on consistently linked caches -/

/-- C8: full clear.  On a consistently linked cache (every well-formed cache is one) with
active list `la` and dormant list `ld` (which together repeat no entry) `clear()` returns
(for any fuel above both lengths); it has released the entries of `la` and then those of
`ld`, each exactly once, whatever their `intersect` says, has set `active` and `dormant`
to `NULL`, and has changed nothing else.  On a cache whose pools are both empty `clear()`
changes nothing at all; so a second `clear()` directly after the first releases nothing
more. -/
theorem clear_releases_all (s : block_cache β) (hwf : links_ok s) :
    ∃ la ld, active_list s la ∧ dormant_list s ld ∧ (la ++ ld).Nodup ∧
      (∀ fuel, la.length < fuel → ld.length < fuel →
        clear fuel s =
          some { s with
            active := none, dormant := none, released := s.released ++ la ++ ld } ∧
        clear fuel { s with
            active := none, dormant := none, released := s.released ++ la ++ ld } =
          some { s with
            active := none, dormant := none, released := s.released ++ la ++ ld }) ∧
      (∀ (t : block_cache β) (fuel : Nat), 0 < fuel → t.active = none → t.dormant = none →
        clear fuel t = some t) := by
  obtain ⟨ch, la, ld, hk⟩ := hwf
  have hempty : ∀ (t : block_cache β) (fuel : Nat), 0 < fuel → t.active = none →
      t.dormant = none → clear fuel t = some t := by
    intro t fuel hf hta htd
    have h := clear_spec t [] [] hta htd fuel (by simpa using hf) (by simpa using hf)
    rw [h]
    cases t
    simp at hta htd
    simp [hta, htd]
  refine ⟨la, ld, hk.act.isChain, hk.dor.isChain, ?_, ?_, hempty⟩
  · rw [List.nodup_append]
    exact ⟨IsChain.nodup hk.act.isChain, IsChain.nodup hk.dor.isChain,
      fun a ha hd => hk.pools_apart a ha hd⟩
  · intro fuel hfa hfd
    refine ⟨clear_spec s la ld hk.act.isChain hk.dor.isChain fuel hfa hfd, ?_⟩
    exact hempty _ fuel (by omega) rfl rfl

theorem clear_releases_all_witness :
    links_ok cache_abc ∧
    ∃ la ld, active_list cache_abc la ∧ dormant_list cache_abc ld ∧ (la ++ ld).Nodup ∧
      (∀ fuel, la.length < fuel → ld.length < fuel →
        clear fuel cache_abc =
          some { cache_abc with
            active := none, dormant := none, released := cache_abc.released ++ la ++ ld } ∧
        clear fuel { cache_abc with
            active := none, dormant := none, released := cache_abc.released ++ la ++ ld } =
          some { cache_abc with
            active := none, dormant := none, released := cache_abc.released ++ la ++ ld }) ∧
      (∀ (t : block_cache range_block) (fuel : Nat), 0 < fuel → t.active = none →
        t.dormant = none → clear fuel t = some t) :=
  ⟨cache_abc_well_formed.links_ok, clear_releases_all cache_abc cache_abc_well_formed.links_ok⟩

/-! ## Counting faults, for every sequence -/

theorem links_ok.acyclic {s : block_cache β} (h : links_ok s) : acyclic_chains s := by
  obtain ⟨ch, la, ld, hk⟩ := h
  exact fun i hi => ⟨ch i, (hk.buckets i hi).isChain⟩

/-- C14, amended.  Start from a cache whose bucket chains are acyclic and whose counters
are zero, and call `find(pc_1)`, ..., `find(pc_N)` where no entry linked in a bucket chain
has a stored `pc` equal to any `pc_i`.  Then, for any fuel above a bound, every call
returns `NULL`, and afterwards `stats.searches` and `stats.faults` are `N mod 2^32` (so
`N` as long as `N < 2^32`), `stats.hits` and `stats.misses` are 0, and nothing else in the
cache has changed. -/
theorem fault_counting [block_info β] (s : block_cache β) (hwf : acyclic_chains s)
    (hz : s.stats = ⟨0, 0, 0, 0⟩) (pcs : List Nat)
    (hno : ∀ pc ∈ pcs, ∀ e, in_bucket s e → block_info.pc (s.info e) ≠ pc) :
    ∃ n, ∀ fuel, n ≤ fuel →
      find_seq fuel s pcs =
        some ({ s with stats := ⟨pcs.length % 2 ^ 32, 0, 0, pcs.length % 2 ^ 32⟩ },
          List.replicate pcs.length none) := by
  obtain ⟨n, hn⟩ := chain_bound s hwf pcs hno
  refine ⟨n, fun fuel hfuel => ?_⟩
  exact find_seq_faults_zero fuel pcs s hz (fun pc hpc => by
    obtain ⟨l, hl, hlt, hne⟩ := hn pc hpc
    exact ⟨l, hl, lt_of_lt_of_le hlt hfuel, hne⟩)

theorem fault_counting_witness :
    acyclic_chains cache_abc ∧ cache_abc.stats = ⟨0, 0, 0, 0⟩ ∧
    (∀ pc ∈ [393224, 0], ∀ e, in_bucket cache_abc e →
      block_info.pc (cache_abc.info e) ≠ pc) ∧
    ∃ n, ∀ fuel, n ≤ fuel →
      find_seq fuel cache_abc [393224, 0] =
        some ({ cache_abc with stats := ⟨2, 0, 0, 2⟩ }, [none, none]) := by
  have hno : ∀ pc ∈ [393224, 0], ∀ e, in_bucket cache_abc e →
      block_info.pc (cache_abc.info e) ≠ pc := by
    intro pc hpc
    simp only [List.mem_cons, List.mem_singleton, List.not_mem_nil, or_false] at hpc
    rcases hpc with rfl | rfl
    · exact cache_abc_no_pc _ (by decide) (by decide) (by decide)
    · exact cache_abc_no_pc _ (by decide) (by decide) (by decide)
  exact ⟨cache_abc_well_formed.links_ok.acyclic, rfl, hno,
    fault_counting cache_abc cache_abc_well_formed.links_ok.acyclic rfl [393224, 0] hno⟩

end BlockCache

namespace BlockCache

variable {β : Type}

/-! ## Range invalidation on consistently linked caches -/

/-- The four statements that destroy an intersecting entry `q`, on a consistently linked
cache in which `q` is linked in a bucket chain and in a pool list: `q` leaves both, which
stay consistently linked; nothing else moves; `q` is invalidated and released once. -/
theorem clear_range_drop_links [block_info β] {s : block_cache β} {ch : Nat → List Nat}
    {la ld : List Nat} (hk : Links s ch la ld) {q i0 : Nat} (hi0 : i0 < HASH_SIZE)
    (hq : q ∈ ch i0) (hqp : q ∈ la ∨ q ∈ ld) :
    Links (clear_range_drop s q) (fun i => (ch i).erase q) (la.erase q) (ld.erase q) ∧
    (clear_range_drop s q).released = s.released ++ [q] ∧
    (clear_range_drop s q).invalidated = s.invalidated ++ [q] ∧
    (∀ e, e ≠ q → (clear_range_drop s q).info e = s.info e) ∧
    (clear_range_drop s q).stats = s.stats ∧
    (∀ a, s.prev_same_cl_p q ≠ some (Slot.next_same_cl a) →
      (clear_range_drop s q).next_same_cl a = s.next_same_cl a) ∧
    (∀ a, s.prev_p q ≠ some (Slot.next a) → (clear_range_drop s q).next a = s.next a) := by
  have hdrop : clear_range_drop s q =
      delete_blockinfo (remove_from_list (remove_from_cl_list
        { s with info := Function.update s.info q (block_info.invalidate (s.info q)),
                 invalidated := s.invalidated ++ [q] } q) q) q := rfl
  rw [hdrop]
  generalize hs1 : ({ s with
      info := Function.update s.info q (block_info.invalidate (s.info q)),
      invalidated := s.invalidated ++ [q] } : block_cache β) = s1
  have e1 : s1.next_same_cl = s.next_same_cl := by rw [← hs1]
  have e2 : s1.prev_same_cl_p = s.prev_same_cl_p := by rw [← hs1]
  have e3 : s1.cache_tags = s.cache_tags := by rw [← hs1]
  have e4 : s1.next = s.next := by rw [← hs1]
  have e5 : s1.prev_p = s.prev_p := by rw [← hs1]
  have e6 : s1.active = s.active := by rw [← hs1]
  have e7 : s1.dormant = s.dormant := by rw [← hs1]
  have e8 : s1.info = Function.update s.info q (block_info.invalidate (s.info q)) := by
    rw [← hs1]
  have e9 : s1.released = s.released := by rw [← hs1]
  have e10 : s1.invalidated = s.invalidated ++ [q] := by rw [← hs1]
  have e11 : s1.stats = s.stats := by rw [← hs1]
  have hk1 : Links s1 ch la ld := by
    refine ⟨?_, ?_, ?_⟩
    · intro i hi; unfold bucket_linked; rw [e1, e2, e3]; exact hk.buckets i hi
    · unfold active_linked; rw [e4, e5, e6]; exact hk.act
    · unfold dormant_linked; rw [e4, e5, e7]; exact hk.dor
  have hkc := links_remove_from_cl_list hk1 hi0 hq
  have hk2 := links_remove_from_list hkc hqp
  obtain ⟨f1, f2, f3, f4⟩ := remove_from_cl_list_pool_links (hk1.buckets i0 hi0) hq
  obtain ⟨g1, g2, g3, g4, g5⟩ := remove_from_cl_list_rest s1 q
  obtain ⟨k1, k2, k3⟩ := remove_from_list_frame hkc.act hkc.dor hqp
  obtain ⟨m1, m2, m3, m4, m5⟩ := remove_from_list_rest (remove_from_cl_list s1 q) q
  have hpvq : s1.prev_same_cl_p q ≠ some (Slot.next_same_cl q) := by
    rcases Linked.pv_mem (hk1.buckets i0 hi0) hq with h1 | ⟨p, _, hpq, h1⟩
    · rw [h1]; simp
    · rw [h1]; intro hx; exact hpq (next_same_cl_injective (Option.some.inj hx))
  have hppq : s1.prev_p q ≠ some (Slot.next q) := by
    rcases hqp with hq1 | hq1
    · rcases Linked.pv_mem hk1.act hq1 with h1 | ⟨p, _, hpq, h1⟩
      · rw [h1]; simp
      · rw [h1]; intro hx; exact hpq (next_injective (Option.some.inj hx))
    · rcases Linked.pv_mem hk1.dor hq1 with h1 | ⟨p, _, hpq, h1⟩
      · rw [h1]; simp
      · rw [h1]; intro hx; exact hpq (next_injective (Option.some.inj hx))
  refine ⟨⟨hk2.buckets, hk2.act, hk2.dor⟩, ?_, ?_, ?_, ?_, ?_, ?_⟩
  · show (remove_from_list (remove_from_cl_list s1 q) q).released ++ [q] = s.released ++ [q]
    rw [m4, g4, e9]
  · show (remove_from_list (remove_from_cl_list s1 q) q).invalidated = s.invalidated ++ [q]
    rw [m5, g5, e10]
  · intro e he
    show (remove_from_list (remove_from_cl_list s1 q) q).info e = s.info e
    rw [m2, g2, e8]
    exact Function.update_noteq he _ _
  · show (remove_from_list (remove_from_cl_list s1 q) q).stats = s.stats
    rw [m3, g3, e11]
  · intro a ha
    show (remove_from_list (remove_from_cl_list s1 q) q).next_same_cl a = s.next_same_cl a
    rw [k1, remove_from_cl_list_next_same_cl s1 q a hpvq, e1, e2]
    exact if_neg ha
  · intro a ha
    show (remove_from_list (remove_from_cl_list s1 q) q).next a = s.next a
    have hppq2 : (remove_from_cl_list s1 q).prev_p q ≠ some (Slot.next q) := by
      rw [f2]; exact hppq
    rw [remove_from_list_next _ q a hppq2, f1, f2, e4, e5]
    exact if_neg ha

/-- The loop of the active-list branch on a consistently linked cache whose active
entries are all linked in bucket chains, started at the pointer `p` heading the rest
`rest` of the active list: it returns, it has called `intersect` on the entries of `rest`,
in order, and on nothing else, and it has destroyed exactly the entries of `rest` that
intersect the range. -/
theorem clear_range_pool_links [block_info β] (start end_ : Nat) (rest : List Nat) :
    ∀ (s : block_cache β) (ch : Nat → List Nat) (la ld pre : List Nat) (p : Option Nat)
      (fuel : Nat), Links s ch la ld → (∀ e ∈ la, ∃ i, i < HASH_SIZE ∧ e ∈ ch i) →
      la = pre ++ rest → IsChain s.next p rest → rest.length < fuel →
      ∃ s', clear_range_pool_tested start end_ fuel s p = some (s', rest) ∧
        Links s' (fun j => (ch j).diff (rest.filter (hits_range s start end_)))
          (la.diff (rest.filter (hits_range s start end_)))
          (ld.diff (rest.filter (hits_range s start end_))) ∧
        s'.released = s.released ++ rest.filter (hits_range s start end_) ∧
        s'.invalidated = s.invalidated ++ rest.filter (hits_range s start end_) ∧
        (∀ e, e ∉ rest.filter (hits_range s start end_) → s'.info e = s.info e) ∧
        s'.stats = s.stats := by
  induction rest with
  | nil =>
    intro s ch la ld pre p fuel hk _ _ hp hf
    obtain ⟨f, rfl⟩ : ∃ f, fuel = f + 1 := ⟨fuel - 1, by simp at hf; omega⟩
    have hpn : p = none := hp
    subst hpn
    refine ⟨s, rfl, ?_, by simp, by simp, by simp, rfl⟩
    simpa using hk
  | cons q rest ih =>
    intro s ch la ld pre p fuel hk hsub hla hp hf
    obtain ⟨f, rfl⟩ : ∃ f, fuel = f + 1 := ⟨fuel - 1, by omega⟩
    have hf' : rest.length < f := by simp at hf; omega
    obtain ⟨hpq, hrest⟩ := hp
    subst hpq
    have hnda : la.Nodup := IsChain.nodup hk.act.isChain
    have hnd : (pre ++ q :: rest).Nodup := hla ▸ hnda
    have hqa : q ∈ la := by rw [hla]; simp
    have hqr : q ∉ rest := by
      have := (List.nodup_append.1 hnd).2.1
      exact (List.nodup_cons.1 this).1
    have hqpre : q ∉ pre := fun hx =>
      (List.nodup_append.1 hnd).2.2 hx (List.mem_cons_self _ _)
    by_cases hh : hits_range s start end_ q = true
    · obtain ⟨i0, hi0, hq⟩ := hsub q hqa
      obtain ⟨hk1, hrel, hinv, hinfo, hst, _, hnxf⟩ :=
        clear_range_drop_links hk hi0 hq (Or.inl hqa)
      have hla1 : la.erase q = pre ++ rest := by
        rw [hla, List.erase_append_right _ hqpre, List.erase_cons_head]
      have hsub1 : ∀ e ∈ la.erase q, ∃ i, i < HASH_SIZE ∧ e ∈ (fun j => (ch j).erase q) i := by
        intro e he
        have hee := (List.Nodup.mem_erase_iff hnda).1 he
        obtain ⟨i, hi, hei⟩ := hsub e hee.2
        exact ⟨i, hi, (List.mem_erase_of_ne hee.1).2 hei⟩
      have hrest1 : IsChain (clear_range_drop s q).next (s.next q) rest := by
        refine IsChain.agree hrest ?_
        intro a ha
        apply hnxf
        have hl : Linked s.next s.prev_p Slot.next Slot.active s.active (pre ++ q :: rest) :=
          hla ▸ hk.act
        rcases Linked.pv_split pre hl with h1 | ⟨p, hp, h1⟩
        · rw [h1]; simp
        · rw [h1]; intro hx
          have hpa : p = a := next_injective (Option.some.inj hx)
          subst hpa
          exact (List.nodup_append.1 hnd).2.2 hp (List.mem_cons_of_mem _ ha)
      obtain ⟨s', h1, h2, h3, h4, h5, h6⟩ :=
        ih (clear_range_drop s q) _ _ _ pre (s.next q) f hk1 hsub1 hla1 hrest1 hf'
      have hD : rest.filter (hits_range (clear_range_drop s q) start end_) =
          rest.filter (hits_range s start end_) :=
        filter_hits_congr start end_ (fun e he => hinfo e (fun hx => hqr (hx ▸ he)))
      rw [hD] at h2 h3 h4 h5
      have hDq : (q :: rest).filter (hits_range s start end_) =
          q :: rest.filter (hits_range s start end_) := by
        simp [List.filter_cons, hh]
      rw [hDq]
      refine ⟨s', ?_, ?_, ?_, ?_, ?_, ?_⟩
      · have hh' : block_info.intersect (s.info q) start end_ = true := hh
        simp only [clear_range_pool_tested, hh', if_true, h1]
      · simpa [List.diff_cons] using h2
      · rw [h3, hrel]; simp
      · rw [h4, hinv]; simp
      · intro e he
        have he1 : e ≠ q := fun hx => he (by simp [hx])
        have he2 : e ∉ rest.filter (hits_range s start end_) :=
          fun hx => he (List.mem_cons_of_mem _ hx)
        rw [h5 e he2, hinfo e he1]
      · rw [h6, hst]
    · have hla1 : la = (pre ++ [q]) ++ rest := by rw [hla]; simp
      obtain ⟨s', h1, h2, h3, h4, h5, h6⟩ :=
        ih s ch la ld (pre ++ [q]) (s.next q) f hk hsub hla1 hrest hf'
      have hDq : (q :: rest).filter (hits_range s start end_) =
          rest.filter (hits_range s start end_) := by
        simp [List.filter_cons, hh]
      rw [hDq]
      refine ⟨s', ?_, h2, h3, h4, h5, h6⟩
      have hh' : ¬ block_info.intersect (s.info q) start end_ = true := hh
      simp only [clear_range_pool_tested, hh', Bool.false_eq_true, if_false, h1]

/-- The inner loop of the bucket branch on a consistently linked cache in which the
entries of bucket `i` are all linked in pool lists, started at the pointer `p` heading
the rest `rest` of bucket `i`: it returns, and it has destroyed exactly the entries of
`rest` that intersect the range. -/
theorem clear_range_line_links [block_info β] (start end_ i : Nat) (hi : i < HASH_SIZE)
    (rest : List Nat) :
    ∀ (s : block_cache β) (ch : Nat → List Nat) (la ld pre : List Nat) (p : Option Nat)
      (fuel : Nat), Links s ch la ld → (∀ e ∈ ch i, e ∈ la ∨ e ∈ ld) →
      ch i = pre ++ rest → IsChain s.next_same_cl p rest → rest.length < fuel →
      ∃ s', clear_range_line start end_ fuel s p = some s' ∧
        Links s' (fun j => (ch j).diff (rest.filter (hits_range s start end_)))
          (la.diff (rest.filter (hits_range s start end_)))
          (ld.diff (rest.filter (hits_range s start end_))) ∧
        s'.released = s.released ++ rest.filter (hits_range s start end_) ∧
        s'.invalidated = s.invalidated ++ rest.filter (hits_range s start end_) ∧
        (∀ e, e ∉ rest.filter (hits_range s start end_) → s'.info e = s.info e) ∧
        s'.stats = s.stats := by
  induction rest with
  | nil =>
    intro s ch la ld pre p fuel hk _ _ hp hf
    obtain ⟨f, rfl⟩ : ∃ f, fuel = f + 1 := ⟨fuel - 1, by simp at hf; omega⟩
    have hpn : p = none := hp
    subst hpn
    refine ⟨s, by simp [clear_range_line], ?_, by simp, by simp, by simp, rfl⟩
    simpa using hk
  | cons q rest ih =>
    intro s ch la ld pre p fuel hk hin hch hp hf
    obtain ⟨f, rfl⟩ : ∃ f, fuel = f + 1 := ⟨fuel - 1, by omega⟩
    have hf' : rest.length < f := by simp at hf; omega
    obtain ⟨hpq, hrest⟩ := hp
    subst hpq
    have hndi : (ch i).Nodup := hk.nodup_chain hi
    have hnd : (pre ++ q :: rest).Nodup := hch ▸ hndi
    have hqi : q ∈ ch i := by rw [hch]; simp
    have hqr : q ∉ rest := by
      have := (List.nodup_append.1 hnd).2.1
      exact (List.nodup_cons.1 this).1
    have hqpre : q ∉ pre := fun hx =>
      (List.nodup_append.1 hnd).2.2 hx (List.mem_cons_self _ _)
    by_cases hh : hits_range s start end_ q = true
    · obtain ⟨hk1, hrel, hinv, hinfo, hst, hnxf, _⟩ :=
        clear_range_drop_links hk hi hqi (hin q hqi)
      have hch1 : (fun j => (ch j).erase q) i = pre ++ rest := by
        show (ch i).erase q = pre ++ rest
        rw [hch, List.erase_append_right _ hqpre, List.erase_cons_head]
      have hin1 : ∀ e ∈ (fun j => (ch j).erase q) i, e ∈ la.erase q ∨ e ∈ ld.erase q := by
        intro e he
        have hee := (List.Nodup.mem_erase_iff hndi).1 he
        rcases hin e hee.2 with h | h
        · exact Or.inl ((List.mem_erase_of_ne hee.1).2 h)
        · exact Or.inr ((List.mem_erase_of_ne hee.1).2 h)
      have hrest1 : IsChain (clear_range_drop s q).next_same_cl (s.next_same_cl q) rest := by
        refine IsChain.agree hrest ?_
        intro a ha
        apply hnxf
        have hl : Linked s.next_same_cl s.prev_same_cl_p Slot.next_same_cl (Slot.tag i)
            (s.cache_tags i) (pre ++ q :: rest) := hch ▸ hk.buckets i hi
        rcases Linked.pv_split pre hl with h1 | ⟨p, hp, h1⟩
        · rw [h1]; simp
        · rw [h1]; intro hx
          have hpa : p = a := next_same_cl_injective (Option.some.inj hx)
          subst hpa
          exact (List.nodup_append.1 hnd).2.2 hp (List.mem_cons_of_mem _ ha)
      obtain ⟨s', h1, h2, h3, h4, h5, h6⟩ :=
        ih (clear_range_drop s q) _ _ _ pre (s.next_same_cl q) f hk1 hin1 hch1 hrest1 hf'
      have hD : rest.filter (hits_range (clear_range_drop s q) start end_) =
          rest.filter (hits_range s start end_) :=
        filter_hits_congr start end_ (fun e he => hinfo e (fun hx => hqr (hx ▸ he)))
      rw [hD] at h2 h3 h4 h5
      have hDq : (q :: rest).filter (hits_range s start end_) =
          q :: rest.filter (hits_range s start end_) := by
        simp [List.filter_cons, hh]
      rw [hDq]
      refine ⟨s', ?_, ?_, ?_, ?_, ?_, ?_⟩
      · have hh' : block_info.intersect (s.info q) start end_ = true := hh
        simp only [clear_range_line, hh', if_true]
        exact h1
      · simpa [List.diff_cons] using h2
      · rw [h3, hrel]; simp
      · rw [h4, hinv]; simp
      · intro e he
        have he1 : e ≠ q := fun hx => he (by simp [hx])
        have he2 : e ∉ rest.filter (hits_range s start end_) :=
          fun hx => he (List.mem_cons_of_mem _ hx)
        rw [h5 e he2, hinfo e he1]
      · rw [h6, hst]
    · have hch1 : ch i = (pre ++ [q]) ++ rest := by rw [hch]; simp
      obtain ⟨s', h1, h2, h3, h4, h5, h6⟩ :=
        ih s ch la ld (pre ++ [q]) (s.next_same_cl q) f hk hin hch1 hrest hf'
      have hDq : (q :: rest).filter (hits_range s start end_) =
          rest.filter (hits_range s start end_) := by
        simp [List.filter_cons, hh]
      rw [hDq]
      refine ⟨s', ?_, h2, h3, h4, h5, h6⟩
      have hh' : ¬ block_info.intersect (s.info q) start end_ = true := hh
      simp only [clear_range_line, hh', if_false]
      exact h1

end BlockCache

namespace BlockCache

variable {β : Type}

/-- The `for` loop of the bucket branch over the buckets `cls`, on a consistently linked
cache in which the entries of those buckets are all linked in pool lists: it returns, and
the entries it has destroyed all intersect the range. -/
theorem clear_range_lines_links [block_info β] (start end_ fuel : Nat) (cls : List Nat) :
    ∀ (s : block_cache β) (ch : Nat → List Nat) (la ld : List Nat), Links s ch la ld →
      (∀ cl ∈ cls, cl < HASH_SIZE) → (∀ cl ∈ cls, ∀ e ∈ ch cl, e ∈ la ∨ e ∈ ld) →
      (∀ j, j < HASH_SIZE → (ch j).length < fuel) →
      ∃ s' D, clear_range_lines start end_ fuel cls s = some s' ∧
        Links s' (fun j => (ch j).diff D) (la.diff D) (ld.diff D) ∧
        s'.released = s.released ++ D ∧ s'.invalidated = s.invalidated ++ D ∧
        (∀ e, e ∉ D → s'.info e = s.info e) ∧ s'.stats = s.stats ∧
        (∀ e ∈ D, hits_range s start end_ e = true ∧ ∃ cl ∈ cls, e ∈ ch cl) := by
  induction cls with
  | nil =>
    intro s ch la ld hk _ _ _
    refine ⟨s, [], rfl, by simpa using hk, by simp, by simp, by simp, rfl, by simp⟩
  | cons cl cls ih =>
    intro s ch la ld hk hcls hin hlen
    have hcl : cl < HASH_SIZE := hcls cl (List.mem_cons_self _ _)
    have hnda : la.Nodup := IsChain.nodup hk.act.isChain
    have hndd : ld.Nodup := IsChain.nodup hk.dor.isChain
    obtain ⟨s1, h1, hk1, hrel1, hinv1, hinfo1, hst1⟩ :=
      clear_range_line_links start end_ cl hcl (ch cl) s ch la ld [] (s.cache_tags cl) fuel hk
        (hin cl (List.mem_cons_self _ _)) (by simp) (hk.buckets cl hcl).isChain (hlen cl hcl)
    have hlen1 : ∀ j, j < HASH_SIZE →
        ((ch j).diff ((ch cl).filter (hits_range s start end_))).length < fuel := by
      intro j hj
      exact lt_of_le_of_lt (List.diff_sublist _ _).length_le (hlen j hj)
    have hin1 : ∀ c ∈ cls, ∀ e ∈ (ch c).diff ((ch cl).filter (hits_range s start end_)),
        e ∈ la.diff ((ch cl).filter (hits_range s start end_)) ∨
        e ∈ ld.diff ((ch cl).filter (hits_range s start end_)) := by
      intro c hc e he
      have hcc : c < HASH_SIZE := hcls c (List.mem_cons_of_mem _ hc)
      have hee := (List.Nodup.mem_diff_iff (hk.nodup_chain hcc)).1 he
      rcases hin c (List.mem_cons_of_mem _ hc) e hee.1 with h | h
      · exact Or.inl ((List.Nodup.mem_diff_iff hnda).2 ⟨h, hee.2⟩)
      · exact Or.inr ((List.Nodup.mem_diff_iff hndd).2 ⟨h, hee.2⟩)
    obtain ⟨s', D2, h2, hk2, hrel2, hinv2, hinfo2, hst2, hD2⟩ :=
      ih s1 _ _ _ hk1 (fun c hc => hcls c (List.mem_cons_of_mem _ hc)) hin1 hlen1
    refine ⟨s', (ch cl).filter (hits_range s start end_) ++ D2, ?_, ?_, ?_, ?_, ?_, ?_, ?_⟩
    · simp only [clear_range_lines, h1]
      exact h2
    · simpa [List.diff_append] using hk2
    · rw [hrel2, hrel1]; simp
    · rw [hinv2, hinv1]; simp
    · intro e he
      have he1 : e ∉ (ch cl).filter (hits_range s start end_) :=
        fun hx => he (List.mem_append_left _ hx)
      have he2 : e ∉ D2 := fun hx => he (List.mem_append_right _ hx)
      rw [hinfo2 e he2, hinfo1 e he1]
    · rw [hst2, hst1]
    · intro e he
      rcases List.mem_append.1 he with he | he
      · obtain ⟨hm, hh⟩ := List.mem_filter.1 he
        exact ⟨hh, cl, List.mem_cons_self _ _, hm⟩
      · obtain ⟨hh, c, hc, hm⟩ := hD2 e he
        have hcc : c < HASH_SIZE := hcls c (List.mem_cons_of_mem _ hc)
        have hm' := (List.Nodup.mem_diff_iff (hk.nodup_chain hcc)).1 hm
        refine ⟨?_, c, List.mem_cons_of_mem _ hc, hm'.1⟩
        have : hits_range s1 start end_ e = hits_range s start end_ e := by
          simp [hits_range, hinfo1 e hm'.2]
        rw [← this]; exact hh

/-- What `clear_range` does to a consistently linked cache in which the entries linked in
bucket chains are those linked in pool lists: it returns, having destroyed a list `D` of
entries that all intersect the range; every list of the cache loses the entries of `D`
and nothing else. -/
theorem clear_range_links [block_info β] (W : Nat) {s : block_cache β}
    {ch : Nat → List Nat} {la ld : List Nat} (hk : Links s ch la ld)
    (hboth : ∀ e, (∃ i, i < HASH_SIZE ∧ e ∈ ch i) ↔ (e ∈ la ∨ e ∈ ld))
    (start end_ fuel : Nat) (hf : la.length < fuel)
    (hlen : ∀ j, j < HASH_SIZE → (ch j).length < fuel) :
    ∃ s' D, clear_range W fuel s start end_ = some s' ∧
      Links s' (fun j => (ch j).diff D) (la.diff D) (ld.diff D) ∧
      s'.released = s.released ++ D ∧ s'.invalidated = s.invalidated ++ D ∧
      (∀ e, e ∉ D → s'.info e = s.info e) ∧ s'.stats = s.stats ∧
      (∀ e ∈ D, hits_range s start end_ e = true) := by
  unfold clear_range
  cases hact : s.active with
  | none =>
    exact ⟨s, [], rfl, by simpa using hk, by simp, by simp, by simp, rfl, by simp⟩
  | some a =>
    simp only
    by_cases hc : cacheline start < cacheline (uintptr_pred W end_)
    · rw [if_pos hc]
      obtain ⟨s', D, h1, h2, h3, h4, h5, h6, h7⟩ :=
        clear_range_lines_links start end_ fuel
          (List.range' (cacheline start)
            (cacheline (uintptr_pred W end_) + 1 - cacheline start)) s ch la ld hk
          (by
            intro cl hcl
            have := cacheline_lt (uintptr_pred W end_)
            rw [List.mem_range'_1] at hcl
            omega)
          (by
            intro cl hcl e he
            have := cacheline_lt (uintptr_pred W end_)
            rw [List.mem_range'_1] at hcl
            exact (hboth e).1 ⟨cl, by omega, he⟩)
          hlen
      exact ⟨s', D, h1, h2, h3, h4, h5, h6, fun e he => (h7 e he).1⟩
    · rw [if_neg hc]
      obtain ⟨s', h1, h2, h3, h4, h5, h6⟩ :=
        clear_range_pool_links start end_ la s ch la ld [] (some a) fuel hk
          (fun e he => (hboth e).2 (Or.inl he)) (by simp)
          (hact ▸ hk.act.isChain) hf
      have k := clear_range_pool_tested_fst start end_ fuel s (some a)
      rw [h1] at k
      exact ⟨s', _, k.symm, h2, h3, h4, h5, h6, fun e he => (List.mem_filter.1 he).2⟩

/-- Destroying the entries of `D` everywhere keeps the entries of the bucket chains those
of the pool lists. -/
theorem resident_after_diff {s s' : block_cache β} {ch : Nat → List Nat} {la ld D : List Nat}
    (hk : Links s ch la ld) (hk' : Links s' (fun j => (ch j).diff D) (la.diff D) (ld.diff D))
    (hres : resident_in_both s) : resident_in_both s' := by
  intro e
  rw [hk'.in_bucket_iff, hk'.in_pool_iff,
    List.Nodup.mem_diff_iff (IsChain.nodup hk.act.isChain),
    List.Nodup.mem_diff_iff (IsChain.nodup hk.dor.isChain)]
  have h := hres e
  rw [hk.in_bucket_iff, hk.in_pool_iff] at h
  constructor
  · rintro ⟨i, hi, he⟩
    have hee := (List.Nodup.mem_diff_iff (hk.nodup_chain hi)).1 he
    rcases h.1 ⟨i, hi, hee.1⟩ with hp | hp
    · exact Or.inl ⟨hp, hee.2⟩
    · exact Or.inr ⟨hp, hee.2⟩
  · intro hp
    have hD : e ∉ D := by
      rcases hp with hp | hp
      · exact hp.2
      · exact hp.2
    have hp' : e ∈ la ∨ e ∈ ld := by
      rcases hp with hp | hp
      · exact Or.inl hp.1
      · exact Or.inr hp.1
    obtain ⟨i, hi, he⟩ := h.2 hp'
    exact ⟨i, hi, (List.Nodup.mem_diff_iff (hk.nodup_chain hi)).2 ⟨he, hD⟩⟩

theorem cache_stale_reachable (guard : block_cache range_block → Prop) :
    Reachable guard 32 cache_stale := by
  have c0 := construct_members (blank_memory heap_ranges)
  have r0 : Reachable guard 32 (block_cache.construct (blank_memory heap_ranges)) :=
    Reachable.created _
  have m1 := add_to_cl_list_members c0.1 (c0.2.1 3)
  have r1 := Reachable.linked_cl 3 r0 (c0.2.1 3)
  have hn1 : ¬ in_pool (add_to_cl_list (block_cache.construct (blank_memory heap_ranges)) 3) 3 :=
    fun h => c0.2.2 3 ((m1.2.2 3).1 h)
  have m2 := add_to_active_list_members m1.1 hn1
  have r2 := Reachable.linked_active 3 r1 hn1
  have hin2 : in_pool (add_to_active_list
      (add_to_cl_list (block_cache.construct (blank_memory heap_ranges)) 3) 3) 3 :=
    (m2.2.2 3).2 (Or.inl rfl)
  have m3 := remove_from_list_members m2.1 hin2
  have r3 := Reachable.unlinked_pool 3 r2 hin2
  have hn3 : ¬ in_bucket (remove_from_list (add_to_active_list
      (add_to_cl_list (block_cache.construct (blank_memory heap_ranges)) 3) 3) 3) 1 := by
    intro h
    rcases (m1.2.1 1).1 ((m2.2.1 1).1 ((m3.2.1 1).1 h)) with h | h
    · exact absurd h (by decide)
    · exact c0.2.1 1 h
  have m4 := add_to_cl_list_members m3.1 hn3
  have r4 := Reachable.linked_cl 1 r3 hn3
  have hn4 : ¬ in_pool (add_to_cl_list (remove_from_list (add_to_active_list
      (add_to_cl_list (block_cache.construct (blank_memory heap_ranges)) 3) 3) 3) 1) 1 := by
    intro h
    have h3 := ((m3.2.2 1).1 ((m4.2.2 1).1 h)).2
    rcases (m2.2.2 1).1 h3 with h | h
    · exact absurd h (by decide)
    · exact c0.2.2 1 ((m1.2.2 1).1 h)
  exact Reachable.linked_active 1 r4 hn4

/-- C7 as stated fails.  `cache_stale` is reached from the constructor by list operations
alone, each used on an entry that is not yet, resp. is, linked in the role concerned; it
is consistently linked and every chained entry hashes to its bucket.  Block 3 sits in a
bucket chain but in no pool list, with the pool links `remove_from_list` left in it.
Block 1 is resident (bucket `cacheline(0)`, active list) and does not intersect
`[25, 45)`.  `clear_range(25, 45)` destroys block 3, and its `remove_from_list` writes
`NULL` through the stale `prev_p` into `active`: afterwards block 1 is in no pool list
any more. -/
theorem clear_range_sound_counterexample :
    Reachable (fun _ => False) 32 cache_stale ∧ links_ok cache_stale ∧
    placement_ok cache_stale ∧
    bucket_chain cache_stale (cacheline 40) [3] ∧ bucket_chain cache_stale (cacheline 0) [1] ∧
    active_list cache_stale [1] ∧ dormant_list cache_stale [] ∧
    cache_stale.prev_p 3 = some Slot.active ∧ cache_stale.next 3 = none ∧
    hits_range cache_stale 25 45 1 = false ∧ hits_range cache_stale 25 45 3 = true ∧
    ∃ s', clear_range 32 4 cache_stale 25 45 = some s' ∧ s'.released = [3] ∧
      active_list s' [] ∧ dormant_list s' [] ∧ ¬ in_pool s' 1 ∧
      bucket_chain s' (cacheline 0) [1] := by
  obtain ⟨ch, la, ld, hk, hp⟩ := reachable_placed (cache_stale_reachable resident_in_both)
  refine ⟨cache_stale_reachable _, ⟨ch, la, ld, hk⟩, placement_of_links hk hp,
    ⟨rfl, rfl⟩, ⟨rfl, rfl⟩, ⟨rfl, rfl⟩, rfl, rfl, rfl, rfl, rfl,
    _, rfl, rfl, rfl, rfl, ?_, ⟨rfl, rfl⟩⟩
  intro h
  have ha : active_list (clear_range_drop cache_stale 3) [] := rfl
  have hd : dormant_list (clear_range_drop cache_stale 3) [] := rfl
  have := (in_pool_lists ha hd 1).1 h
  simp at this

end BlockCache

namespace BlockCache

variable {β : Type}

/-- C7, amended.  On a consistently linked cache in which the entries linked in bucket
chains are exactly the entries linked in pool lists, `clear_range(start, end)` returns
(for any fuel above a bound); there is a list `D` of entries, all of which satisfy
`intersect(start, end)`, such that exactly the entries of `D` are invalidated and
released, and every bucket chain, the active list and the dormant list are afterwards what
they were before with the entries of `D` taken out, in unchanged order.  So nothing that
fails `intersect(start, end)` is invalidated, unlinked or released, in either branch, and
such an entry stays in its bucket chain and its pool; the payload of every entry outside
`D` is untouched, the cache is again consistently linked and the entries of its bucket
chains are again those of its pool lists. -/
theorem clear_range_sound [block_info β] (W : Nat) (s : block_cache β)
    (hwf : links_ok s) (hres : resident_in_both s) (start end_ : Nat) :
    ∃ n, ∀ fuel, n ≤ fuel → ∃ s' D, clear_range W fuel s start end_ = some s' ∧
      s'.released = s.released ++ D ∧ s'.invalidated = s.invalidated ++ D ∧
      (∀ e ∈ D, hits_range s start end_ e = true) ∧
      (∀ i l, i < HASH_SIZE → bucket_chain s i l →
        bucket_chain s' i (l.filter (fun e => decide (e ∉ D)))) ∧
      (∀ l, active_list s l → active_list s' (l.filter (fun e => decide (e ∉ D)))) ∧
      (∀ l, dormant_list s l → dormant_list s' (l.filter (fun e => decide (e ∉ D)))) ∧
      (∀ e, e ∉ D → s'.info e = s.info e) ∧ links_ok s' ∧ resident_in_both s' := by
  obtain ⟨ch, la, ld, hk⟩ := hwf
  obtain ⟨nb, hnb⟩ := exists_length_bound ch HASH_SIZE
  have hboth : ∀ e, (∃ i, i < HASH_SIZE ∧ e ∈ ch i) ↔ (e ∈ la ∨ e ∈ ld) := by
    intro e
    rw [← hk.in_bucket_iff, ← hk.in_pool_iff]
    exact hres e
  refine ⟨max (la.length + 1) nb, ?_⟩
  intro fuel hf
  obtain ⟨s', D, h1, h2, h3, h4, h5, _, h7⟩ :=
    clear_range_links W hk hboth start end_ fuel
      (lt_of_lt_of_le (Nat.lt_succ_self _) (le_trans (Nat.le_max_left _ _) hf))
      (fun j hj => lt_of_lt_of_le (hnb j hj) (le_trans (Nat.le_max_right _ _) hf))
  refine ⟨s', D, h1, h3, h4, h7, ?_, ?_, ?_, h5, ⟨_, _, _, h2⟩,
    resident_after_diff hk h2 hres⟩
  · intro i l hi hl
    rw [IsChain.functional hl (hk.buckets i hi).isChain,
      ← List.Nodup.diff_eq_filter (hk.nodup_chain hi)]
    exact (h2.buckets i hi).isChain
  · intro l hl
    rw [IsChain.functional hl hk.act.isChain,
      ← List.Nodup.diff_eq_filter (IsChain.nodup hk.act.isChain)]
    exact h2.act.isChain
  · intro l hl
    rw [IsChain.functional hl hk.dor.isChain,
      ← List.Nodup.diff_eq_filter (IsChain.nodup hk.dor.isChain)]
    exact h2.dor.isChain

theorem clear_range_sound_witness :
    links_ok cache_abc ∧ resident_in_both cache_abc ∧
    ∃ n, ∀ fuel, n ≤ fuel → ∃ s' D, clear_range 32 fuel cache_abc 12 131084 = some s' ∧
      s'.released = cache_abc.released ++ D ∧ s'.invalidated = cache_abc.invalidated ++ D ∧
      (∀ e ∈ D, hits_range cache_abc 12 131084 e = true) ∧
      (∀ i l, i < HASH_SIZE → bucket_chain cache_abc i l →
        bucket_chain s' i (l.filter (fun e => decide (e ∉ D)))) ∧
      (∀ l, active_list cache_abc l → active_list s' (l.filter (fun e => decide (e ∉ D)))) ∧
      (∀ l, dormant_list cache_abc l →
        dormant_list s' (l.filter (fun e => decide (e ∉ D)))) ∧
      (∀ e, e ∉ D → s'.info e = cache_abc.info e) ∧ links_ok s' ∧ resident_in_both s' :=
  ⟨cache_abc_well_formed.links_ok, cache_abc_well_formed.resident,
    clear_range_sound 32 cache_abc cache_abc_well_formed.links_ok
      cache_abc_well_formed.resident 12 131084⟩

/-! ## The active-list branch of `clear_range`, on consistently linked caches -/

theorem cache_orphan_reachable (guard : block_cache range_block → Prop) :
    Reachable guard 32 cache_orphan ∧ ¬ in_bucket cache_orphan 2 := by
  have c0 := construct_members (blank_memory heap_abc)
  have r0 : Reachable guard 32 (block_cache.construct (blank_memory heap_abc)) :=
    Reachable.created _
  have m1 := add_to_cl_list_members c0.1 (c0.2.1 1)
  have r1 := Reachable.linked_cl 1 r0 (c0.2.1 1)
  have hn1 : ¬ in_bucket (add_to_cl_list (block_cache.construct (blank_memory heap_abc)) 1) 2 := by
    intro h
    rcases (m1.2.1 2).1 h with h | h
    · exact absurd h (by decide)
    · exact c0.2.1 2 h
  have m2 := add_to_cl_list_members m1.1 hn1
  have r2 := Reachable.linked_cl 2 r1 hn1
  have hn2 : ¬ in_pool (add_to_cl_list (add_to_cl_list
      (block_cache.construct (blank_memory heap_abc)) 1) 2) 2 :=
    fun h => c0.2.2 2 ((m1.2.2 2).1 ((m2.2.2 2).1 h))
  have m3 := add_to_active_list_members m2.1 hn2
  have r3 := Reachable.linked_active 2 r2 hn2
  have hn3 : ¬ in_pool (add_to_active_list (add_to_cl_list (add_to_cl_list
      (block_cache.construct (blank_memory heap_abc)) 1) 2) 2) 1 := by
    intro h
    rcases (m3.2.2 1).1 h with h | h
    · exact absurd h (by decide)
    · exact c0.2.2 1 ((m1.2.2 1).1 ((m2.2.2 1).1 h))
  have m4 := add_to_active_list_members m3.1 hn3
  have r4 := Reachable.linked_active 1 r3 hn3
  have hin4 : in_bucket (add_to_active_list (add_to_active_list (add_to_cl_list
      (add_to_cl_list (block_cache.construct (blank_memory heap_abc)) 1) 2) 2) 1) 2 :=
    (m4.2.1 2).2 ((m3.2.1 2).2 ((m2.2.1 2).2 (Or.inl rfl)))
  have m5 := remove_from_cl_list_members m4.1 hin4
  exact ⟨Reachable.unlinked_cl 2 r4 hin4, fun h => ((m5.2.1 2).1 h).1 rfl⟩

/-- C18 as stated fails.  `cache_orphan` is reached from the constructor by list
operations alone, each used on an entry that is not yet, resp. is, linked in the role
concerned; it is consistently linked and every chained entry hashes to its bucket.  Its
active list is 1, 2; block 1 is the chain of bucket `cacheline(8)`, and block 2 is in no
bucket chain, with the bucket links `remove_from_cl_list` left in it.  Both blocks
intersect `[12, 131084)`, a range that takes the active-list branch.  `clear_range`
destroys block 1 and then block 2, whose `remove_from_cl_list` stores block 1 through the
stale `prev_same_cl_p` into the bucket head: afterwards the released block 1 is the head
and the chain of bucket `cacheline(8)`, and `fast_find(8)` returns it. -/
theorem clear_range_fallback_counterexample :
    Reachable (fun _ => False) 32 cache_orphan ∧ links_ok cache_orphan ∧
    placement_ok cache_orphan ∧ cache_orphan.active ≠ none ∧
    ¬ cacheline 12 < cacheline (uintptr_pred 32 131084) ∧
    active_list cache_orphan [1, 2] ∧ dormant_list cache_orphan [] ∧
    bucket_chain cache_orphan (cacheline 8) [1] ∧ ¬ in_bucket cache_orphan 2 ∧
    cache_orphan.prev_same_cl_p 2 = some (Slot.tag (cacheline 8)) ∧
    cache_orphan.next_same_cl 2 = some 1 ∧
    hits_range cache_orphan 12 131084 1 = true ∧
    hits_range cache_orphan 12 131084 2 = true ∧
    ∃ s', clear_range 32 4 cache_orphan 12 131084 = some s' ∧ s'.released = [1, 2] ∧
      s'.invalidated = [1, 2] ∧ active_list s' [] ∧
      s'.cache_tags (cacheline 8) = some 1 ∧ bucket_chain s' (cacheline 8) [1] ∧
      in_bucket s' 1 ∧ (fast_find s' 8).2 = some 1 := by
  obtain ⟨ch, la, ld, hk, hp⟩ :=
    reachable_placed (cache_orphan_reachable resident_in_both).1
  refine ⟨(cache_orphan_reachable _).1, ⟨ch, la, ld, hk⟩, placement_of_links hk hp,
    by decide, by decide, ⟨rfl, rfl, rfl⟩, rfl, ⟨rfl, rfl⟩,
    (cache_orphan_reachable resident_in_both).2,
    rfl, rfl, rfl, rfl,
    _, rfl, rfl, rfl, rfl, rfl, ⟨rfl, rfl⟩, ⟨cacheline 8, cacheline_lt 8, [1], ⟨rfl, rfl⟩, ?_⟩,
    rfl⟩
  simp

/-- C18, amended.  On a consistently linked cache in which every entry of the active list
is linked in a bucket chain, with a non-empty active pool, for a range with
`cacheline(start) >= cacheline(end - 1)`, `clear_range(start, end)` returns for any fuel
above a bound; it calls `intersect(start, end)` on the entries of the active list, each
once and in list order, and on no other entry.  Afterwards the active list is the previous
active list without the intersecting entries, in unchanged order; the intersecting
entries of the active list are what has been invalidated and what has been released, each
once; none of them is in a bucket chain or a pool list any more; every bucket chain has
lost exactly those entries, the dormant list is unchanged, the payload of every other
entry is unchanged and the cache is again consistently linked, with every entry of the
active list linked in a bucket chain. -/
theorem clear_range_fallback [block_info β] (W : Nat) (s : block_cache β)
    (hwf : links_ok s) (hres : ∀ l, active_list s l → ∀ e ∈ l, in_bucket s e)
    (hact : s.active ≠ none) (start end_ : Nat)
    (hc : ¬ cacheline start < cacheline (uintptr_pred W end_)) :
    ∃ la, active_list s la ∧ ∃ n, ∀ fuel, n ≤ fuel →
      ∃ s', clear_range W fuel s start end_ = some s' ∧
        clear_range_pool_tested start end_ fuel s s.active = some (s', la) ∧
        active_list s' (la.filter (fun e => !hits_range s start end_ e)) ∧
        s'.invalidated = s.invalidated ++ la.filter (hits_range s start end_) ∧
        s'.released = s.released ++ la.filter (hits_range s start end_) ∧
        (la.filter (hits_range s start end_)).Nodup ∧
        (∀ e ∈ la.filter (hits_range s start end_), ¬ in_bucket s' e ∧ ¬ in_pool s' e) ∧
        (∀ i l, i < HASH_SIZE → bucket_chain s i l →
          bucket_chain s' i
            (l.filter (fun e => decide (e ∉ la.filter (hits_range s start end_))))) ∧
        (∀ l, dormant_list s l → dormant_list s' l) ∧
        (∀ e, e ∉ la.filter (hits_range s start end_) → s'.info e = s.info e) ∧
        links_ok s' ∧ (∀ l, active_list s' l → ∀ e ∈ l, in_bucket s' e) := by
  obtain ⟨ch, la, ld, hk⟩ := hwf
  have hnda : la.Nodup := IsChain.nodup hk.act.isChain
  have hndd : ld.Nodup := IsChain.nodup hk.dor.isChain
  have hsub : ∀ e ∈ la, ∃ i, i < HASH_SIZE ∧ e ∈ ch i :=
    fun e he => (hk.in_bucket_iff e).1 (hres la hk.act.isChain e he)
  refine ⟨la, hk.act.isChain, la.length + 1, ?_⟩
  intro fuel hf
  obtain ⟨a, ha⟩ : ∃ a, s.active = some a := by
    cases h : s.active with
    | none => exact absurd h hact
    | some a => exact ⟨a, rfl⟩
  obtain ⟨s', k1, h2, h3, h4, h5, _⟩ :=
    clear_range_pool_links start end_ la s ch la ld [] s.active fuel hk hsub (by simp)
      hk.act.isChain (by omega)
  have h1 : clear_range_pool start end_ fuel s s.active = some s' := by
    rw [← clear_range_pool_tested_fst, k1]
    rfl
  have hD : ∀ e ∈ la.filter (hits_range s start end_), e ∈ la :=
    fun e he => (List.mem_filter.1 he).1
  have hcr : clear_range W fuel s start end_ = some s' := by
    unfold clear_range
    rw [ha]
    simp only [hc, if_false]
    rw [← ha]
    exact h1
  refine ⟨s', hcr, k1, ?_, h4, h3, List.Nodup.filter _ hnda, ?_, ?_, ?_, h5,
    ⟨_, _, _, h2⟩, ?_⟩
  · have := h2.act.isChain
    rw [diff_filter_eq hnda] at this
    exact this
  · intro e he
    rw [h2.in_bucket_iff, h2.in_pool_iff]
    constructor
    · rintro ⟨i, hi, hx⟩
      exact ((List.Nodup.mem_diff_iff (hk.nodup_chain hi)).1 hx).2 he
    · rintro (hx | hx)
      · exact ((List.Nodup.mem_diff_iff hnda).1 hx).2 he
      · exact ((List.Nodup.mem_diff_iff hndd).1 hx).2 he
  · intro i l hi hl
    rw [IsChain.functional hl (hk.buckets i hi).isChain,
      ← List.Nodup.diff_eq_filter (hk.nodup_chain hi)]
    exact (h2.buckets i hi).isChain
  · intro l hl
    have := h2.dor.isChain
    rw [diff_disjoint_eq hndd
      (fun e he hx => hk.pools_apart e (hD e hx) he)] at this
    rw [IsChain.functional hl hk.dor.isChain]
    exact this
  · intro l hl e he
    rw [IsChain.functional hl h2.act.isChain] at he
    have hee := (List.Nodup.mem_diff_iff hnda).1 he
    obtain ⟨i, hi, hei⟩ := hsub e hee.1
    exact (h2.in_bucket_iff e).2
      ⟨i, hi, (List.Nodup.mem_diff_iff (hk.nodup_chain hi)).2 ⟨hei, hee.2⟩⟩

theorem clear_range_fallback_witness :
    links_ok cache_ranges ∧ (∀ l, active_list cache_ranges l → ∀ e ∈ l, in_bucket cache_ranges e) ∧
    cache_ranges.active ≠ none ∧
    ¬ cacheline 20 < cacheline (uintptr_pred 32 24) ∧
    active_list cache_ranges [3, 2, 1] ∧
    [3, 2, 1].filter (hits_range cache_ranges 20 24) = [2] ∧
    ∃ la, active_list cache_ranges la ∧ ∃ n, ∀ fuel, n ≤ fuel →
      ∃ s', clear_range 32 fuel cache_ranges 20 24 = some s' ∧
        clear_range_pool_tested 20 24 fuel cache_ranges cache_ranges.active =
          some (s', la) ∧
        active_list s' (la.filter (fun e => !hits_range cache_ranges 20 24 e)) ∧
        s'.released = cache_ranges.released ++ la.filter (hits_range cache_ranges 20 24) := by
  have hc : ¬ cacheline 20 < cacheline (uintptr_pred 32 24) := by decide
  have hres : ∀ l, active_list cache_ranges l → ∀ e ∈ l, in_bucket cache_ranges e :=
    fun l hl e he => (cache_ranges_well_formed.resident e).2 (Or.inl ⟨l, hl, he⟩)
  obtain ⟨la, h1, n, h2⟩ :=
    clear_range_fallback 32 cache_ranges cache_ranges_well_formed.links_ok hres
      (by decide) 20 24 hc
  refine ⟨cache_ranges_well_formed.links_ok, hres, by decide, hc, ⟨rfl, rfl, rfl, rfl⟩,
    by decide, la, h1, n, fun fuel hf => ?_⟩
  obtain ⟨s', k1, k2, k3, _, k5, _⟩ := h2 fuel hf
  exact ⟨s', k1, k2, k3, k5⟩

end BlockCache

namespace BlockCache

variable {β : Type}

/-! ## The hash index across `clear`, for every state -/

theorem cache_half_reachable (guard : block_cache range_block → Prop) :
    Reachable guard 32 cache_half ∧ in_bucket cache_half 1 ∧ in_pool cache_half 1 := by
  have c0 := construct_members (blank_memory heap_abc)
  have r0 : Reachable guard 32 (block_cache.construct (blank_memory heap_abc)) :=
    Reachable.created _
  have m1 := add_to_cl_list_members c0.1 (c0.2.1 1)
  have r1 := Reachable.linked_cl 1 r0 (c0.2.1 1)
  have hn1 : ¬ in_bucket (add_to_cl_list (block_cache.construct (blank_memory heap_abc)) 1) 2 := by
    intro h
    rcases (m1.2.1 2).1 h with h | h
    · exact absurd h (by decide)
    · exact c0.2.1 2 h
  have m2 := add_to_cl_list_members m1.1 hn1
  have r2 := Reachable.linked_cl 2 r1 hn1
  have hn2 : ¬ in_pool (add_to_cl_list (add_to_cl_list
      (block_cache.construct (blank_memory heap_abc)) 1) 2) 1 :=
    fun h => c0.2.2 1 ((m1.2.2 1).1 ((m2.2.2 1).1 h))
  have m3 := add_to_active_list_members m2.1 hn2
  exact ⟨Reachable.linked_active 1 r2 hn2,
    (m3.2.1 1).2 ((m2.2.1 1).2 (Or.inr ((m1.2.1 1).2 (Or.inl rfl)))),
    (m3.2.2 1).2 (Or.inl rfl)⟩

/-- C19 as stated fails.  `cache_half` is reached from the constructor by list operations
alone, each used on an entry not yet linked in the role concerned; it is consistently
linked and every chained entry hashes to its bucket.  Bucket `cacheline(8)` holds the
chain 2, 1 and the active list holds block 1 only, so block 1 is resident.  `clear()`
releases block 1 and leaves every bucket head as it was: the only non-`NULL` bucket head
is block 2, which has not been released, so no bucket head refers to a released entry. -/
theorem clear_keeps_index_counterexample :
    Reachable (fun _ => False) 32 cache_half ∧ links_ok cache_half ∧
    placement_ok cache_half ∧
    bucket_chain cache_half (cacheline 8) [2, 1] ∧ active_list cache_half [1] ∧
    dormant_list cache_half [] ∧ in_bucket cache_half 1 ∧ in_pool cache_half 1 ∧
    ∃ s', (∀ fuel, 2 ≤ fuel → clear fuel cache_half = some s') ∧ s'.released = [1] ∧
      s'.cache_tags = cache_half.cache_tags ∧
      s'.cache_tags (cacheline 8) = some 2 ∧
      ∀ i h, s'.cache_tags i = some h → h ∉ s'.released := by
  obtain ⟨ch, la, ld, hk, hp⟩ :=
    reachable_placed (cache_half_reachable resident_in_both).1
  have ha : active_list cache_half [1] := ⟨rfl, rfl⟩
  have hd : dormant_list cache_half [] := rfl
  have ht : cache_half.cache_tags =
      Function.update (Function.update (fun _ => none) 2 (some 1)) 2 (some 2) := rfl
  refine ⟨(cache_half_reachable _).1, ⟨ch, la, ld, hk⟩, placement_of_links hk hp,
    ⟨rfl, rfl, rfl⟩, ha, hd, (cache_half_reachable resident_in_both).2.1,
    (cache_half_reachable resident_in_both).2.2,
    { cache_half with
      active := none, dormant := none, released := cache_half.released ++ [1] ++ [] },
    ?_, rfl, rfl, rfl, ?_⟩
  · intro fuel hf
    exact clear_spec cache_half [1] [] ha hd fuel (by simpa using hf) (by simp; omega)
  · intro i h hh
    have hh' : cache_half.cache_tags i = some h := hh
    rw [ht] at hh'
    by_cases hi : i = 2
    · subst hi
      rw [Function.update_same] at hh'
      obtain rfl : 2 = h := Option.some.inj hh'
      decide
    · rw [Function.update_noteq hi, Function.update_noteq hi] at hh'
      cases hh'

/-- C19, amended.  `clear()` does not reset the hash index.  From every cache state,
whenever `clear()` returns, every bucket head `cache_tags[i]` has the value it had before;
so if some bucket head was not `NULL`, the bucket heads afterwards are not those of the
freshly initialized index (all `NULL`) and the state differs from what `initialize()`
would make of it.  When both pool lists reach `NULL`, `clear()` does return (for any fuel
above a bound), and every bucket head that was linked in a pool list still is the bucket
head afterwards and has been released.  There is such a bucket head when the cache is
consistently linked, the entries linked in bucket chains are those linked in pool lists,
and some entry is linked in a bucket chain. -/
theorem clear_keeps_index (s : block_cache β) :
    (∀ fuel s', clear fuel s = some s' →
      s'.cache_tags = s.cache_tags ∧
      ((∃ i, s.cache_tags i ≠ none) →
        (initialize_tags s').cache_tags = (fun _ => none) ∧
        s'.cache_tags ≠ (initialize_tags s').cache_tags ∧ s' ≠ initialize_tags s')) ∧
    (∀ la ld, active_list s la → dormant_list s ld → ∃ n, ∀ fuel, n ≤ fuel →
      ∃ s', clear fuel s = some s' ∧ s'.released = s.released ++ la ++ ld ∧
        ∀ i h, s.cache_tags i = some h → h ∈ la ∨ h ∈ ld →
          s'.cache_tags i = some h ∧ h ∈ s'.released) ∧
    (links_ok s → resident_in_both s → (∃ e, in_bucket s e) →
      ∃ i h, i < HASH_SIZE ∧ s.cache_tags i = some h ∧ in_pool s h) := by
  refine ⟨?_, ?_, ?_⟩
  · intro fuel s' h
    have ht := clear_tags fuel s s' h
    refine ⟨ht, ?_⟩
    rintro ⟨i, hi⟩
    have hne : s'.cache_tags ≠ (initialize_tags s').cache_tags := by
      intro hx
      have := congrFun hx i
      rw [ht] at this
      exact hi this
    exact ⟨rfl, hne, fun hx => hne (congrArg block_cache.cache_tags hx)⟩
  · intro la ld ha hd
    refine ⟨la.length + ld.length + 1, fun fuel hf => ?_⟩
    have hc := clear_spec s la ld ha hd fuel (by omega) (by omega)
    refine ⟨_, hc, rfl, ?_⟩
    intro i h hh hp
    refine ⟨hh, ?_⟩
    show h ∈ s.released ++ la ++ ld
    rcases hp with hp | hp
    · simp [hp]
    · simp [hp]
  · rintro ⟨ch, la, ld, hk⟩ hres ⟨e, he⟩
    obtain ⟨i, hi, hei⟩ := (hk.in_bucket_iff e).1 he
    have hchain : IsChain s.next_same_cl (s.cache_tags i) (ch i) := (hk.buckets i hi).isChain
    cases hci : ch i with
    | nil => rw [hci] at hei; cases hei
    | cons h t =>
      rw [hci] at hchain
      have hmem : h ∈ ch i := by rw [hci]; exact List.mem_cons_self _ _
      exact ⟨i, h, hi, hchain.1, (hres h).1 ((hk.in_bucket_iff h).2 ⟨i, hi, hmem⟩)⟩

theorem clear_keeps_index_witness :
    links_ok cache_abc ∧ resident_in_both cache_abc ∧ (∃ e, in_bucket cache_abc e) ∧
    active_list cache_abc [3, 2, 1] ∧ dormant_list cache_abc [] ∧
    (∃ i h, i < HASH_SIZE ∧ cache_abc.cache_tags i = some h ∧ in_pool cache_abc h) ∧
    ∃ n, ∀ fuel, n ≤ fuel →
      ∃ s', clear fuel cache_abc = some s' ∧
        s'.released = cache_abc.released ++ [3, 2, 1] ++ [] ∧
        ∀ i h, cache_abc.cache_tags i = some h → h ∈ [3, 2, 1] ∨ h ∈ [] →
          s'.cache_tags i = some h ∧ h ∈ s'.released :=
  ⟨cache_abc_well_formed.links_ok, cache_abc_well_formed.resident, ⟨2, cache_abc_member.1⟩,
    cache_abc_lists.1, cache_abc_lists.2.1,
    (clear_keeps_index cache_abc).2.2 cache_abc_well_formed.links_ok
      cache_abc_well_formed.resident ⟨2, cache_abc_member.1⟩,
    (clear_keeps_index cache_abc).2.1 [3, 2, 1] [] cache_abc_lists.1 cache_abc_lists.2.1⟩

/-! ## Round trip, on consistently linked caches -/

/-- C3, amended.  In a consistently linked cache let `e` be resident: linked in a pool
list and in the bucket chain its `pc` hashes to, with the entries `l1` ahead of it in that
chain.  Then `find(e.pc)` returns, and it returns exactly `e` if and only if no entry of
`l1` has the same stored `pc` as `e`.  After `remove_from_lists(e)` and
`delete_blockinfo(e)` the chain is the old one without `e`, and neither
`fast_find(e.pc)` nor `find(e.pc)` returns `e`. -/
theorem round_trip [block_info β] (s : block_cache β) (hwf : links_ok s) (e : Nat)
    (hpool : in_pool s e) (l1 l2 : List Nat)
    (hl : bucket_chain s (cacheline (block_info.pc (s.info e))) (l1 ++ e :: l2)) :
    (∀ fuel, (l1 ++ e :: l2).length < fuel →
      ∃ s' r, find fuel s (block_info.pc (s.info e)) = some (s', r) ∧
        (r = some e ↔ ∀ x ∈ l1, block_info.pc (s.info x) ≠ block_info.pc (s.info e))) ∧
    (fast_find (delete_blockinfo (remove_from_lists s e) e) (block_info.pc (s.info e))).2 ≠
      some e ∧
    bucket_chain (delete_blockinfo (remove_from_lists s e) e)
      (cacheline (block_info.pc (s.info e))) (l1 ++ l2) ∧
    (∀ fuel, (l1 ++ l2).length < fuel →
      ∃ s' r, find fuel (delete_blockinfo (remove_from_lists s e) e)
          (block_info.pc (s.info e)) = some (s', r) ∧ r ≠ some e) := by
  obtain ⟨ch, la, ld, hk⟩ := hwf
  have hi := cacheline_lt (block_info.pc (s.info e))
  have hch := IsChain.functional hl (hk.buckets _ hi).isChain
  have hnd : (l1 ++ e :: l2).Nodup := IsChain.nodup hl
  have hel1 : e ∉ l1 := fun hx => (List.nodup_append.1 hnd).2.2 hx (List.mem_cons_self _ _)
  have hel2 : e ∉ l2 := (List.nodup_cons.1 (List.nodup_append.1 hnd).2.1).1
  have hq : e ∈ ch (cacheline (block_info.pc (s.info e))) := by rw [← hch]; simp
  have hk1 := links_remove_from_lists hk hi hq ((hk.in_pool_iff e).1 hpool)
  have hl2 : bucket_chain (delete_blockinfo (remove_from_lists s e) e)
      (cacheline (block_info.pc (s.info e))) (l1 ++ l2) := by
    have := (hk1.buckets _ hi).isChain
    have he : (ch (cacheline (block_info.pc (s.info e)))).erase e = l1 ++ l2 := by
      rw [← hch, List.erase_append_right _ hel1, List.erase_cons_head]
    rw [← he]
    exact this
  have hnot : e ∉ l1 ++ l2 := by
    intro hx
    rcases List.mem_append.1 hx with h | h
    · exact hel1 h
    · exact hel2 h
  refine ⟨?_, ?_, hl2, ?_⟩
  · intro fuel hf
    refine ⟨(find_result s (block_info.pc (s.info e)) (l1 ++ e :: l2)).1,
      (find_result s (block_info.pc (s.info e)) (l1 ++ e :: l2)).2,
      find_eq s _ _ hl fuel hf, ?_⟩
    rw [find_result_snd, List.find?_append]
    constructor
    · intro h x hx hpc
      have hsome : (l1.find? (pc_is s (block_info.pc (s.info e)))).isSome := by
        rw [List.find?_isSome]
        exact ⟨x, hx, by simp [pc_is, hpc]⟩
      obtain ⟨y, hy⟩ := Option.isSome_iff_exists.1 hsome
      rw [hy] at h
      have hye : y = e := Option.some.inj (h : some y = some e)
      exact hel1 (hye ▸ List.mem_of_find?_eq_some hy)
    · intro h
      have hnone : l1.find? (pc_is s (block_info.pc (s.info e))) = none := by
        rw [List.find?_eq_none]
        intro x hx
        simp [pc_is, h x hx]
      rw [hnone]
      simp [List.find?, pc_is]
  · intro h
    have h1 := fast_find_some h
    exact hnot (IsChain.head_in hl2 h1)
  · intro fuel hf
    refine ⟨(find_result (delete_blockinfo (remove_from_lists s e) e)
        (block_info.pc (s.info e)) (l1 ++ l2)).1,
      (find_result (delete_blockinfo (remove_from_lists s e) e)
        (block_info.pc (s.info e)) (l1 ++ l2)).2,
      find_eq _ _ _ hl2 fuel hf, ?_⟩
    rw [find_result_snd]
    intro h
    exact hnot (List.mem_of_find?_eq_some h)

theorem round_trip_witness :
    links_ok cache_abc ∧ in_pool cache_abc 2 ∧
    bucket_chain cache_abc (cacheline (block_info.pc (cache_abc.info 2))) ([3] ++ 2 :: [1]) ∧
    (∀ fuel, ([3] ++ 2 :: [1]).length < fuel →
      ∃ s' r, find fuel cache_abc (block_info.pc (cache_abc.info 2)) = some (s', r) ∧
        (r = some 2 ↔ ∀ x ∈ [3],
          block_info.pc (cache_abc.info x) ≠ block_info.pc (cache_abc.info 2))) ∧
    (fast_find (delete_blockinfo (remove_from_lists cache_abc 2) 2)
      (block_info.pc (cache_abc.info 2))).2 ≠ some 2 ∧
    bucket_chain (delete_blockinfo (remove_from_lists cache_abc 2) 2)
      (cacheline (block_info.pc (cache_abc.info 2))) ([3] ++ [1]) ∧
    (∀ fuel, ([3] ++ [1]).length < fuel →
      ∃ s' r, find fuel (delete_blockinfo (remove_from_lists cache_abc 2) 2)
          (block_info.pc (cache_abc.info 2)) = some (s', r) ∧ r ≠ some 2) :=
  ⟨cache_abc_well_formed.links_ok, cache_abc_member.2, ⟨rfl, rfl, rfl, rfl⟩,
    round_trip cache_abc cache_abc_well_formed.links_ok 2 cache_abc_member.2 [3] [1]
      ⟨rfl, rfl, rfl, rfl⟩⟩

end BlockCache
